import Mathlib

/-!
# Connect Four: board model, evaluator and agents

A shallow embedding of `connectfour.cpp`.

* `vector<vector<char>> board` has `ROW` rows of `COL` cells from the constructor on and is
  never resized, so a state is a function `Fin ROW → Fin COL → Char`; coordinates computed by
  the program are `Int`s and go through `State.get` / `State.set`.
* `vector<int> height` is a function `Fin COL → Nat`.
* A call that does not return normally (the `ERROR` exit of `drop`, `remove`, `getHeight`,
  a lookup of `PLAYER` or `SYMBOL` outside its keys, `x % 0` on an empty candidate list)
  yields `none`.
* The value drawn from the generator `mt()` is an argument `rnd` of every `move`.
-/

namespace ConnectFour

/-! ## Constants -/

/-- `const int INF = 100` -/
def INF : Int := 100

/-- `const int ROW = 6` -/
abbrev ROW : Nat := 6

/-- `const int COL = 7` -/
abbrev COL : Nat := 7

/-- `const int DIR = 4` -/
abbrev DIR : Nat := 4

/-- `const int DR[] = {0, 1, 1, 1}` -/
def DR : Nat → Int
  | 0 => 0
  | 1 => 1
  | 2 => 1
  | 3 => 1
  | _ => 0

/-- `const int DC[] = {1, -1, 0, 1}` -/
def DC : Nat → Int
  | 0 => 1
  | 1 => -1
  | 2 => 0
  | 3 => 1
  | _ => 0

/-- `const int PLAYER_O = 0` -/
abbrev PLAYER_O : Nat := 0

/-- `const int PLAYER_X = 1` -/
abbrev PLAYER_X : Nat := 1

/-- `const int NO_ONE = 2` -/
abbrev NO_ONE : Nat := 2

/-- `const int DRAW = 3` -/
abbrev DRAW : Nat := 3

/-- `const char EMPTY = '.'` -/
def EMPTY : Char := '.'

/-- `SYMBOL[PLAYER_O]` -/
def SYM_O : Char := 'o'

/-- `SYMBOL[PLAYER_X]` -/
def SYM_X : Char := 'x'

/-- `const char SYMBOL[] = {'o', 'x'}`; an index outside the array gives `none`. -/
def SYMBOL : Nat → Option Char
  | 0 => some SYM_O
  | 1 => some SYM_X
  | _ => none

/-- `const map<char, int> PLAYER = {{'o', 0}, {'x', 1}}`; `find` on another key gives `none`. -/
def PLAYER (ch : Char) : Option Nat :=
  if ch = SYM_O then some 0 else if ch = SYM_X then some 1 else none

/-- `const int ORDER[] = {3, 2, 4, 1, 5, 0, 6}` -/
def ORDER : List Int := [3, 2, 4, 1, 5, 0, 6]

/-- The values of `j` in `for (int j = 0; j < COL; j++)`. -/
def columns : List Int := (List.range COL).map Int.ofNat

/-- The values of `(i, j, dir)` in the nested loops
`for i < ROW`, `for j < COL`, `for dir < DIR`, in the order they are visited. -/
def scanOrder : List (Int × Int × Nat) :=
  (List.range ROW).flatMap fun i =>
    (List.range COL).flatMap fun j =>
      (List.range DIR).map fun dir => (Int.ofNat i, Int.ofNat j, dir)

/-- The values of `(i, j)` in the nested loops `for i < ROW`, `for j < COL`. -/
def cellOrder : List (Int × Int) :=
  (List.range ROW).flatMap fun i => (List.range COL).map fun j => (Int.ofNat i, Int.ofNat j)

/-! ## States and boards -/

/-- A `vector<vector<char>>` with `ROW` rows and `COL` columns. -/
abbrev State : Type := Fin ROW → Fin COL → Char

/-- `Board::outOfBounds` -/
def outOfBounds (r c : Int) : Bool :=
  if r < 0 ∨ (ROW : Int) ≤ r then true
  else if c < 0 ∨ (COL : Int) ≤ c then true
  else false

/-- Row index of an in-range `int`. -/
def rowIdx (r : Int) : Fin ROW := ⟨r.toNat % ROW, Nat.mod_lt _ (by decide)⟩

/-- Column index of an in-range `int`. -/
def colIdx (c : Int) : Fin COL := ⟨c.toNat % COL, Nat.mod_lt _ (by decide)⟩

/-- The read `state[r][c]`. The program only reads inside the grid (see `window_inBounds`);
outside it the model answers `'?'`, the value `getSquare` falls back to. -/
def State.get (s : State) (r c : Int) : Char :=
  if outOfBounds r c then '?' else s (rowIdx r) (colIdx c)

/-- The write `state[r][c] = ch`. -/
def State.set (s : State) (r c : Int) (ch : Char) : State :=
  fun i j => if (i.val : Int) = r ∧ (j.val : Int) = c then ch else s i j

/-- `class Board`: the grid and the fill height of every column. -/
@[ext]
structure Board where
  /-- `vector<vector<char>> board` -/
  board : State
  /-- `vector<int> height` -/
  height : Fin COL → Nat

/-- `Board::Board()` -/
def Board.new : Board := ⟨fun _ _ => EMPTY, fun _ => 0⟩

/-- `Board::getSquare` -/
def Board.getSquare (b : Board) (r c : Int) : Option Char :=
  if outOfBounds r c then none else some (b.board.get r c)

/-- `Board::getHeight` -/
def Board.getHeight (b : Board) (c : Int) : Option Nat :=
  if c < 0 ∨ (COL : Int) ≤ c then none else some (b.height (colIdx c))

/-- `Board::getBoard` -/
def Board.getBoard (b : Board) : State := b.board

/-- `Board::drop`, as the board when the call ends and whether it returned normally
(`false`: one of the two `ERROR` branches was taken, or `SYMBOL[player]` is outside the array). -/
def Board.dropRun (b : Board) (col : Int) (player : Nat) : Board × Bool :=
  if col < 0 ∨ (COL : Int) ≤ col then (b, false)
  else if b.height (colIdx col) ≥ ROW then (b, false)
  else
    match SYMBOL player with
    | none => (b, false)
    | some ch =>
      (⟨b.board.set (b.height (colIdx col)) col ch,
        Function.update b.height (colIdx col) (b.height (colIdx col) + 1)⟩, true)

/-- `Board::drop` -/
def Board.drop (b : Board) (col : Int) (player : Nat) : Option Board :=
  if (b.dropRun col player).2 then some (b.dropRun col player).1 else none

/-- `Board::remove`, as the board when the call ends and whether it returned normally. -/
def Board.removeRun (b : Board) (col : Int) : Board × Bool :=
  if col < 0 ∨ (COL : Int) ≤ col then (b, false)
  else if b.height (colIdx col) ≤ 0 then (b, false)
  else
    (⟨b.board.set ((b.height (colIdx col) : Int) - 1) col EMPTY,
      Function.update b.height (colIdx col) (b.height (colIdx col) - 1)⟩, true)

/-- `Board::remove` -/
def Board.remove (b : Board) (col : Int) : Option Board :=
  if (b.removeRun col).2 then some (b.removeRun col).1 else none

/-- `Board::invert` -/
def invert (state : State) : State :=
  fun i j =>
    if state i j = SYM_O then SYM_X
    else if state i j = SYM_X then SYM_O
    else state i j

/-- `Board::invertBoard` -/
def Board.invertBoard (b : Board) : Board := ⟨invert b.board, b.height⟩

/-- The loop `for (k = 0; k < 3; k++)` of `checkWinner`: `b` stays `true`. -/
def lineOfFour (s : State) (i j : Int) (dir : Nat) : Bool :=
  (List.range 3).all fun k =>
    !(s.get (i + k * DR dir) (j + k * DC dir) == EMPTY) &&
    !(s.get (i + k * DR dir) (j + k * DC dir)
        != s.get (i + k * DR dir + DR dir) (j + k * DC dir + DC dir))

/-- The first loop nest of `checkWinner`: the player looked up at the first `(i, j, dir)`
whose line of four is complete. -/
def winnerScan (s : State) : List (Int × Int × Nat) → Option (Option Nat)
  | [] => none
  | (i, j, dir) :: rest =>
    if s.get i j == EMPTY then winnerScan s rest
    else if outOfBounds (i + 3 * DR dir) (j + 3 * DC dir) then winnerScan s rest
    else if lineOfFour s i j dir then some (PLAYER (s.get i j))
    else winnerScan s rest

/-- `Board::checkWinner` -/
def Board.checkWinner (b : Board) : Option Nat :=
  match winnerScan b.board scanOrder with
  | some w => w
  | none =>
    if cellOrder.any (fun p => b.board.get p.1 p.2 == EMPTY) then some NO_ONE else some DRAW

/-- The loop `for (k = 0; k < 4; k++)` of `eval`: the number of cells of the window
holding `ch`. -/
def countInWindow (s : State) (i j : Int) (dir : Nat) (ch : Char) : Int :=
  (List.range 4).foldl
    (fun (n : Int) (k : Nat) =>
      if s.get (i + k * DR dir) (j + k * DC dir) = ch then n + 1 else n) 0

/-- The second loop nest of `eval`, from the running `score`. -/
def evalScan (s : State) (empty : Int) : List (Int × Int × Nat) → Int → Int
  | [], score => score
  | (i, j, dir) :: rest, score =>
    if outOfBounds (i + 3 * DR dir) (j + 3 * DC dir) then evalScan s empty rest score
    else if countInWindow s i j dir SYM_O = 4 then INF + empty
    else if countInWindow s i j dir SYM_X = 4 then -(INF + empty)
    else
      evalScan s empty rest
        ((if countInWindow s i j dir SYM_X = 0 then score + 1 else score)
          - (if countInWindow s i j dir SYM_O = 0 then 1 else 0))

/-- The first loop nest of `eval`: the number of empty cells. -/
def countEmpty (s : State) : Int :=
  cellOrder.foldl (fun (n : Int) (p : Int × Int) => if s.get p.1 p.2 = EMPTY then n + 1 else n) 0

/-- `Negamax::eval` and `AlphaBeta::eval` (the two bodies are the same text). -/
def eval (state : State) : Int :=
  evalScan state (countEmpty state) scanOrder 0

/-! ## Agents

Every `move` takes the board by reference; the model returns the column together with the
board as the call leaves it. -/

/-- `moves[mt() % moves.size()]`, with `rnd` the value of `mt()`. -/
def pick (moves : List Int) (rnd : Nat) : Option Int :=
  if moves.length = 0 then none else moves[rnd % moves.length]?

/-- The loop `for j: if (board.getHeight(j) < ROW) moves.push_back(j)`. -/
def collectLegal (board : Board) : List Int → List Int → Option (List Int)
  | [], moves => some moves
  | j :: rest, moves =>
    match board.getHeight j with
    | none => none
    | some h => collectLegal board rest (if h < ROW then moves ++ [j] else moves)

/-- `Random::move` -/
def Random.move (board : Board) (_turn rnd : Nat) : Option (Int × Board) :=
  match collectLegal board columns [] with
  | none => none
  | some moves => (pick moves rnd).map fun next => (next, board)

/-- The first loop of `OneMove::move` (`who = turn`) and the second (`who = turn^1`):
the first column where dropping the mark of `who` makes `checkWinner` return `who`. -/
def OneMove.findWin (who : Nat) : List Int → Board → Option (Option Int × Board)
  | [], board => some (none, board)
  | j :: rest, board =>
    match board.getHeight j with
    | none => none
    | some h =>
      if h < ROW then
        match board.drop j who with
        | none => none
        | some b1 =>
          match b1.checkWinner with
          | none => none
          | some w =>
            match b1.remove j with
            | none => none
            | some b2 => if w = who then some (some j, b2) else OneMove.findWin who rest b2
      else OneMove.findWin who rest board

/-- The third loop of `OneMove::move`, collecting the columns that do not hand the game over. -/
def OneMove.safeScan (turn : Nat) : List Int → Board → List Int → Option (List Int × Board)
  | [], board, moves => some (moves, board)
  | j :: rest, board, moves =>
    match board.getHeight j with
    | none => none
    | some h =>
      if h ≤ ROW - 2 then
        match board.drop j turn with
        | none => none
        | some b1 =>
          match b1.drop j (turn ^^^ 1) with
          | none => none
          | some b2 =>
            match b2.checkWinner with
            | none => none
            | some w =>
              match b2.remove j with
              | none => none
              | some b3 =>
                match b3.remove j with
                | none => none
                | some b4 =>
                  OneMove.safeScan turn rest b4 (if w = (turn ^^^ 1) then moves else moves ++ [j])
      else if h = ROW - 1 then
        match board.drop j turn with
        | none => none
        | some b1 =>
          match b1.checkWinner with
          | none => none
          | some w =>
            match b1.remove j with
            | none => none
            | some b2 =>
              OneMove.safeScan turn rest b2 (if w = NO_ONE then moves ++ [j] else moves)
      else OneMove.safeScan turn rest board moves

/-- `OneMove::move` -/
def OneMove.move (board : Board) (turn rnd : Nat) : Option (Int × Board) :=
  match OneMove.findWin turn columns board with
  | none => none
  | some (some j, b1) => some (j, b1)
  | some (none, b1) =>
    match OneMove.findWin (turn ^^^ 1) columns b1 with
    | none => none
    | some (some j, b2) => some (j, b2)
    | some (none, b2) =>
      match OneMove.safeScan turn columns b2 [] with
      | none => none
      | some (moves, b3) =>
        if moves.length ≠ 0 then (pick moves rnd).map fun next => (next, b3)
        else
          match collectLegal b3 columns [] with
          | none => none
          | some all => (pick all rnd).map fun next => (next, b3)

/-- The candidate loop at the end of both `negamax` functions and their return value:
a column drawn among those whose score is `maxscore` when `parent`, else `maxscore`. -/
def finish (parent : Bool) (rnd : Nat) (score : Int → Int) (maxscore : Int) : Option Int :=
  if parent then pick (columns.filter fun j => score j = maxscore) rnd else some maxscore

/-- The value `v` of one column in `Negamax::negamax`, on the board after the drop.
`deeper` is `none` when `depth > 1` fails and else the call `negamax(board, depth-1, false)`. -/
def Negamax.value (deeper : Option (Board → Option (Int × Board))) (board : Board) :
    Option (Int × Board) :=
  match deeper with
  | some search =>
    if -INF < eval board.getBoard ∧ eval board.getBoard < INF then
      match search board.invertBoard with
      | none => none
      | some (r, b1) => some (-r, b1.invertBoard)
    else some (eval board.getBoard, board.invertBoard.invertBoard)
  | none => some (eval board.getBoard, board)

/-- The column loop of `Negamax::negamax`. -/
def Negamax.scan (deeper : Option (Board → Option (Int × Board))) :
    List Int → Board → (Int → Int) → Int → Option (Board × (Int → Int) × Int)
  | [], board, score, maxscore => some (board, score, maxscore)
  | j :: rest, board, score, maxscore =>
    match board.getHeight j with
    | none => none
    | some h =>
      if h ≥ ROW then Negamax.scan deeper rest board score maxscore
      else
        match board.drop j PLAYER_O with
        | none => none
        | some b1 =>
          match Negamax.value deeper b1 with
          | none => none
          | some (v, b2) =>
            match b2.remove j with
            | none => none
            | some b3 =>
              Negamax.scan deeper rest b3 (Function.update score j v)
                (if v > maxscore then v else maxscore)

/-- `Negamax::negamax` -/
def Negamax.negamax : Nat → Board → Bool → Nat → Option (Int × Board)
  | depth + 2, board, parent, rnd =>
    match Negamax.scan (some fun b => Negamax.negamax (depth + 1) b false rnd) columns board
        (fun _ => -3 * INF) (-2 * INF) with
    | none => none
    | some (b, score, maxscore) => (finish parent rnd score maxscore).map fun r => (r, b)
  | _, board, parent, rnd =>
    match Negamax.scan none columns board (fun _ => -3 * INF) (-2 * INF) with
    | none => none
    | some (b, score, maxscore) => (finish parent rnd score maxscore).map fun r => (r, b)

/-- `Negamax::move`, for an agent built with `Negamax(depth)`. -/
def Negamax.move (depth : Nat) (board : Board) (turn rnd : Nat) : Option (Int × Board) :=
  match Negamax.negamax depth (if turn = PLAYER_X then board.invertBoard else board) true rnd with
  | none => none
  | some (next, b1) => some (next, if turn = PLAYER_X then b1.invertBoard else b1)

/-- The least value of the 32-bit `int` that holds the bounds of `AlphaBeta::negamax`. -/
def INT_MIN : Int := -2147483648

/-- The greatest value of the 32-bit `int` that holds the bounds of `AlphaBeta::negamax`. -/
def INT_MAX : Int := 2147483647

/-- The unary minus of a 32-bit `int` in two's complement: `-x` reduced into
`[INT_MIN, INT_MAX]`, which is `-x` except at `INT_MIN`, where it is `INT_MIN` again. -/
def negInt (x : Int) : Int := (-x + 2147483648) % 4294967296 - 2147483648

/-- The value `v` of one column in `AlphaBeta::negamax`, on the board after the drop.
`deeper` is `none` when `depth > 1` fails and else the call
`negamax(board, depth-1, false, ·, ·)`. The bounds `-beta` and `-alpha` are negated as
`int`s; the result of the call lies between `-2*INF` and `2*INF`, so its negation is the
same in `int` and in `Int`. -/
def AlphaBeta.value (deeper : Option (Board → Int → Int → Option (Int × Board)))
    (board : Board) (alpha beta : Int) : Option (Int × Board) :=
  match deeper with
  | some search =>
    if -INF < eval board.getBoard ∧ eval board.getBoard < INF then
      match search board.invertBoard (negInt beta) (negInt alpha) with
      | none => none
      | some (r, b1) => some (-r, b1.invertBoard)
    else some (eval board.getBoard, board.invertBoard.invertBoard)
  | none => some (eval board.getBoard, board)

/-- The column loop of `AlphaBeta::negamax`, over the entries of `ORDER`; the loop ends
at the `break` taken when `v > beta`. -/
def AlphaBeta.scan (deeper : Option (Board → Int → Int → Option (Int × Board))) :
    List Int → Board → (Int → Int) → Int → Int → Int → Option (Board × (Int → Int) × Int)
  | [], board, score, maxscore, _, _ => some (board, score, maxscore)
  | c :: rest, board, score, maxscore, alpha, beta =>
    match board.getHeight c with
    | none => none
    | some h =>
      if h ≥ ROW then AlphaBeta.scan deeper rest board score maxscore alpha beta
      else
        match board.drop c PLAYER_O with
        | none => none
        | some b1 =>
          match AlphaBeta.value deeper b1 alpha beta with
          | none => none
          | some (v, b2) =>
            match b2.remove c with
            | none => none
            | some b3 =>
              if v > beta then
                some (b3, Function.update score c v, if v > maxscore then v else maxscore)
              else
                AlphaBeta.scan deeper rest b3 (Function.update score c v)
                  (if v > maxscore then v else maxscore) (if v > alpha then v else alpha) beta

/-- `AlphaBeta::negamax` -/
def AlphaBeta.negamax : Nat → Board → Bool → Int → Int → Nat → Option (Int × Board)
  | depth + 2, board, parent, alpha, beta, rnd =>
    match AlphaBeta.scan (some fun b a c => AlphaBeta.negamax (depth + 1) b false a c rnd)
        ORDER board (fun _ => -3 * INF) (-2 * INF) alpha beta with
    | none => none
    | some (b, score, maxscore) => (finish parent rnd score maxscore).map fun r => (r, b)
  | _, board, parent, alpha, beta, rnd =>
    match AlphaBeta.scan none ORDER board (fun _ => -3 * INF) (-2 * INF) alpha beta with
    | none => none
    | some (b, score, maxscore) => (finish parent rnd score maxscore).map fun r => (r, b)

/-- `AlphaBeta::move`, for an agent built with `AlphaBeta(depth)`. -/
def AlphaBeta.move (depth : Nat) (board : Board) (turn rnd : Nat) : Option (Int × Board) :=
  match AlphaBeta.negamax depth (if turn = PLAYER_X then board.invertBoard else board) true
      (-4 * INF) (4 * INF) rnd with
  | none => none
  | some (next, b1) => some (next, if turn = PLAYER_X then b1.invertBoard else b1)

/-! ## Predicates of the specification -/

/-- The gravity invariant: in every column the cells below the height are occupied and the
cells from the height up are empty. -/
def Board.Gravity (b : Board) : Prop :=
  ∀ c : Fin COL, b.height c ≤ ROW ∧
    ∀ r : Fin ROW, (r.val < b.height c → b.board r c ≠ EMPTY) ∧
      (b.height c ≤ r.val → b.board r c = EMPTY)

/-- Every cell is one of `'.'`, `'o'`, `'x'`. -/
def State.Marks (s : State) : Prop :=
  ∀ r c, s r c = EMPTY ∨ s r c = SYM_O ∨ s r c = SYM_X

/-- Column `c` can take one more piece. -/
def Board.Legal (b : Board) (c : Int) : Prop :=
  0 ≤ c ∧ c < (COL : Int) ∧ b.height (colIdx c) < ROW

/-- The four cells starting at `(r, c)` and stepping by `(dr, dc)` are on the grid and all
hold `m`. -/
def FourAt (s : State) (m : Char) (r c : Int) (dr dc : Int) : Prop :=
  ∀ k ∈ [(0 : Int), 1, 2, 3],
    outOfBounds (r + k * dr) (c + k * dc) = false ∧ s.get (r + k * dr) (c + k * dc) = m

/-- A 4-in-a-row of the mark `m`: four consecutive cells along a row, a column or either
diagonal. -/
def HasFour (s : State) (m : Char) : Prop :=
  ∃ r : Fin ROW, ∃ c : Fin COL,
    FourAt s m r.val c.val 0 1 ∨ FourAt s m r.val c.val 1 0 ∨
      FourAt s m r.val c.val 1 1 ∨ FourAt s m r.val c.val 1 (-1)

/-- A 4-in-a-row of either mark starts at `(i, j)` and runs in direction `dir`, that is by
steps of `(DR[dir], DC[dir])`. -/
def LineAt (s : State) (t : Int × Int × Nat) : Prop :=
  FourAt s SYM_O t.1 t.2.1 (DR t.2.2) (DC t.2.2) ∨ FourAt s SYM_X t.1 t.2.1 (DR t.2.2) (DC t.2.2)

/-- Some cell of the state is empty. -/
def HasEmpty (s : State) : Prop := ∃ r c, s r c = EMPTY

/-! ## Auxiliary definitions used in the proofs -/

/-- The board after a `drop` that succeeds with the mark `ch`. -/
def Board.put (b : Board) (col : Int) (ch : Char) : Board :=
  ⟨b.board.set (b.height (colIdx col)) col ch,
    Function.update b.height (colIdx col) (b.height (colIdx col) + 1)⟩

/-- A sequence of `drop` calls, each given as `(column, player)`. -/
def dropAll : List (Int × Nat) → Board → Option Board
  | [], b => some b
  | (c, p) :: rest, b =>
    match b.drop c p with
    | none => none
    | some b1 => dropAll rest b1

/-- A sequence of `remove` calls. -/
def removeAll : List Int → Board → Option Board
  | [], b => some b
  | c :: rest, b =>
    match b.remove c with
    | none => none
    | some b1 => removeAll rest b1

instance instDecidableGravity (b : Board) : Decidable b.Gravity := by
  unfold Board.Gravity; infer_instance

instance instDecidableMarks (s : State) : Decidable s.Marks := by
  unfold State.Marks; infer_instance

instance instDecidableLegal (b : Board) (c : Int) : Decidable (b.Legal c) := by
  unfold Board.Legal; infer_instance

instance instDecidableFourAt (s : State) (m : Char) (r c : Int) (dr dc : Int) :
    Decidable (FourAt s m r c dr dc) := by
  unfold FourAt; infer_instance

instance instDecidableLineAt (s : State) (t : Int × Int × Nat) : Decidable (LineAt s t) := by
  unfold LineAt; infer_instance

/-- The test that ends the first loop nest of `checkWinner` at `(i, j, dir)`. -/
def hitAt (s : State) (t : Int × Int × Nat) : Bool :=
  !(s.get t.1 t.2.1 == EMPTY) && !(outOfBounds (t.1 + 3 * DR t.2.2) (t.2.1 + 3 * DC t.2.2))
    && lineOfFour s t.1 t.2.1 t.2.2

instance instDecidableHasFour (s : State) (m : Char) : Decidable (HasFour s m) := by
  unfold HasFour; infer_instance

instance instDecidableHasEmpty (s : State) : Decidable (HasEmpty s) := by
  unfold HasEmpty; infer_instance

/-- The test under which the second loop nest of `eval` returns at `(i, j, dir)` for the
mark `ch`. -/
def winAt (s : State) (ch : Char) (t : Int × Int × Nat) : Prop :=
  outOfBounds (t.1 + 3 * DR t.2.2) (t.2.1 + 3 * DC t.2.2) = false ∧
    countInWindow s t.1 t.2.1 t.2.2 ch = 4

/-- The window starting at `(i, j)` in direction `dir` stays on the grid: the negation of the
`outOfBounds` test of `eval` and `checkWinner`. -/
def inGrid (t : Int × Int × Nat) : Bool :=
  !outOfBounds (t.1 + 3 * DR t.2.2) (t.2.1 + 3 * DC t.2.2)

/-- The number of empty cells of a state. -/
def emptyCount (s : State) : Nat :=
  (Finset.univ.filter fun p : Fin ROW × Fin COL => s p.1 p.2 = EMPTY).card

/-- The cells of the grid, row by row. -/
def cellsFin : List (Fin ROW × Fin COL) :=
  (List.finRange ROW).flatMap fun i => (List.finRange COL).map fun j => (i, j)

/-- Dropping the mark of `who` into column `j` succeeds and makes `checkWinner` return `who`. -/
def winsAt (b : Board) (who : Nat) (j : Int) : Bool :=
  decide ((b.drop j who).bind Board.checkWinner = some who)

/-- The test of the third loop of `OneMove::move` on column `j`: with room for two pieces,
the opponent's reply on top of the mover's piece does not win; with room for one piece,
the mover's piece leaves the game in progress. -/
def safeAt (b : Board) (turn : Nat) (j : Int) : Bool :=
  match b.getHeight j with
  | none => false
  | some h =>
    if h ≤ ROW - 2 then
      decide (((b.drop j turn).bind fun b1 => b1.drop j (turn ^^^ 1)).bind Board.checkWinner
        ≠ some (turn ^^^ 1))
    else if h = ROW - 1 then
      decide ((b.drop j turn).bind Board.checkWinner = some NO_ONE)
    else false

/-- The column `OneMove::move` returns, as a function of the board it is given. -/
def OneMove.choice (b : Board) (turn rnd : Nat) : Option Int :=
  match columns.find? (winsAt b turn) with
  | some j => some j
  | none =>
    match columns.find? (winsAt b (turn ^^^ 1)) with
    | some j => some j
    | none =>
      if (columns.filter (safeAt b turn)).length ≠ 0 then pick (columns.filter (safeAt b turn)) rnd
      else pick (columns.filter fun j => decide (b.Legal j)) rnd

/-- The board after the two players, `p` first, take turns dropping into the listed columns. -/
def playFrom : Board → Nat → List Int → Board
  | b, _, [] => b
  | b, p, c :: rest => playFrom (b.put c (if p = 0 then SYM_O else SYM_X)) (p ^^^ 1) rest

/-- Three `'o'` side by side on the bottom row, columns 1 to 3, with `'x'` on top of each. -/
def threeInRow : Board := playFrom Board.new 0 [1, 1, 2, 2, 3, 3]

/-- Three `'x'` side by side on the bottom row, columns 1 to 3; `'o'` holds column 0 twice
and column 6. -/
def threatBoard : Board := playFrom Board.new 0 [0, 1, 0, 2, 6, 3]

/-- The value `v` of one column in `Negamax::negamax` as a function of the board after the
drop; `deeper` is the value returned by the search one ply deeper, if there is one. -/
def Negamax.valueP (deeper : Option (Board → Int)) (b : Board) : Int :=
  match deeper with
  | some f => if -INF < eval b.board ∧ eval b.board < INF then -(f b.invertBoard) else eval b.board
  | none => eval b.board

/-- The scores and the maximum computed by the column loop of `Negamax::negamax`, as a
function of the board. -/
def Negamax.scanP (deeper : Option (Board → Int)) (b : Board) :
    List Int → (Int → Int) → Int → (Int → Int) × Int
  | [], score, m => (score, m)
  | j :: rest, score, m =>
    if b.height (colIdx j) ≥ ROW then Negamax.scanP deeper b rest score m
    else
      Negamax.scanP deeper b rest (Function.update score j (Negamax.valueP deeper (b.put j SYM_O)))
        (if Negamax.valueP deeper (b.put j SYM_O) > m then Negamax.valueP deeper (b.put j SYM_O)
          else m)

/-- The value `maxscore` that `Negamax::negamax(board, depth, false)` returns. -/
def Negamax.best : Nat → Board → Int
  | d + 2, b =>
    (Negamax.scanP (some (Negamax.best (d + 1))) b columns (fun _ => -3 * INF) (-2 * INF)).2
  | _, b => (Negamax.scanP none b columns (fun _ => -3 * INF) (-2 * INF)).2

/-- The search one ply below depth `depth`, if `depth > 1`. -/
def Negamax.deeperP : Nat → Option (Board → Int)
  | d + 2 => some (Negamax.best (d + 1))
  | _ => none

/-- The value `v` of one column in `AlphaBeta::negamax` as a function of the board after the
drop and of the bounds. -/
def AlphaBeta.valueP (deeper : Option (Board → Int → Int → Int)) (b : Board)
    (alpha beta : Int) : Int :=
  match deeper with
  | some f =>
    if -INF < eval b.board ∧ eval b.board < INF then
      -(f b.invertBoard (negInt beta) (negInt alpha))
    else eval b.board
  | none => eval b.board

/-- The scores and the maximum computed by the column loop of `AlphaBeta::negamax`, as a
function of the board and of the bounds. -/
def AlphaBeta.scanP (deeper : Option (Board → Int → Int → Int)) (b : Board) :
    List Int → (Int → Int) → Int → Int → Int → (Int → Int) × Int
  | [], score, m, _, _ => (score, m)
  | c :: rest, score, m, alpha, beta =>
    if b.height (colIdx c) ≥ ROW then AlphaBeta.scanP deeper b rest score m alpha beta
    else if AlphaBeta.valueP deeper (b.put c SYM_O) alpha beta > beta then
      (Function.update score c (AlphaBeta.valueP deeper (b.put c SYM_O) alpha beta),
        if AlphaBeta.valueP deeper (b.put c SYM_O) alpha beta > m
          then AlphaBeta.valueP deeper (b.put c SYM_O) alpha beta else m)
    else
      AlphaBeta.scanP deeper b rest
        (Function.update score c (AlphaBeta.valueP deeper (b.put c SYM_O) alpha beta))
        (if AlphaBeta.valueP deeper (b.put c SYM_O) alpha beta > m
          then AlphaBeta.valueP deeper (b.put c SYM_O) alpha beta else m)
        (if AlphaBeta.valueP deeper (b.put c SYM_O) alpha beta > alpha
          then AlphaBeta.valueP deeper (b.put c SYM_O) alpha beta else alpha) beta

/-- The value `maxscore` that `AlphaBeta::negamax(board, depth, false, alpha, beta)` returns. -/
def AlphaBeta.best : Nat → Board → Int → Int → Int
  | d + 2, b, alpha, beta =>
    (AlphaBeta.scanP (some (AlphaBeta.best (d + 1))) b ORDER (fun _ => -3 * INF) (-2 * INF)
      alpha beta).2
  | _, b, alpha, beta =>
    (AlphaBeta.scanP none b ORDER (fun _ => -3 * INF) (-2 * INF) alpha beta).2

/-- The search one ply below depth `depth`, if `depth > 1`. -/
def AlphaBeta.deeperP : Nat → Option (Board → Int → Int → Int)
  | d + 2 => some (AlphaBeta.best (d + 1))
  | _ => none

/-- The stateful search one ply deeper returns the value `dp` gives and restores the board. -/
def Negamax.Agree (deeper : Option (Board → Option (Int × Board)))
    (dp : Option (Board → Int)) : Prop :=
  match deeper, dp with
  | none, none => True
  | some g, some f => ∀ b : Board, b.Gravity → g b = some (f b, b)
  | _, _ => False

/-- The stateful search one ply deeper returns the value `dp` gives and restores the board. -/
def AlphaBeta.Agree (deeper : Option (Board → Int → Int → Option (Int × Board)))
    (dp : Option (Board → Int → Int → Int)) : Prop :=
  match deeper, dp with
  | none, none => True
  | some g, some f =>
    ∀ (b : Board) (alpha beta : Int), b.Gravity → g b alpha beta = some (f b alpha beta, b)
  | _, _ => False

/-- Every value of the search one ply deeper lies between `-2*INF` and `2*INF`. -/
def Negamax.Bounded (dp : Option (Board → Int)) : Prop :=
  ∀ f, dp = some f → ∀ b : Board, -200 ≤ f b ∧ f b ≤ 200

/-- Every value of the search one ply deeper lies between `-2*INF` and `2*INF`. -/
def AlphaBeta.Bounded (dp : Option (Board → Int → Int → Int)) : Prop :=
  ∀ f, dp = some f →
    ∀ (b : Board) (alpha beta : Int), -200 ≤ f b alpha beta ∧ f b alpha beta ≤ 200

/-- The state of the column loop at the root, with the columns of `L` still to visit: the
maximum is at least `-2*INF`, every score is either the initial `-3*INF` or the score of
a legal column between `-2*INF` and the maximum, and a maximum above `-2*INF` is the score
of a column already visited. -/
def RootInv (b : Board) (L : List Int) (score : Int → Int) (m : Int) : Prop :=
  -200 ≤ m ∧
  (∀ j, score j = -300 ∨ (j ∈ columns ∧ b.Legal j ∧ -200 ≤ score j ∧ score j ≤ m)) ∧
  (-200 < m → ∃ j, j ∉ L ∧ score j = m)

/-- How a value `r` computed with the bounds `(alpha, beta)` relates to the value `n`
computed without bounds: below `alpha` it is an upper bound of `n`, from `alpha` to `beta`
it is `n`, above `beta` it is a lower bound of `n`. -/
def ABInv (r n alpha beta : Int) : Prop :=
  (r < alpha → n ≤ r) ∧ (alpha ≤ r → r ≤ beta → r = n) ∧ (beta < r → r ≤ n)

/-- The pruned search one ply deeper relates to the plain search one ply deeper as `ABInv`
says, for all bounds with `INT_MIN < alpha ≤ beta ≤ INT_MAX`. -/
def SearchRel (dpA : Option (Board → Int → Int → Int)) (dpN : Option (Board → Int)) : Prop :=
  match dpA, dpN with
  | none, none => True
  | some fA, some fN =>
    ∀ (b : Board) (alpha beta : Int), alpha ≤ beta → -2147483648 < alpha →
      beta ≤ 2147483647 → ABInv (fA b alpha beta) (fN b) alpha beta
  | _, _ => False

/-- The loop invariant relating the state `(m, alpha)` of the pruned column loop, entered
with the lower bound `alpha0`, to the maximum `n` of the plain loop over the same columns. -/
def LoopRel (alpha0 beta m alpha n : Int) : Prop :=
  alpha0 ≤ alpha ∧ alpha ≤ beta ∧ n ≤ m ∧ (alpha0 ≤ m → m = n) ∧ (alpha ≤ alpha0 ∨ alpha ≤ m)

/-- The fold that computes the maximum of the column loop of `Negamax::negamax`. -/
def Negamax.maxStep (dp : Option (Board → Int)) (b : Board) (m : Int) (j : Int) : Int :=
  if b.height (colIdx j) ≥ ROW then m
  else if Negamax.valueP dp (b.put j SYM_O) > m then Negamax.valueP dp (b.put j SYM_O) else m

/-- The boards the program can build: from the constructor by successful `drop`, successful
`remove` and `invertBoard`. -/
inductive Reachable : Board → Prop
  | new : Reachable Board.new
  | drop {b b1 : Board} (col : Int) (player : Nat) :
      Reachable b → b.drop col player = some b1 → Reachable b1
  | remove {b b1 : Board} (col : Int) : Reachable b → b.remove col = some b1 → Reachable b1
  | invert {b : Board} : Reachable b → Reachable b.invertBoard

/-- The sum of the column heights. -/
def heightSum (b : Board) : Nat := ∑ c : Fin COL, b.height c

/-- The number of non-empty cells of a state. -/
def nonEmptyCount (s : State) : Nat :=
  (Finset.univ.filter fun p : Fin ROW × Fin COL => s p.1 p.2 ≠ EMPTY).card

/-- The board after a `remove` that succeeds. -/
def Board.take (b : Board) (col : Int) : Board :=
  ⟨b.board.set ((b.height (colIdx col) : Int) - 1) col EMPTY,
    Function.update b.height (colIdx col) (b.height (colIdx col) - 1)⟩

/-- The four cells of the window that starts at `(i, j)` and runs in direction `dir`. -/
def windowCells (t : Int × Int × Nat) : List (Int × Int) :=
  (List.range 4).map fun (k : Nat) => (t.1 + k * DR t.2.2, t.2.1 + k * DC t.2.2)

/-- The windows of the grid: the starts and directions whose four cells are all on the
grid. -/
def allWindows : List (Int × Int × Nat) :=
  scanOrder.filter fun t => (windowCells t).all fun p => !outOfBounds p.1 p.2

/-- No cell of the window holds `ch`. -/
def windowFree (s : State) (ch : Char) (t : Int × Int × Nat) : Bool :=
  (windowCells t).all fun p => s.get p.1 p.2 != ch

/-- The number of windows of the grid containing no `ch`. -/
def freeWindows (s : State) (ch : Char) : Nat :=
  (allWindows.filter (windowFree s ch)).length

/-- What one window adds to the score: `+1` when it holds no `'x'`, `-1` when it holds no
`'o'`. -/
def contribution (s : State) (t : Int × Int × Nat) : Int :=
  (if windowFree s SYM_X t then 1 else 0) - (if windowFree s SYM_O t then 1 else 0)

/-- The call `negamax(board, depth-1, false)` made by `Negamax::negamax` at depth `depth`,
when `depth > 1`. -/
def Negamax.deeperS (depth rnd : Nat) : Option (Board → Option (Int × Board)) :=
  match depth with
  | k + 2 => some fun b => Negamax.negamax (k + 1) b false rnd
  | _ => none

/-- The call `negamax(board, depth-1, false, ·, ·)` made by `AlphaBeta::negamax` at depth
`depth`, when `depth > 1`. -/
def AlphaBeta.deeperS (depth rnd : Nat) : Option (Board → Int → Int → Option (Int × Board)) :=
  match depth with
  | k + 2 => some fun b a c => AlphaBeta.negamax (k + 1) b false a c rnd
  | _ => none

/-- The column loop of `AlphaBeta::negamax` once more, reporting where it ends: the column at
which `break` is taken with the value `v > beta` found there, or `none` when the loop runs
through all of `ORDER`. -/
def AlphaBeta.cutAt (deeper : Option (Board → Int → Int → Option (Int × Board))) :
    List Int → Board → Int → Int → Option (Option (Int × Int))
  | [], _, _, _ => some none
  | c :: rest, board, alpha, beta =>
    match board.getHeight c with
    | none => none
    | some h =>
      if h ≥ ROW then AlphaBeta.cutAt deeper rest board alpha beta
      else
        match board.drop c PLAYER_O with
        | none => none
        | some b1 =>
          match AlphaBeta.value deeper b1 alpha beta with
          | none => none
          | some (v, b2) =>
            match b2.remove c with
            | none => none
            | some b3 =>
              if v > beta then some (some (c, v))
              else AlphaBeta.cutAt deeper rest b3 (if v > alpha then v else alpha) beta

/-- The end of the column loop of `AlphaBeta::negamax` as a function of the board. -/
def AlphaBeta.cutP (deeper : Option (Board → Int → Int → Int)) (b : Board) :
    List Int → Int → Int → Option (Int × Int)
  | [], _, _ => none
  | c :: rest, alpha, beta =>
    if b.height (colIdx c) ≥ ROW then AlphaBeta.cutP deeper b rest alpha beta
    else if AlphaBeta.valueP deeper (b.put c SYM_O) alpha beta > beta then
      some (c, AlphaBeta.valueP deeper (b.put c SYM_O) alpha beta)
    else
      AlphaBeta.cutP deeper b rest
        (if AlphaBeta.valueP deeper (b.put c SYM_O) alpha beta > alpha
          then AlphaBeta.valueP deeper (b.put c SYM_O) alpha beta else alpha) beta

/-- The state of the pruned column loop while no `break` has been taken: the maximum is at
least `-2*INF` and is `-2*INF` or at most `beta`, and every score is the initial `-3*INF`
or at most `beta`. -/
def NoCutYet (beta : Int) (score : Int → Int) (m : Int) : Prop :=
  -200 ≤ m ∧ (m = -200 ∨ m ≤ beta) ∧ ∀ j, score j = -300 ∨ score j ≤ beta

/-- A game of 41 moves, `'o'` first, that leaves only the top cell of column 5 empty and no
4-in-a-row. -/
def drawGame : List Int :=
  [0, 0, 0, 0, 0, 0, 1, 1, 1, 1, 1, 1, 4, 2, 2, 2, 2, 2, 2, 3, 3, 3, 3, 3, 3, 4, 4, 4, 4, 4,
    5, 5, 5, 5, 5, 6, 6, 6, 6, 6, 6]

/-- The board after `drawGame`: `'x'` is to move and column 5 is the only legal column. -/
def lastMoveBoard : Board := playFrom Board.new 0 drawGame

/-- The data members of a `Negamax` object and of an `AlphaBeta` object: both classes declare
`long long nodes` and `long long depth`. The depth is kept as the `Nat` the searches take. -/
structure Searcher where
  nodes : Int
  depth : Nat
  deriving DecidableEq, Repr

/-- The constructors `Negamax(int d)` and `AlphaBeta(int d)`: `nodes = 0; depth = d;`. -/
def Searcher.new (d : Nat) : Searcher := { nodes := 0, depth := d }

/-- `Negamax::getNodes` and `AlphaBeta::getNodes`: `return nodes;`. -/
def Searcher.getNodes (a : Searcher) : Int := a.nodes

/-- `Negamax::move` as a member function: the column, the board and the object after the
call. Neither `move` nor `negamax` assigns to a data member, so the object comes back as it
was. -/
def Searcher.moveNegamax (a : Searcher) (board : Board) (turn rnd : Nat) :
    Option (Int × Board × Searcher) :=
  match Negamax.move a.depth board turn rnd with
  | none => none
  | some (next, b1) => some (next, b1, a)

/-- `AlphaBeta::move` as a member function: the column, the board and the object after the
call. Neither `move` nor `negamax` assigns to a data member, so the object comes back as it
was. -/
def Searcher.moveAlphaBeta (a : Searcher) (board : Board) (turn rnd : Nat) :
    Option (Int × Board × Searcher) :=
  match AlphaBeta.move a.depth board turn rnd with
  | none => none
  | some (next, b1) => some (next, b1, a)

/-- A game of 39 moves, `'o'` first, that leaves no 4-in-a-row and three empty cells: the two
top cells of column 2 and the top cell of column 3. -/
def winOrDrawGame : List Int :=
  [1, 0, 0, 0, 0, 1, 0, 1, 0, 3, 1, 1, 1, 4, 2, 2, 3, 2, 3, 2, 3, 3, 4, 4, 6, 4, 4, 5, 4, 6,
    5, 6, 5, 5, 5, 6, 6, 5, 6]

/-- The board after `winOrDrawGame`: `'x'` is to move and wins at once in column 2; after
`'x'` in column 3 instead, the last two moves fill column 2 and the game is drawn. -/
def winOrDrawBoard : Board := playFrom Board.new 0 winOrDrawGame

/-! # Theorems -/

/-! ## Indices -/

theorem colIdx_cast {c : Int} (h0 : 0 ≤ c) (h1 : c < (COL : Int)) :
    ((colIdx c).val : Int) = c := by
  simp only [colIdx, COL] at *
  omega

theorem rowIdx_cast {r : Int} (h0 : 0 ≤ r) (h1 : r < (ROW : Int)) :
    ((rowIdx r).val : Int) = r := by
  simp only [rowIdx, ROW] at *
  omega

theorem colIdx_fin (j : Fin COL) : colIdx (j.val : Int) = j := by
  apply Fin.ext
  have := j.isLt
  simp only [colIdx, COL] at *
  omega

theorem rowIdx_fin (i : Fin ROW) : rowIdx (i.val : Int) = i := by
  apply Fin.ext
  have := i.isLt
  simp only [rowIdx, ROW] at *
  omega

theorem colIdx_eq_of_cast {c : Int} {j : Fin COL} (h : (j.val : Int) = c) : colIdx c = j := by
  subst h
  exact colIdx_fin j

theorem outOfBounds_fin (i : Fin ROW) (j : Fin COL) :
    outOfBounds (i.val : Int) (j.val : Int) = false := by
  have := i.isLt
  have := j.isLt
  simp only [outOfBounds, ROW, COL] at *
  split
  · omega
  · split
    · omega
    · rfl

theorem outOfBounds_false_iff (r c : Int) :
    outOfBounds r c = false ↔ (0 ≤ r ∧ r < (ROW : Int)) ∧ (0 ≤ c ∧ c < (COL : Int)) := by
  simp only [outOfBounds, ROW, COL]
  split
  · simp; omega
  · split
    · simp; omega
    · simp; omega

theorem State.get_fin (s : State) (i : Fin ROW) (j : Fin COL) :
    s.get (i.val : Int) (j.val : Int) = s i j := by
  simp [State.get, outOfBounds_fin, colIdx_fin, rowIdx_fin]

theorem State.get_inBounds (s : State) {r c : Int} (h : outOfBounds r c = false) :
    s.get r c = s (rowIdx r) (colIdx c) := by
  simp [State.get, h]

theorem State.set_apply (s : State) (r c : Int) (ch : Char) (i : Fin ROW) (j : Fin COL) :
    s.set r c ch i j = if (i.val : Int) = r ∧ (j.val : Int) = c then ch else s i j := rfl

/-! ## drop, remove, invert -/

theorem SYMBOL_ne_empty {p : Nat} {ch : Char} (h : SYMBOL p = some ch) : ch ≠ EMPTY := by
  unfold SYMBOL at h
  split at h
  · cases h; decide
  · cases h; decide
  · cases h

theorem SYMBOL_mark {p : Nat} {ch : Char} (h : SYMBOL p = some ch) : ch = SYM_O ∨ ch = SYM_X := by
  unfold SYMBOL at h
  split at h
  · cases h; exact Or.inl rfl
  · cases h; exact Or.inr rfl
  · cases h

theorem SYMBOL_lt {p : Nat} (h : p < 2) : ∃ ch, SYMBOL p = some ch := by
  interval_cases p
  · exact ⟨_, rfl⟩
  · exact ⟨_, rfl⟩

theorem Board.getHeight_of_range (b : Board) {c : Int} (h0 : 0 ≤ c) (h1 : c < (COL : Int)) :
    b.getHeight c = some (b.height (colIdx c)) := by
  simp only [Board.getHeight]
  rw [if_neg (by omega)]

theorem Board.drop_eq_put {b : Board} {c : Int} {p : Nat} {ch : Char} (hl : b.Legal c)
    (hs : SYMBOL p = some ch) : b.drop c p = some (b.put c ch) := by
  obtain ⟨h0, h1, h2⟩ := hl
  have e : b.dropRun c p = (b.put c ch, true) := by
    simp only [Board.dropRun]
    rw [if_neg (by omega), if_neg (by omega), hs]
    rfl
  simp [Board.drop, e]

theorem Board.dropRun_ok {b : Board} {c : Int} {p : Nat} (h : (b.dropRun c p).2 = true) :
    b.Legal c ∧ ∃ ch, SYMBOL p = some ch := by
  unfold Board.dropRun at h
  split at h
  · cases h
  · split at h
    · cases h
    · split at h
      · cases h
      · rename_i h1 h2 ch hs
        exact ⟨⟨by omega, by omega, by omega⟩, ch, hs⟩

theorem Board.drop_some {b b1 : Board} {c : Int} {p : Nat} (h : b.drop c p = some b1) :
    b.Legal c ∧ ∃ ch, SYMBOL p = some ch ∧ b1 = b.put c ch := by
  by_cases hr : (b.dropRun c p).2 = true
  · obtain ⟨hl, ch, hs⟩ := Board.dropRun_ok hr
    rw [Board.drop_eq_put hl hs] at h
    cases h
    exact ⟨hl, ch, hs, rfl⟩
  · simp only [Board.drop] at h
    rw [if_neg hr] at h
    cases h

theorem Board.remove_put {b : Board} {c : Int} (ch : Char) (hg : b.Gravity) (hl : b.Legal c) :
    (b.put c ch).remove c = some b := by
  obtain ⟨h0, h1, h2⟩ := hl
  have e : (b.put c ch).removeRun c = (b, true) := by
    simp only [Board.removeRun]
    rw [if_neg (by omega)]
    have hh : (b.put c ch).height (colIdx c) = b.height (colIdx c) + 1 := by
      simp [Board.put]
    rw [hh, if_neg (by omega)]
    refine Prod.ext ?_ rfl
    apply Board.ext
    · funext i j
      simp only [Board.put, State.set_apply]
      by_cases hij : (i.val : Int) = ((b.height (colIdx c) + 1 : Nat) : Int) - 1 ∧ (j.val : Int) = c
      · rw [if_pos hij]
        have hj : colIdx c = j := colIdx_eq_of_cast hij.2
        have := ((hg j).2 i).2 (by rw [← hj]; omega)
        exact this.symm
      · rw [if_neg hij, if_neg (by omega)]
    · simp [Board.put]
  simp [Board.remove, e]

theorem Board.gravity_put {b : Board} {c : Int} {ch : Char} (hg : b.Gravity) (hl : b.Legal c)
    (hch : ch ≠ EMPTY) : (b.put c ch).Gravity := by
  obtain ⟨h0, h1, h2⟩ := hl
  intro k
  by_cases hk : k = colIdx c
  · subst hk
    have hc := colIdx_cast h0 h1
    refine ⟨by simp [Board.put]; omega, fun r => ?_⟩
    simp only [Board.put, State.set_apply, Function.update_same]
    constructor
    · intro hr
      by_cases hrh : (r.val : Int) = (b.height (colIdx c) : Int)
      · rw [if_pos ⟨hrh, hc⟩]; exact hch
      · rw [if_neg (by tauto)]
        exact ((hg (colIdx c)).2 r).1 (by omega)
    · intro hr
      rw [if_neg (by omega)]
      exact ((hg (colIdx c)).2 r).2 (by omega)
  · have hne : ((k.val : Int) = c) → False := fun h => hk (colIdx_eq_of_cast h).symm
    refine ⟨by simp [Board.put, Function.update_noteq hk]; exact (hg k).1, fun r => ?_⟩
    simp only [Board.put, State.set_apply, Function.update_noteq hk]
    rw [if_neg (by tauto)]
    exact (hg k).2 r

theorem Board.gravity_invert {b : Board} (hg : b.Gravity) : b.invertBoard.Gravity := by
  intro k
  refine ⟨(hg k).1, fun r => ?_⟩
  simp only [Board.invertBoard, invert]
  constructor
  · intro hr
    have := ((hg k).2 r).1 hr
    split
    · decide
    · split
      · decide
      · exact this
  · intro hr
    have := ((hg k).2 r).2 hr
    rw [this]
    decide

theorem invert_invert (s : State) : invert (invert s) = s := by
  funext i j
  simp only [invert]
  by_cases h1 : s i j = SYM_O
  · simp [h1]
  · by_cases h2 : s i j = SYM_X
    · simp [h2]
    · simp [h1, h2]

theorem Board.invertBoard_invertBoard (b : Board) : b.invertBoard.invertBoard = b := by
  apply Board.ext
  · exact invert_invert b.board
  · rfl

theorem Board.gravity_new : Board.new.Gravity := by decide

/-! ## Round trip of drop and remove, involution of invert -/

theorem removeAll_append (xs ys : List Int) (b : Board) :
    removeAll (xs ++ ys) b = (removeAll xs b).bind (removeAll ys) := by
  induction xs generalizing b with
  | nil => rfl
  | cons c rest ih =>
    simp only [List.cons_append, removeAll]
    cases b.remove c with
    | none => rfl
    | some b1 => exact ih b1

theorem removeAll_dropAll {b : Board} (hg : b.Gravity) (moves : List (Int × Nat)) (b1 : Board)
    (h : dropAll moves b = some b1) :
    removeAll (moves.map Prod.fst).reverse b1 = some b := by
  induction moves generalizing b with
  | nil =>
    simp only [dropAll] at h
    cases h
    rfl
  | cons m rest ih =>
    obtain ⟨c, p⟩ := m
    simp only [dropAll] at h
    cases hd : b.drop c p with
    | none => rw [hd] at h; cases h
    | some b2 =>
      rw [hd] at h
      obtain ⟨hl, ch, hs, rfl⟩ := Board.drop_some hd
      have hg2 := Board.gravity_put hg hl (SYMBOL_ne_empty hs)
      simp only [List.map_cons, List.reverse_cons, removeAll_append, ih hg2 h, Option.some_bind,
        removeAll, Board.remove_put ch hg hl]

/-- C5: on a board satisfying the gravity invariant, `drop(c, p)` into a column that is not
full followed by `remove(c)` gives back the original board, cells and heights; and any
sequence of successful drops followed by the matching removes in reverse order gives back
the original board. -/
theorem drop_remove_roundtrip (b : Board) (hg : b.Gravity) :
    (∀ (c : Int) (p : Nat), 0 ≤ c → c < (COL : Int) → b.height (colIdx c) < ROW → p < 2 →
        ∃ b1, b.drop c p = some b1 ∧ b1.remove c = some b) ∧
    (∀ (moves : List (Int × Nat)) (b1 : Board), dropAll moves b = some b1 →
        removeAll (moves.map Prod.fst).reverse b1 = some b) := by
  refine ⟨fun c p h0 h1 h2 hp => ?_, removeAll_dropAll hg⟩
  obtain ⟨ch, hs⟩ := SYMBOL_lt hp
  have hl : b.Legal c := ⟨h0, h1, h2⟩
  exact ⟨b.put c ch, Board.drop_eq_put hl hs, Board.remove_put ch hg hl⟩

/-- The round trip of C5 on the new board: a drop in column 3 then its removal, and three
drops followed by the three removes in reverse order. -/
theorem drop_remove_roundtrip_witness :
    Board.new.Gravity ∧
    (∃ b1, Board.new.drop 3 0 = some b1 ∧ b1.remove 3 = some Board.new) ∧
    removeAll [2, 3, 3] (playFrom Board.new 0 [3, 3, 2]) = some Board.new :=
  ⟨Board.gravity_new,
    (drop_remove_roundtrip Board.new Board.gravity_new).1 3 0 (by decide) (by decide)
      (by decide) (by decide),
    (drop_remove_roundtrip Board.new Board.gravity_new).2 [(3, 0), (3, 1), (2, 0)] _ rfl⟩

/-- C6: `invertBoard` applied twice gives back the board, cells and heights; `invert` is an
involution on states that swaps `'o'` and `'x'` and leaves every other cell unchanged, and
`invertBoard` leaves the heights unchanged. -/
theorem invertBoard_involution (b : Board) :
    b.invertBoard.invertBoard = b ∧
    (∀ s : State, invert (invert s) = s) ∧
    (∀ (s : State) (i : Fin ROW) (j : Fin COL),
        (s i j = 'o' → invert s i j = 'x') ∧ (s i j = 'x' → invert s i j = 'o') ∧
        (s i j ≠ 'o' → s i j ≠ 'x' → invert s i j = s i j)) ∧
    b.invertBoard.height = b.height := by
  refine ⟨Board.invertBoard_invertBoard b, invert_invert, fun s i j => ⟨?_, ?_, ?_⟩, rfl⟩
  · intro h
    simp [invert, h, SYM_O, SYM_X]
  · intro h
    simp [invert, h, SYM_O, SYM_X]
  · intro h1 h2
    simp [invert, SYM_O, SYM_X, h1, h2]

/-! ## checkWinner -/

theorem winnerScan_eq_find (s : State) (L : List (Int × Int × Nat)) :
    winnerScan s L = (L.find? (hitAt s)).map fun t => PLAYER (s.get t.1 t.2.1) := by
  induction L with
  | nil => rfl
  | cons t rest ih =>
    obtain ⟨i, j, dir⟩ := t
    simp only [winnerScan, List.find?_cons, hitAt]
    by_cases h1 : s.get i j == EMPTY
    · simp [h1, ih, hitAt]
    · by_cases h2 : outOfBounds (i + 3 * DR dir) (j + 3 * DC dir)
      · simp [h1, h2, ih, hitAt]
      · by_cases h3 : lineOfFour s i j dir
        · simp [h1, h2, h3]
        · simp [h1, h2, h3, ih, hitAt]

theorem mem_scanOrder (t : Int × Int × Nat) :
    t ∈ scanOrder ↔ (0 ≤ t.1 ∧ t.1 < 6) ∧ (0 ≤ t.2.1 ∧ t.2.1 < 7) ∧ t.2.2 < 4 := by
  obtain ⟨i, j, dir⟩ := t
  simp only [scanOrder, List.mem_flatMap, List.mem_map, List.mem_range, Prod.mk.injEq]
  constructor
  · rintro ⟨a, ha, b, hb, d, hd, rfl, rfl, rfl⟩
    simp only [ROW, COL, DIR] at *
    refine ⟨⟨?_, ?_⟩, ⟨?_, ?_⟩, hd⟩ <;> simp <;> omega
  · rintro ⟨⟨h1, h2⟩, ⟨h3, h4⟩, h5⟩
    refine ⟨i.toNat, ?_, j.toNat, ?_, dir, h5, ?_, ?_, rfl⟩
    · simp only [ROW]; omega
    · simp only [COL]; omega
    · simp; omega
    · simp; omega

theorem lineOfFour_iff (s : State) (i j : Int) (dir : Nat) :
    lineOfFour s i j dir = true ↔
      s.get i j ≠ EMPTY ∧ s.get (i + DR dir) (j + DC dir) = s.get i j ∧
      s.get (i + 2 * DR dir) (j + 2 * DC dir) = s.get i j ∧
      s.get (i + 3 * DR dir) (j + 3 * DC dir) = s.get i j := by
  have e : List.range 3 = [0, 1, 2] := rfl
  simp only [lineOfFour, e, List.all_cons, List.all_nil, Bool.and_true, Bool.and_eq_true,
    Bool.not_eq_true', beq_eq_false_iff_ne, bne_eq_false_iff_eq, Nat.cast_zero, zero_mul, add_zero,
    Nat.cast_one, one_mul, Nat.cast_ofNat]
  have e2 : i + 2 * DR dir + DR dir = i + 3 * DR dir := by ring
  have e3 : j + 2 * DC dir + DC dir = j + 3 * DC dir := by ring
  have e4 : i + DR dir + DR dir = i + 2 * DR dir := by ring
  have e5 : j + DC dir + DC dir = j + 2 * DC dir := by ring
  rw [e2, e3, e4, e5]
  constructor
  · rintro ⟨⟨h0, h1⟩, ⟨h2, h3⟩, h4, h5⟩
    refine ⟨h0, h1.symm, ?_, ?_⟩
    · rw [← h3, ← h1]
    · rw [← h5, ← h3, ← h1]
  · rintro ⟨h0, h1, h2, h3⟩
    rw [h1, h2, h3]
    exact ⟨⟨h0, rfl⟩, ⟨h0, rfl⟩, h0, rfl⟩

theorem FourAt_iff (s : State) (m : Char) (r c dr dc : Int) :
    FourAt s m r c dr dc ↔
      (outOfBounds r c = false ∧ s.get r c = m) ∧
      (outOfBounds (r + dr) (c + dc) = false ∧ s.get (r + dr) (c + dc) = m) ∧
      (outOfBounds (r + 2 * dr) (c + 2 * dc) = false ∧ s.get (r + 2 * dr) (c + 2 * dc) = m) ∧
      (outOfBounds (r + 3 * dr) (c + 3 * dc) = false ∧ s.get (r + 3 * dr) (c + 3 * dc) = m) := by
  simp only [FourAt, List.forall_mem_cons, zero_mul, add_zero, one_mul, List.not_mem_nil,
    false_implies, implies_true, and_true]

theorem DR_DC_cases {dir : Nat} (h : dir < 4) :
    (DR dir = 0 ∧ DC dir = 1) ∨ (DR dir = 1 ∧ DC dir = -1) ∨ (DR dir = 1 ∧ DC dir = 0) ∨
      (DR dir = 1 ∧ DC dir = 1) := by
  interval_cases dir <;> simp [DR, DC]

theorem window_inBounds {i j : Int} {dir : Nat} (hd : dir < 4)
    (h0 : outOfBounds i j = false)
    (h3 : outOfBounds (i + 3 * DR dir) (j + 3 * DC dir) = false) :
    outOfBounds (i + DR dir) (j + DC dir) = false ∧
      outOfBounds (i + 2 * DR dir) (j + 2 * DC dir) = false := by
  simp only [outOfBounds_false_iff, ROW, COL] at *
  rcases DR_DC_cases hd with ⟨h1, h2⟩ | ⟨h1, h2⟩ | ⟨h1, h2⟩ | ⟨h1, h2⟩ <;>
    simp only [h1, h2] at h3 ⊢ <;> omega

theorem hitAt_iff (s : State) {t : Int × Int × Nat} (ht : t ∈ scanOrder) :
    hitAt s t = true ↔
      s.get t.1 t.2.1 ≠ EMPTY ∧ FourAt s (s.get t.1 t.2.1) t.1 t.2.1 (DR t.2.2) (DC t.2.2) := by
  obtain ⟨i, j, dir⟩ := t
  rw [mem_scanOrder] at ht
  simp only at ht
  obtain ⟨hi, hj, hd⟩ := ht
  have h0 : outOfBounds i j = false := by
    rw [outOfBounds_false_iff]; simp only [ROW, COL]; exact ⟨by omega, by omega⟩
  simp only [hitAt, Bool.and_eq_true, Bool.not_eq_true', beq_eq_false_iff_ne, lineOfFour_iff,
    FourAt_iff]
  constructor
  · rintro ⟨⟨h1, h2⟩, -, h4, h5, h6⟩
    obtain ⟨w1, w2⟩ := window_inBounds hd h0 h2
    exact ⟨h1, ⟨h0, trivial⟩, ⟨w1, h4⟩, ⟨w2, h5⟩, h2, h6⟩
  · rintro ⟨h1, -, ⟨-, h4⟩, ⟨-, h5⟩, h2, h6⟩
    exact ⟨⟨h1, h2⟩, h1, h4, h5, h6⟩

theorem get_marks {s : State} (hm : s.Marks) {r c : Int} (h : outOfBounds r c = false) :
    s.get r c = EMPTY ∨ s.get r c = SYM_O ∨ s.get r c = SYM_X := by
  rw [State.get_inBounds s h]
  exact hm _ _

theorem hitAt_iff_line {s : State} (hm : s.Marks) {t : Int × Int × Nat} (ht : t ∈ scanOrder) :
    hitAt s t = true ↔ LineAt s t := by
  rw [hitAt_iff s ht]
  have hb : outOfBounds t.1 t.2.1 = false := by
    rw [mem_scanOrder] at ht
    rw [outOfBounds_false_iff]; simp only [ROW, COL]; omega
  constructor
  · rintro ⟨h1, h2⟩
    rcases get_marks hm hb with h | h | h
    · exact absurd h h1
    · rw [h] at h2; exact Or.inl h2
    · rw [h] at h2; exact Or.inr h2
  · rintro (h | h)
    · have e := ((FourAt_iff _ _ _ _ _ _).1 h).1.2
      rw [e]; exact ⟨by decide, h⟩
    · have e := ((FourAt_iff _ _ _ _ _ _).1 h).1.2
      rw [e]; exact ⟨by decide, h⟩

theorem hasFour_iff (s : State) (m : Char) :
    HasFour s m ↔ ∃ t ∈ scanOrder, FourAt s m t.1 t.2.1 (DR t.2.2) (DC t.2.2) := by
  constructor
  · rintro ⟨r, c, h⟩
    have hr := r.isLt
    have hc := c.isLt
    have mem : ∀ d, d < 4 → ((r.val : Int), (c.val : Int), d) ∈ scanOrder := by
      intro d hd
      rw [mem_scanOrder]
      simp only [ROW, COL] at *
      omega
    rcases h with h | h | h | h
    · exact ⟨(r.val, c.val, 0), mem 0 (by decide), h⟩
    · exact ⟨(r.val, c.val, 2), mem 2 (by decide), h⟩
    · exact ⟨(r.val, c.val, 3), mem 3 (by decide), h⟩
    · exact ⟨(r.val, c.val, 1), mem 1 (by decide), h⟩
  · rintro ⟨⟨i, j, dir⟩, ht, h⟩
    rw [mem_scanOrder] at ht
    obtain ⟨hi, hj, hd⟩ := ht
    simp only at hi hj hd h
    have ei : ((rowIdx i).val : Int) = i := rowIdx_cast hi.1 (by simp only [ROW]; omega)
    have ej : ((colIdx j).val : Int) = j := colIdx_cast hj.1 (by simp only [COL]; omega)
    refine ⟨rowIdx i, colIdx j, ?_⟩
    rw [ei, ej]
    rcases DR_DC_cases hd with ⟨h1, h2⟩ | ⟨h1, h2⟩ | ⟨h1, h2⟩ | ⟨h1, h2⟩ <;> rw [h1, h2] at h
    · exact Or.inl h
    · exact Or.inr (Or.inr (Or.inr h))
    · exact Or.inr (Or.inl h)
    · exact Or.inr (Or.inr (Or.inl h))

theorem exists_line_iff (s : State) :
    (∃ t ∈ scanOrder, LineAt s t) ↔ HasFour s SYM_O ∨ HasFour s SYM_X := by
  rw [hasFour_iff, hasFour_iff]
  constructor
  · rintro ⟨t, ht, h | h⟩
    · exact Or.inl ⟨t, ht, h⟩
    · exact Or.inr ⟨t, ht, h⟩
  · rintro (⟨t, ht, h⟩ | ⟨t, ht, h⟩)
    · exact ⟨t, ht, Or.inl h⟩
    · exact ⟨t, ht, Or.inr h⟩

theorem mem_cellOrder (p : Int × Int) :
    p ∈ cellOrder ↔ (0 ≤ p.1 ∧ p.1 < 6) ∧ (0 ≤ p.2 ∧ p.2 < 7) := by
  obtain ⟨i, j⟩ := p
  simp only [cellOrder, List.mem_flatMap, List.mem_map, List.mem_range, Prod.mk.injEq]
  constructor
  · rintro ⟨a, ha, b, hb, rfl, rfl⟩
    simp only [ROW, COL] at *
    refine ⟨⟨?_, ?_⟩, ?_, ?_⟩ <;> simp <;> omega
  · rintro ⟨⟨h1, h2⟩, ⟨h3, h4⟩⟩
    refine ⟨i.toNat, ?_, j.toNat, ?_, ?_, ?_⟩
    · simp only [ROW]; omega
    · simp only [COL]; omega
    · simp; omega
    · simp; omega

theorem anyEmpty_iff (s : State) :
    cellOrder.any (fun p => s.get p.1 p.2 == EMPTY) = true ↔ HasEmpty s := by
  simp only [List.any_eq_true, beq_iff_eq]
  constructor
  · rintro ⟨⟨i, j⟩, hp, h⟩
    rw [mem_cellOrder] at hp
    have hb : outOfBounds i j = false := by
      rw [outOfBounds_false_iff]; simp only [ROW, COL]; exact hp
    rw [State.get_inBounds s hb] at h
    exact ⟨_, _, h⟩
  · rintro ⟨r, c, h⟩
    refine ⟨(r.val, c.val), ?_, ?_⟩
    · rw [mem_cellOrder]
      have := r.isLt
      have := c.isLt
      simp only [ROW, COL] at *
      omega
    · rw [State.get_fin]; exact h

theorem checkWinner_of_none {b : Board} (h : scanOrder.find? (hitAt b.board) = none) :
    b.checkWinner = if HasEmpty b.board then some NO_ONE else some DRAW := by
  simp only [Board.checkWinner, winnerScan_eq_find, h, Option.map_none']
  by_cases he : HasEmpty b.board
  · rw [if_pos he, if_pos ((anyEmpty_iff _).2 he)]
  · rw [if_neg he, if_neg (fun h => he ((anyEmpty_iff _).1 h))]

theorem checkWinner_of_some {b : Board} {t : Int × Int × Nat}
    (h : scanOrder.find? (hitAt b.board) = some t) :
    b.checkWinner = PLAYER (b.board.get t.1 t.2.1) := by
  simp only [Board.checkWinner, winnerScan_eq_find, h, Option.map_some']

theorem find_hit_of_first {s : State} (hm : s.Marks) {pre post : List (Int × Int × Nat)}
    {t : Int × Int × Nat} (hs : scanOrder = pre ++ t :: post) (hpre : ∀ u ∈ pre, ¬LineAt s u)
    (ht : LineAt s t) : scanOrder.find? (hitAt s) = some t := by
  rw [List.find?_eq_some]
  have mem : ∀ u, u ∈ pre ++ t :: post → u ∈ scanOrder := fun u hu => hs ▸ hu
  refine ⟨(hitAt_iff_line hm (mem t (by simp))).2 ht, pre, post, hs, fun u hu => ?_⟩
  have hu2 : ¬ hitAt s u = true :=
    fun h => hpre u hu ((hitAt_iff_line hm (mem u (by simp [hu]))).1 h)
  simpa using hu2

theorem fourAt_get {s : State} {m : Char} {r c dr dc : Int} (h : FourAt s m r c dr dc) :
    s.get r c = m := ((FourAt_iff _ _ _ _ _ _).1 h).1.2

theorem checkWinner_total {b : Board} (hm : b.board.Marks) :
    (¬(HasFour b.board SYM_O ∨ HasFour b.board SYM_X) ∧
      b.checkWinner = if HasEmpty b.board then some NO_ONE else some DRAW) ∨
    ((HasFour b.board SYM_O ∨ HasFour b.board SYM_X) ∧
      ((b.checkWinner = some PLAYER_O ∧ HasFour b.board SYM_O) ∨
        (b.checkWinner = some PLAYER_X ∧ HasFour b.board SYM_X))) := by
  cases hf : scanOrder.find? (hitAt b.board) with
  | none =>
    left
    refine ⟨fun h => ?_, checkWinner_of_none hf⟩
    obtain ⟨t, ht, hl⟩ := (exists_line_iff _).2 h
    rw [List.find?_eq_none] at hf
    exact hf t ht ((hitAt_iff_line hm ht).2 hl)
  | some t =>
    right
    have hmem : t ∈ scanOrder := List.mem_of_find?_eq_some hf
    have hhit : hitAt b.board t = true := List.find?_some hf
    have hl := (hitAt_iff_line hm hmem).1 hhit
    refine ⟨(exists_line_iff _).1 ⟨t, hmem, hl⟩, ?_⟩
    rw [checkWinner_of_some hf]
    rcases hl with h | h
    · left
      rw [fourAt_get h]
      exact ⟨rfl, (hasFour_iff _ _).2 ⟨t, hmem, h⟩⟩
    · right
      rw [fourAt_get h]
      exact ⟨rfl, (hasFour_iff _ _).2 ⟨t, hmem, h⟩⟩

/-- C3: on a board whose cells are all `'.'`, `'o'` or `'x'`, `checkWinner` returns `NO_ONE`
iff there is no 4-in-a-row and some cell is empty, `DRAW` iff there is no 4-in-a-row and no
cell is empty, and `PLAYER_O` or `PLAYER_X` iff there is a 4-in-a-row; the value is then the
owner of the first 4-in-a-row of the row-major, direction-order scan, hence the owner of
the 4-in-a-row when only one side has one. -/
theorem checkWinner_spec (b : Board) (hm : b.board.Marks) :
    (b.checkWinner = some NO_ONE ↔
      (¬HasFour b.board SYM_O ∧ ¬HasFour b.board SYM_X) ∧ HasEmpty b.board) ∧
    (b.checkWinner = some DRAW ↔
      (¬HasFour b.board SYM_O ∧ ¬HasFour b.board SYM_X) ∧ ¬HasEmpty b.board) ∧
    ((b.checkWinner = some PLAYER_O ∨ b.checkWinner = some PLAYER_X) ↔
      (HasFour b.board SYM_O ∨ HasFour b.board SYM_X)) ∧
    (∀ pre i j dir post, scanOrder = pre ++ (i, j, dir) :: post →
      (∀ u ∈ pre, ¬LineAt b.board u) →
      (FourAt b.board SYM_O i j (DR dir) (DC dir) → b.checkWinner = some PLAYER_O) ∧
      (FourAt b.board SYM_X i j (DR dir) (DC dir) → b.checkWinner = some PLAYER_X)) ∧
    (HasFour b.board SYM_O → ¬HasFour b.board SYM_X → b.checkWinner = some PLAYER_O) ∧
    (HasFour b.board SYM_X → ¬HasFour b.board SYM_O → b.checkWinner = some PLAYER_X) := by
  have key := checkWinner_total hm
  refine ⟨?_, ?_, ?_, ?_, ?_, ?_⟩
  · rcases key with ⟨hn, hc⟩ | ⟨hy, ⟨hc, -⟩ | ⟨hc, -⟩⟩
    · rw [hc]
      by_cases he : HasEmpty b.board
      · simp only [if_pos he]; tauto
      · simp only [if_neg he]
        constructor
        · intro h; cases h
        · tauto
    · rw [hc]
      constructor
      · intro h; cases h
      · tauto
    · rw [hc]
      constructor
      · intro h; cases h
      · tauto
  · rcases key with ⟨hn, hc⟩ | ⟨hy, ⟨hc, -⟩ | ⟨hc, -⟩⟩
    · rw [hc]
      by_cases he : HasEmpty b.board
      · simp only [if_pos he]
        constructor
        · intro h; cases h
        · tauto
      · simp only [if_neg he]; tauto
    · rw [hc]
      constructor
      · intro h; cases h
      · tauto
    · rw [hc]
      constructor
      · intro h; cases h
      · tauto
  · rcases key with ⟨hn, hc⟩ | ⟨hy, ⟨hc, -⟩ | ⟨hc, -⟩⟩
    · rw [hc]
      constructor
      · rintro (h | h) <;> split at h <;> cases h
      · intro h; exact absurd h hn
    · exact ⟨fun _ => hy, fun _ => Or.inl hc⟩
    · exact ⟨fun _ => hy, fun _ => Or.inr hc⟩
  · intro pre i j dir post hs hpre
    constructor
    · intro h
      have hf := find_hit_of_first hm hs hpre (Or.inl h)
      rw [checkWinner_of_some hf]
      simp only [fourAt_get h]
      rfl
    · intro h
      have hf := find_hit_of_first hm hs hpre (Or.inr h)
      rw [checkWinner_of_some hf]
      simp only [fourAt_get h]
      rfl
  · intro ho hx
    rcases key with ⟨hn, -⟩ | ⟨-, ⟨hc, -⟩ | ⟨-, h⟩⟩
    · exact absurd (Or.inl ho) hn
    · exact hc
    · exact absurd h hx
  · intro hx ho
    rcases key with ⟨hn, -⟩ | ⟨-, ⟨-, h⟩ | ⟨hc, -⟩⟩
    · exact absurd (Or.inr hx) hn
    · exact absurd h ho
    · exact hc

/-! ## eval -/

theorem countInWindow_eq (s : State) (i j : Int) (dir : Nat) (ch : Char) :
    countInWindow s i j dir ch =
      (if s.get i j = ch then 1 else 0) +
      (if s.get (i + DR dir) (j + DC dir) = ch then 1 else 0) +
      (if s.get (i + 2 * DR dir) (j + 2 * DC dir) = ch then 1 else 0) +
      (if s.get (i + 3 * DR dir) (j + 3 * DC dir) = ch then 1 else 0) := by
  have e : List.range 4 = [0, 1, 2, 3] := rfl
  simp only [countInWindow, e, List.foldl_cons, List.foldl_nil, Nat.cast_zero, zero_mul, add_zero,
    Nat.cast_one, one_mul, Nat.cast_ofNat]
  split_ifs <;> rfl

theorem countInWindow_range (s : State) (i j : Int) (dir : Nat) (ch : Char) :
    0 ≤ countInWindow s i j dir ch ∧ countInWindow s i j dir ch ≤ 4 := by
  rw [countInWindow_eq]
  split_ifs <;> omega

theorem countInWindow_eq_four (s : State) (i j : Int) (dir : Nat) (ch : Char) :
    countInWindow s i j dir ch = 4 ↔
      s.get i j = ch ∧ s.get (i + DR dir) (j + DC dir) = ch ∧
      s.get (i + 2 * DR dir) (j + 2 * DC dir) = ch ∧
      s.get (i + 3 * DR dir) (j + 3 * DC dir) = ch := by
  rw [countInWindow_eq]
  split_ifs <;> simp_all

theorem winAt_iff (s : State) (ch : Char) {t : Int × Int × Nat} (ht : t ∈ scanOrder) :
    winAt s ch t ↔ FourAt s ch t.1 t.2.1 (DR t.2.2) (DC t.2.2) := by
  obtain ⟨i, j, dir⟩ := t
  rw [mem_scanOrder] at ht
  simp only at ht
  obtain ⟨hi, hj, hd⟩ := ht
  have h0 : outOfBounds i j = false := by
    rw [outOfBounds_false_iff]; simp only [ROW, COL]; exact ⟨by omega, by omega⟩
  simp only [winAt, countInWindow_eq_four, FourAt_iff]
  constructor
  · rintro ⟨h3, h4, h5, h6, h7⟩
    obtain ⟨w1, w2⟩ := window_inBounds hd h0 h3
    exact ⟨⟨h0, h4⟩, ⟨w1, h5⟩, ⟨w2, h6⟩, h3, h7⟩
  · rintro ⟨⟨-, h4⟩, ⟨-, h5⟩, ⟨-, h6⟩, h3, h7⟩
    exact ⟨h3, h4, h5, h6, h7⟩

theorem hasFour_iff_winAt (s : State) (ch : Char) :
    HasFour s ch ↔ ∃ t ∈ scanOrder, winAt s ch t := by
  rw [hasFour_iff]
  constructor
  · rintro ⟨t, ht, h⟩
    exact ⟨t, ht, (winAt_iff s ch ht).2 h⟩
  · rintro ⟨t, ht, h⟩
    exact ⟨t, ht, (winAt_iff s ch ht).1 h⟩

theorem evalScan_bound (s : State) (e : Int) (L : List (Int × Int × Nat)) (score : Int)
    (ho : ∀ t ∈ L, ¬winAt s SYM_O t) (hx : ∀ t ∈ L, ¬winAt s SYM_X t) :
    score - (L.filter inGrid).length ≤ evalScan s e L score ∧
      evalScan s e L score ≤ score + (L.filter inGrid).length := by
  induction L generalizing score with
  | nil => simp [evalScan]
  | cons t rest ih =>
    obtain ⟨i, j, dir⟩ := t
    have ho1 := ho (i, j, dir) (by simp)
    have hx1 := hx (i, j, dir) (by simp)
    have ho2 : ∀ t ∈ rest, ¬winAt s SYM_O t := fun t ht => ho t (by simp [ht])
    have hx2 : ∀ t ∈ rest, ¬winAt s SYM_X t := fun t ht => hx t (by simp [ht])
    simp only [winAt, not_and] at ho1 hx1
    simp only [evalScan, List.filter_cons, inGrid]
    by_cases hb : outOfBounds (i + 3 * DR dir) (j + 3 * DC dir) = true
    · rw [if_pos hb]
      have := ih score ho2 hx2
      simp only [hb, Bool.not_true, Bool.false_eq_true, if_false]
      exact this
    · rw [if_neg hb]
      have hb2 : outOfBounds (i + 3 * DR dir) (j + 3 * DC dir) = false := by simpa using hb
      rw [if_neg (ho1 hb2), if_neg (hx1 hb2)]
      have h := ih ((if countInWindow s i j dir SYM_X = 0 then score + 1 else score)
          - (if countInWindow s i j dir SYM_O = 0 then 1 else 0)) ho2 hx2
      simp only [hb2, Bool.not_false, if_true, List.length_cons, Nat.cast_add, Nat.cast_one]
      split_ifs at h ⊢ <;> omega

theorem evalScan_win (s : State) (e : Int) (L : List (Int × Int × Nat)) (score : Int)
    (h : ∃ t ∈ L, winAt s SYM_O t ∨ winAt s SYM_X t) :
    (evalScan s e L score = INF + e ∧ ∃ t ∈ L, winAt s SYM_O t) ∨
      (evalScan s e L score = -(INF + e) ∧ ∃ t ∈ L, winAt s SYM_X t) := by
  induction L generalizing score with
  | nil => obtain ⟨t, ht, -⟩ := h; cases ht
  | cons t rest ih =>
    obtain ⟨i, j, dir⟩ := t
    simp only [evalScan]
    by_cases hb : outOfBounds (i + 3 * DR dir) (j + 3 * DC dir) = true
    · rw [if_pos hb]
      have h2 : ∃ t ∈ rest, winAt s SYM_O t ∨ winAt s SYM_X t := by
        obtain ⟨t, ht, hw⟩ := h
        rcases List.mem_cons.1 ht with rfl | ht2
        · simp only [winAt, hb] at hw
          rcases hw with ⟨hw, -⟩ | ⟨hw, -⟩ <;> cases hw
        · exact ⟨t, ht2, hw⟩
      rcases ih score h2 with ⟨he, t, ht, hw⟩ | ⟨he, t, ht, hw⟩
      · exact Or.inl ⟨he, t, List.mem_cons_of_mem _ ht, hw⟩
      · exact Or.inr ⟨he, t, List.mem_cons_of_mem _ ht, hw⟩
    · rw [if_neg hb]
      have hb2 : outOfBounds (i + 3 * DR dir) (j + 3 * DC dir) = false := by simpa using hb
      by_cases ha : countInWindow s i j dir SYM_O = 4
      · rw [if_pos ha]
        exact Or.inl ⟨rfl, (i, j, dir), by simp, hb2, ha⟩
      · rw [if_neg ha]
        by_cases hx : countInWindow s i j dir SYM_X = 4
        · rw [if_pos hx]
          exact Or.inr ⟨rfl, (i, j, dir), by simp, hb2, hx⟩
        · rw [if_neg hx]
          have h2 : ∃ t ∈ rest, winAt s SYM_O t ∨ winAt s SYM_X t := by
            obtain ⟨t, ht, hw⟩ := h
            rcases List.mem_cons.1 ht with rfl | ht2
            · rcases hw with ⟨-, hw⟩ | ⟨-, hw⟩
              · exact absurd hw ha
              · exact absurd hw hx
            · exact ⟨t, ht2, hw⟩
          rcases ih _ h2 with ⟨he, t, ht, hw⟩ | ⟨he, t, ht, hw⟩
          · exact Or.inl ⟨he, t, List.mem_cons_of_mem _ ht, hw⟩
          · exact Or.inr ⟨he, t, List.mem_cons_of_mem _ ht, hw⟩

theorem foldl_count {α : Type} (P : α → Prop) [DecidablePred P] (L : List α) (n : Int) :
    L.foldl (fun (n : Int) (p : α) => if P p then n + 1 else n) n
      = n + ((L.filter fun p => decide (P p)).length : Int) := by
  induction L generalizing n with
  | nil => simp
  | cons a rest ih =>
    simp only [List.foldl_cons, ih, List.filter_cons]
    by_cases h : P a
    · simp [h]; ring
    · simp [h]

theorem cellOrder_eq : cellOrder = cellsFin.map fun p => ((p.1.val : Int), (p.2.val : Int)) := by
  decide

theorem cellsFin_nodup : cellsFin.Nodup := by decide

theorem mem_cellsFin (p : Fin ROW × Fin COL) : p ∈ cellsFin := by
  obtain ⟨i, j⟩ := p
  simp [cellsFin, List.mem_flatMap, List.mem_map]

theorem countEmpty_eq (s : State) : countEmpty s = (emptyCount s : Int) := by
  simp only [countEmpty, foldl_count, zero_add, cellOrder_eq, List.filter_map, List.length_map,
    emptyCount]
  congr 1

theorem emptyCount_le (s : State) : emptyCount s ≤ 42 := by
  have h := Finset.card_filter_le (Finset.univ : Finset (Fin ROW × Fin COL))
    (fun p => s p.1 p.2 = EMPTY)
  simpa [emptyCount] using h

set_option maxRecDepth 100000 in
theorem windows_length : (scanOrder.filter inGrid).length = 69 := by decide

theorem eval_win (s : State) (h : HasFour s SYM_O ∨ HasFour s SYM_X) :
    (eval s = INF + (emptyCount s : Int) ∧ HasFour s SYM_O) ∨
      (eval s = -(INF + (emptyCount s : Int)) ∧ HasFour s SYM_X) := by
  have h2 : ∃ t ∈ scanOrder, winAt s SYM_O t ∨ winAt s SYM_X t := by
    rcases h with h | h
    · obtain ⟨t, ht, hw⟩ := (hasFour_iff_winAt _ _).1 h
      exact ⟨t, ht, Or.inl hw⟩
    · obtain ⟨t, ht, hw⟩ := (hasFour_iff_winAt _ _).1 h
      exact ⟨t, ht, Or.inr hw⟩
  rw [← countEmpty_eq]
  rcases evalScan_win s (countEmpty s) scanOrder 0 h2 with ⟨he, hw⟩ | ⟨he, hw⟩
  · exact Or.inl ⟨he, (hasFour_iff_winAt _ _).2 hw⟩
  · exact Or.inr ⟨he, (hasFour_iff_winAt _ _).2 hw⟩

theorem eval_quiet (s : State) (ho : ¬HasFour s SYM_O) (hx : ¬HasFour s SYM_X) :
    -69 ≤ eval s ∧ eval s ≤ 69 := by
  have h := evalScan_bound s (countEmpty s) scanOrder 0
    (fun t ht hw => ho ((hasFour_iff_winAt _ _).2 ⟨t, ht, hw⟩))
    (fun t ht hw => hx ((hasFour_iff_winAt _ _).2 ⟨t, ht, hw⟩))
  rw [windows_length] at h
  simp only [eval]
  omega

theorem eval_range (s : State) : -142 ≤ eval s ∧ eval s ≤ 142 := by
  by_cases h : HasFour s SYM_O ∨ HasFour s SYM_X
  · have hle := emptyCount_le s
    rcases eval_win s h with ⟨he, -⟩ | ⟨he, -⟩ <;> rw [he] <;> simp only [INF] <;> omega
  · have := eval_quiet s (fun ho => h (Or.inl ho)) (fun hx => h (Or.inr hx))
    omega

/-- C4: with `e` the number of empty cells, `eval` returns `INF + e` on a state with a
4-in-a-row of `'o'` and none of `'x'`, `-(INF + e)` on a state with a 4-in-a-row of `'x'`
and none of `'o'`, and a value strictly between `-INF` and `INF` on a state without
4-in-a-row; the value has magnitude at least `INF` iff the state contains a 4-in-a-row. -/
theorem eval_spec (s : State) :
    (HasFour s SYM_O → ¬HasFour s SYM_X → eval s = INF + (emptyCount s : Int)) ∧
    (HasFour s SYM_X → ¬HasFour s SYM_O → eval s = -(INF + (emptyCount s : Int))) ∧
    (¬HasFour s SYM_O → ¬HasFour s SYM_X → -INF < eval s ∧ eval s < INF) ∧
    (INF ≤ |eval s| ↔ HasFour s SYM_O ∨ HasFour s SYM_X) := by
  refine ⟨fun ho hx => ?_, fun hx ho => ?_, fun ho hx => ?_, ?_, ?_⟩
  · rcases eval_win s (Or.inl ho) with ⟨he, -⟩ | ⟨-, h⟩
    · exact he
    · exact absurd h hx
  · rcases eval_win s (Or.inr hx) with ⟨-, h⟩ | ⟨he, -⟩
    · exact absurd h ho
    · exact he
  · have := eval_quiet s ho hx
    simp only [INF]
    omega
  · intro h
    by_contra hn
    have := eval_quiet s (fun ho => hn (Or.inl ho)) (fun hx => hn (Or.inr hx))
    simp only [INF] at h
    rw [le_abs] at h
    omega
  · intro h
    have hle : (0 : Int) ≤ (emptyCount s : Int) := Int.ofNat_nonneg _
    rw [le_abs]
    rcases eval_win s h with ⟨he, -⟩ | ⟨he, -⟩ <;> rw [he] <;> simp only [INF] <;> omega

/-! ## OneMove -/

theorem mem_columns (j : Int) : j ∈ columns ↔ 0 ≤ j ∧ j < (COL : Int) := by
  simp only [columns, List.mem_map, List.mem_range, COL]
  constructor
  · rintro ⟨a, ha, rfl⟩
    simp; omega
  · rintro ⟨h0, h1⟩
    exact ⟨j.toNat, by omega, by simp; omega⟩

theorem marks_put {b : Board} {c : Int} {ch : Char} (hm : b.board.Marks)
    (hch : ch = SYM_O ∨ ch = SYM_X) : (b.put c ch).board.Marks := by
  intro r k
  simp only [Board.put, State.set_apply]
  split
  · exact Or.inr hch
  · exact hm r k

theorem marks_invert {s : State} (hm : s.Marks) : (invert s).Marks := by
  intro r k
  simp only [invert]
  rcases hm r k with h | h | h
  · rw [h]; left; decide
  · rw [h]; right; right; decide
  · rw [h]; right; left; decide

theorem marks_new : Board.new.board.Marks := fun _ _ => Or.inl rfl

theorem checkWinner_isSome {b : Board} (hm : b.board.Marks) : ∃ w, b.checkWinner = some w := by
  rcases checkWinner_total hm with ⟨-, h⟩ | ⟨-, ⟨h, -⟩ | ⟨h, -⟩⟩
  · rw [h]; split <;> exact ⟨_, rfl⟩
  · exact ⟨_, h⟩
  · exact ⟨_, h⟩

theorem legal_iff_height {b : Board} {j : Int} (hj : j ∈ columns) :
    b.Legal j ↔ b.height (colIdx j) < ROW := by
  rw [mem_columns] at hj
  simp only [Board.Legal]
  tauto

theorem drop_none_of_full {b : Board} {j : Int} {p : Nat} (h : ¬b.Legal j) :
    b.drop j p = none := by
  cases hd : b.drop j p with
  | none => rfl
  | some b1 => exact absurd (Board.drop_some hd).1 h

theorem collectLegal_eq (b : Board) (L : List Int) (hL : ∀ j ∈ L, j ∈ columns) (moves : List Int) :
    collectLegal b L moves = some (moves ++ L.filter fun j => decide (b.Legal j)) := by
  induction L generalizing moves with
  | nil => simp [collectLegal]
  | cons j rest ih =>
    have hj := hL j (by simp)
    have hr : ∀ k ∈ rest, k ∈ columns := fun k hk => hL k (by simp [hk])
    have hj2 := (mem_columns j).1 hj
    simp only [collectLegal, Board.getHeight_of_range b hj2.1 hj2.2, ih hr, List.filter_cons]
    by_cases h : b.height (colIdx j) < ROW
    · simp [h, (legal_iff_height hj).2 h]
    · have hl : ¬b.Legal j := fun hl => h ((legal_iff_height hj).1 hl)
      simp [h, hl]

theorem findWin_eq {b : Board} (hg : b.Gravity) (hm : b.board.Marks) {who : Nat} (hw : who < 2)
    (L : List Int) (hL : ∀ j ∈ L, j ∈ columns) :
    OneMove.findWin who L b = some (L.find? (winsAt b who), b) := by
  induction L with
  | nil => rfl
  | cons j rest ih =>
    have hj := hL j (by simp)
    have hr : ∀ k ∈ rest, k ∈ columns := fun k hk => hL k (by simp [hk])
    have hj2 := (mem_columns j).1 hj
    obtain ⟨ch, hs⟩ := SYMBOL_lt hw
    simp only [OneMove.findWin, Board.getHeight_of_range b hj2.1 hj2.2, List.find?_cons]
    by_cases h : b.height (colIdx j) < ROW
    · have hl : b.Legal j := (legal_iff_height hj).2 h
      obtain ⟨w, hc⟩ := checkWinner_isSome (marks_put (c := j) hm (SYMBOL_mark hs))
      rw [if_pos h]
      simp only [Board.drop_eq_put hl hs, hc, Board.remove_put ch hg hl, winsAt, Option.some_bind,
        Option.some.injEq]
      by_cases hww : w = who
      · simp [hww]
      · simp [hww, ih hr]
    · rw [if_neg h]
      have hl : ¬b.Legal j := fun hl => h ((legal_iff_height hj).1 hl)
      simp [winsAt, drop_none_of_full hl, ih hr]

theorem put_height_self (b : Board) (j : Int) (ch : Char) :
    (b.put j ch).height (colIdx j) = b.height (colIdx j) + 1 := by
  simp [Board.put]

theorem safeScan_eq {b : Board} (hg : b.Gravity) (hm : b.board.Marks) {turn : Nat}
    (ht : turn < 2) (L : List Int) (hL : ∀ j ∈ L, j ∈ columns) (moves : List Int) :
    OneMove.safeScan turn L b moves = some (moves ++ L.filter (safeAt b turn), b) := by
  induction L generalizing moves with
  | nil => simp [OneMove.safeScan]
  | cons j rest ih =>
    have hj := hL j (by simp)
    have hr : ∀ k ∈ rest, k ∈ columns := fun k hk => hL k (by simp [hk])
    have hj2 := (mem_columns j).1 hj
    obtain ⟨ch, hs⟩ := SYMBOL_lt ht
    have ht2 : turn ^^^ 1 < 2 := by interval_cases turn <;> decide
    obtain ⟨ch2, hs2⟩ := SYMBOL_lt ht2
    simp only [OneMove.safeScan, safeAt, Board.getHeight_of_range b hj2.1 hj2.2, List.filter_cons]
    by_cases h : b.height (colIdx j) ≤ ROW - 2
    · have hl : b.Legal j := (legal_iff_height hj).2 (by simp only [ROW] at *; omega)
      have hg1 := Board.gravity_put hg hl (SYMBOL_ne_empty hs)
      have hl1 : (b.put j ch).Legal j :=
        (legal_iff_height hj).2 (by rw [put_height_self]; simp only [ROW] at *; omega)
      have hm1 := marks_put (c := j) hm (SYMBOL_mark hs)
      obtain ⟨w, hc⟩ := checkWinner_isSome (marks_put (c := j) hm1 (SYMBOL_mark hs2))
      rw [if_pos h, if_pos h]
      simp only [Board.drop_eq_put hl hs, Board.drop_eq_put hl1 hs2, hc,
        Board.remove_put ch2 hg1 hl1, Board.remove_put ch hg hl, Option.some_bind, ih hr]
      by_cases hww : w = turn ^^^ 1
      · simp [hww]
      · simp [hww]
    · rw [if_neg h, if_neg h]
      by_cases h5 : b.height (colIdx j) = ROW - 1
      · have hl : b.Legal j := (legal_iff_height hj).2 (by simp only [ROW] at *; omega)
        obtain ⟨w, hc⟩ := checkWinner_isSome (marks_put (c := j) hm (SYMBOL_mark hs))
        rw [if_pos h5, if_pos h5]
        simp only [Board.drop_eq_put hl hs, hc, Board.remove_put ch hg hl, Option.some_bind,
          ih hr]
        by_cases hww : w = NO_ONE
        · simp [hww]
        · simp [hww]
      · rw [if_neg h5, if_neg h5]
        simp [ih hr]

theorem om_move_eq {b : Board} (hg : b.Gravity) (hm : b.board.Marks) {turn : Nat}
    (ht : turn < 2) (rnd : Nat) :
    OneMove.move b turn rnd = (OneMove.choice b turn rnd).map fun c => (c, b) := by
  have ht2 : turn ^^^ 1 < 2 := by interval_cases turn <;> decide
  simp only [OneMove.move, OneMove.choice, findWin_eq hg hm ht columns (fun _ h => h)]
  cases h1 : columns.find? (winsAt b turn) with
  | some j => rfl
  | none =>
    simp only [findWin_eq hg hm ht2 columns (fun _ h => h)]
    cases h2 : columns.find? (winsAt b (turn ^^^ 1)) with
    | some j => rfl
    | none =>
      simp only [safeScan_eq hg hm ht columns (fun _ h => h), List.nil_append,
        collectLegal_eq b columns (fun _ h => h)]
      split <;> rfl

theorem pick_mem (moves : List Int) (h : moves ≠ []) (rnd : Nat) :
    ∃ c ∈ moves, pick moves rnd = some c := by
  have hlen : 0 < moves.length := List.length_pos.2 h
  have hlt : rnd % moves.length < moves.length := Nat.mod_lt _ hlen
  refine ⟨moves[rnd % moves.length], List.getElem_mem _, ?_⟩
  simp only [pick]
  rw [if_neg (by omega)]
  exact List.getElem?_eq_getElem hlt

theorem pick_singleton (c : Int) (rnd : Nat) : pick [c] rnd = some c := by
  obtain ⟨d, hd, h⟩ := pick_mem [c] (by simp) rnd
  rw [h]
  simp at hd
  rw [hd]

theorem winsAt_legal {b : Board} {who : Nat} {j : Int} (h : winsAt b who j = true) :
    b.Legal j := by
  by_contra hl
  simp [winsAt, drop_none_of_full hl] at h

theorem safeAt_legal {b : Board} {turn : Nat} {j : Int} (hj : j ∈ columns)
    (h : safeAt b turn j = true) : b.Legal j := by
  have hj2 := (mem_columns j).1 hj
  simp only [safeAt, Board.getHeight_of_range b hj2.1 hj2.2] at h
  refine (legal_iff_height hj).2 ?_
  simp only [ROW] at *
  split at h
  · omega
  · split at h
    · omega
    · cases h

theorem om_choice_legal {b : Board} (turn rnd : Nat)
    (hex : ∃ j ∈ columns, b.Legal j) : ∃ c, OneMove.choice b turn rnd = some c ∧ b.Legal c := by
  simp only [OneMove.choice]
  cases h1 : columns.find? (winsAt b turn) with
  | some j => exact ⟨j, rfl, winsAt_legal (List.find?_some h1)⟩
  | none =>
    cases h2 : columns.find? (winsAt b (turn ^^^ 1)) with
    | some j => exact ⟨j, rfl, winsAt_legal (List.find?_some h2)⟩
    | none =>
      simp only
      split
      · rename_i hne
        obtain ⟨c, hc, hp⟩ := pick_mem (columns.filter (safeAt b turn))
          (fun h => hne (by rw [h]; rfl)) rnd
        rw [List.mem_filter] at hc
        exact ⟨c, hp, safeAt_legal hc.1 hc.2⟩
      · obtain ⟨j, hj, hl⟩ := hex
        obtain ⟨c, hc, hp⟩ := pick_mem (columns.filter fun j => decide (b.Legal j))
          (List.ne_nil_of_mem (List.mem_filter.2 ⟨hj, by simpa using hl⟩)) rnd
        rw [List.mem_filter] at hc
        exact ⟨c, hp, by simpa using hc.2⟩

theorem winsAt_iff (b : Board) (who : Nat) (j : Int) :
    winsAt b who j = true ↔ (b.drop j who).bind Board.checkWinner = some who := by
  simp [winsAt]

/-- C8: on a board satisfying the gravity invariant, when some legal column makes
`checkWinner` return the mover once the mover's mark is dropped there, `OneMove::move`
returns such a column (and leaves the board as it was). -/
theorem oneMove_takes_win (b : Board) (turn rnd : Nat) (hg : b.Gravity) (hm : b.board.Marks)
    (ht : turn < 2)
    (hw : ∃ j ∈ columns, b.Legal j ∧ (b.drop j turn).bind Board.checkWinner = some turn) :
    ∃ c, OneMove.move b turn rnd = some (c, b) ∧ b.Legal c ∧
      (b.drop c turn).bind Board.checkWinner = some turn := by
  obtain ⟨j, hj, -, hwj⟩ := hw
  rw [om_move_eq hg hm ht]
  simp only [OneMove.choice]
  cases h1 : columns.find? (winsAt b turn) with
  | none =>
    rw [List.find?_eq_none] at h1
    exact absurd ((winsAt_iff _ _ _).2 hwj) (h1 j hj)
  | some c =>
    have hc := List.find?_some h1
    exact ⟨c, rfl, winsAt_legal hc, (winsAt_iff _ _ _).1 hc⟩

set_option maxRecDepth 1000000 in
/-- An instance of C8, on the board with three `'o'` in a row on the bottom and both ends playable. -/
theorem oneMove_takes_win_witness :
    threeInRow.Gravity ∧ threeInRow.board.Marks ∧
    ∃ c, OneMove.move threeInRow 0 5 = some (c, threeInRow) ∧ threeInRow.Legal c ∧
      (threeInRow.drop c 0).bind Board.checkWinner = some 0 :=
  ⟨by decide, by decide,
    oneMove_takes_win threeInRow 0 5 (by decide) (by decide) (by decide)
      ⟨4, by decide, by decide, by decide⟩⟩

/-- C9: on a board satisfying the gravity invariant, when no legal column wins at once for
the mover and some legal column would win at once for the opponent, `OneMove::move` returns
a column where the opponent's mark would win at once; when there is exactly one such
column, it is the column returned, whatever the random draw. -/
theorem oneMove_blocks (b : Board) (turn rnd : Nat) (hg : b.Gravity) (hm : b.board.Marks)
    (ht : turn < 2)
    (hno : ∀ j ∈ columns, b.Legal j → (b.drop j turn).bind Board.checkWinner ≠ some turn)
    (hopp : ∃ j ∈ columns, b.Legal j ∧
      (b.drop j (turn ^^^ 1)).bind Board.checkWinner = some (turn ^^^ 1)) :
    (∃ c, OneMove.move b turn rnd = some (c, b) ∧ b.Legal c ∧
      (b.drop c (turn ^^^ 1)).bind Board.checkWinner = some (turn ^^^ 1)) ∧
    (∀ k, (∀ j ∈ columns, b.Legal j →
        (b.drop j (turn ^^^ 1)).bind Board.checkWinner = some (turn ^^^ 1) → j = k) →
      OneMove.move b turn rnd = some (k, b)) := by
  obtain ⟨j, hj, -, hwj⟩ := hopp
  rw [om_move_eq hg hm ht]
  simp only [OneMove.choice]
  have h1 : columns.find? (winsAt b turn) = none := by
    rw [List.find?_eq_none]
    intro k hk hwk
    exact hno k hk (winsAt_legal hwk) ((winsAt_iff _ _ _).1 hwk)
  rw [h1]
  cases h2 : columns.find? (winsAt b (turn ^^^ 1)) with
  | none =>
    rw [List.find?_eq_none] at h2
    exact absurd ((winsAt_iff _ _ _).2 hwj) (h2 j hj)
  | some c =>
    have hc := List.find?_some h2
    have hmem := List.mem_of_find?_eq_some h2
    refine ⟨⟨c, rfl, winsAt_legal hc, (winsAt_iff _ _ _).1 hc⟩, fun k hk => ?_⟩
    rw [hk c hmem (winsAt_legal hc) ((winsAt_iff _ _ _).1 hc)]
    rfl

set_option maxRecDepth 1000000 in
/-- An instance of C9, on a board where `'x'` threatens to complete the bottom row in column 4 only. -/
theorem oneMove_blocks_witness :
    threatBoard.Gravity ∧ threatBoard.board.Marks ∧
    (∃ c, OneMove.move threatBoard 0 5 = some (c, threatBoard) ∧ threatBoard.Legal c ∧
      (threatBoard.drop c 1).bind Board.checkWinner = some 1) ∧
    OneMove.move threatBoard 0 5 = some (4, threatBoard) :=
  ⟨by decide, by decide,
    (oneMove_blocks threatBoard 0 5 (by decide) (by decide) (by decide) (by decide)
      ⟨4, by decide, by decide, by decide⟩).1,
    (oneMove_blocks threatBoard 0 5 (by decide) (by decide) (by decide) (by decide)
      ⟨4, by decide, by decide, by decide⟩).2 4 (by decide)⟩

set_option maxRecDepth 1000000 in
/-- An instance of C3, on the board where `'o'` has completed the bottom row and `'x'` has no line:
`checkWinner` returns `PLAYER_O`. -/
theorem checkWinner_spec_witness :
    (threeInRow.put 4 SYM_O).board.Marks ∧
    HasFour (threeInRow.put 4 SYM_O).board SYM_O ∧
    ¬HasFour (threeInRow.put 4 SYM_O).board SYM_X ∧
    (threeInRow.put 4 SYM_O).checkWinner = some PLAYER_O :=
  ⟨by decide, by decide, by decide,
    (checkWinner_spec (threeInRow.put 4 SYM_O) (by decide)).2.2.2.2.1 (by decide) (by decide)⟩

/-! ## The two searches as functions of the board -/

theorem SYMBOL_O : SYMBOL PLAYER_O = some SYM_O := rfl

theorem nm_value_eq {deeper : Option (Board → Option (Int × Board))}
    {dp : Option (Board → Int)} (ha : Negamax.Agree deeper dp) {b : Board} (hg : b.Gravity) :
    Negamax.value deeper b = some (Negamax.valueP dp b, b) := by
  cases deeper with
  | none =>
    cases dp with
    | none => rfl
    | some f => exact absurd ha (by simp [Negamax.Agree])
  | some g =>
    cases dp with
    | none => exact absurd ha (by simp [Negamax.Agree])
    | some f =>
      have hag : ∀ b : Board, b.Gravity → g b = some (f b, b) := ha
      simp only [Negamax.value, Negamax.valueP, Board.getBoard]
      split
      · rw [hag _ (Board.gravity_invert hg)]
        simp only [Board.invertBoard_invertBoard]
      · simp only [Board.invertBoard_invertBoard]

theorem nm_scan_eq (deeper : Option (Board → Option (Int × Board)))
    (dp : Option (Board → Int)) (ha : Negamax.Agree deeper dp) {b : Board} (hg : b.Gravity)
    (L : List Int) (hL : ∀ j ∈ L, j ∈ columns) (score : Int → Int) (m : Int) :
    Negamax.scan deeper L b score m = some (b, Negamax.scanP dp b L score m) := by
  induction L generalizing score m with
  | nil => rfl
  | cons j rest ih =>
    have hj := hL j (by simp)
    have hr : ∀ k ∈ rest, k ∈ columns := fun k hk => hL k (by simp [hk])
    have hj2 := (mem_columns j).1 hj
    simp only [Negamax.scan, Negamax.scanP, Board.getHeight_of_range b hj2.1 hj2.2]
    by_cases h : b.height (colIdx j) ≥ ROW
    · rw [if_pos h, if_pos h]
      exact ih hr score m
    · rw [if_neg h, if_neg h]
      have hl : b.Legal j := (legal_iff_height hj).2 (by omega)
      have hg1 : (b.put j SYM_O).Gravity := Board.gravity_put hg hl (by decide)
      simp only [Board.drop_eq_put hl SYMBOL_O, nm_value_eq ha hg1,
        Board.remove_put SYM_O hg hl]
      exact ih hr _ _

theorem nm_best_eq (d : Nat) (b : Board) :
    Negamax.best d b =
      (Negamax.scanP (Negamax.deeperP d) b columns (fun _ => -3 * INF) (-2 * INF)).2 := by
  match d with
  | 0 => rfl
  | 1 => rfl
  | d + 2 => rfl

theorem nm_negamax_unfold (d : Nat) (b : Board) (parent : Bool) (rnd : Nat) :
    Negamax.negamax d b parent rnd =
      match Negamax.scan
          (match d with
            | k + 2 => some fun b => Negamax.negamax (k + 1) b false rnd
            | _ => none)
          columns b (fun _ => -3 * INF) (-2 * INF) with
      | none => none
      | some (b, score, maxscore) => (finish parent rnd score maxscore).map fun r => (r, b) := by
  match d with
  | 0 => rfl
  | 1 => rfl
  | d + 2 => rfl

theorem nm_negamax_eq (d : Nat) (rnd : Nat) :
    ∀ (b : Board) (parent : Bool), b.Gravity →
      Negamax.negamax d b parent rnd =
        (finish parent rnd
          (Negamax.scanP (Negamax.deeperP d) b columns (fun _ => -3 * INF) (-2 * INF)).1
          (Negamax.scanP (Negamax.deeperP d) b columns (fun _ => -3 * INF) (-2 * INF)).2).map
          fun r => (r, b) := by
  induction d with
  | zero =>
    intro b parent hg
    rw [nm_negamax_unfold]
    simp only [Negamax.deeperP]
    rw [nm_scan_eq none none (show Negamax.Agree none none from trivial) hg columns
      (fun _ h => h)]
  | succ n ih =>
    intro b parent hg
    rw [nm_negamax_unfold]
    cases n with
    | zero =>
      simp only [Negamax.deeperP]
      rw [nm_scan_eq none none (show Negamax.Agree none none from trivial) hg columns
      (fun _ h => h)]
    | succ k =>
      simp only [Negamax.deeperP]
      have ha : Negamax.Agree (some fun b => Negamax.negamax (k + 1) b false rnd)
          (some (Negamax.best (k + 1))) := by
        intro b1 hg1
        show Negamax.negamax (k + 1) b1 false rnd = _
        rw [ih b1 false hg1, nm_best_eq]
        rfl
      rw [nm_scan_eq _ _ ha hg columns (fun _ h => h)]

theorem mem_ORDER {c : Int} (h : c ∈ ORDER) : c ∈ columns := by
  rw [mem_columns]
  simp only [ORDER, List.mem_cons, List.mem_singleton, List.not_mem_nil, or_false, COL] at *
  omega

theorem ab_value_eq {deeper : Option (Board → Int → Int → Option (Int × Board))}
    {dp : Option (Board → Int → Int → Int)} (ha : AlphaBeta.Agree deeper dp) {b : Board}
    (hg : b.Gravity) (alpha beta : Int) :
    AlphaBeta.value deeper b alpha beta = some (AlphaBeta.valueP dp b alpha beta, b) := by
  cases deeper with
  | none =>
    cases dp with
    | none => rfl
    | some f => exact absurd ha (by simp [AlphaBeta.Agree])
  | some g =>
    cases dp with
    | none => exact absurd ha (by simp [AlphaBeta.Agree])
    | some f =>
      have hag : ∀ (b : Board) (alpha beta : Int), b.Gravity →
          g b alpha beta = some (f b alpha beta, b) := ha
      simp only [AlphaBeta.value, AlphaBeta.valueP, Board.getBoard]
      split
      · rw [hag _ _ _ (Board.gravity_invert hg)]
        simp only [Board.invertBoard_invertBoard]
      · simp only [Board.invertBoard_invertBoard]

theorem ab_scan_eq (deeper : Option (Board → Int → Int → Option (Int × Board)))
    (dp : Option (Board → Int → Int → Int)) (ha : AlphaBeta.Agree deeper dp) {b : Board}
    (hg : b.Gravity) (L : List Int) (hL : ∀ j ∈ L, j ∈ columns) (score : Int → Int)
    (m alpha beta : Int) :
    AlphaBeta.scan deeper L b score m alpha beta
      = some (b, AlphaBeta.scanP dp b L score m alpha beta) := by
  induction L generalizing score m alpha with
  | nil => rfl
  | cons j rest ih =>
    have hj := hL j (by simp)
    have hr : ∀ k ∈ rest, k ∈ columns := fun k hk => hL k (by simp [hk])
    have hj2 := (mem_columns j).1 hj
    simp only [AlphaBeta.scan, AlphaBeta.scanP, Board.getHeight_of_range b hj2.1 hj2.2]
    by_cases h : b.height (colIdx j) ≥ ROW
    · rw [if_pos h, if_pos h]
      exact ih hr score m alpha
    · rw [if_neg h, if_neg h]
      have hl : b.Legal j := (legal_iff_height hj).2 (by omega)
      have hg1 : (b.put j SYM_O).Gravity := Board.gravity_put hg hl (by decide)
      simp only [Board.drop_eq_put hl SYMBOL_O, ab_value_eq ha hg1,
        Board.remove_put SYM_O hg hl]
      split
      · rfl
      · exact ih hr _ _ _

theorem ab_best_eq (d : Nat) (b : Board) (alpha beta : Int) :
    AlphaBeta.best d b alpha beta =
      (AlphaBeta.scanP (AlphaBeta.deeperP d) b ORDER (fun _ => -3 * INF) (-2 * INF)
        alpha beta).2 := by
  match d with
  | 0 => rfl
  | 1 => rfl
  | d + 2 => rfl

theorem ab_negamax_unfold (d : Nat) (b : Board) (parent : Bool) (alpha beta : Int)
    (rnd : Nat) :
    AlphaBeta.negamax d b parent alpha beta rnd =
      match AlphaBeta.scan
          (match d with
            | k + 2 => some fun b a c => AlphaBeta.negamax (k + 1) b false a c rnd
            | _ => none)
          ORDER b (fun _ => -3 * INF) (-2 * INF) alpha beta with
      | none => none
      | some (b, score, maxscore) => (finish parent rnd score maxscore).map fun r => (r, b) := by
  match d with
  | 0 => rfl
  | 1 => rfl
  | d + 2 => rfl

theorem ab_negamax_eq (d : Nat) (rnd : Nat) :
    ∀ (b : Board) (parent : Bool) (alpha beta : Int), b.Gravity →
      AlphaBeta.negamax d b parent alpha beta rnd =
        (finish parent rnd
          (AlphaBeta.scanP (AlphaBeta.deeperP d) b ORDER (fun _ => -3 * INF) (-2 * INF)
            alpha beta).1
          (AlphaBeta.scanP (AlphaBeta.deeperP d) b ORDER (fun _ => -3 * INF) (-2 * INF)
            alpha beta).2).map
          fun r => (r, b) := by
  induction d with
  | zero =>
    intro b parent alpha beta hg
    rw [ab_negamax_unfold]
    simp only [AlphaBeta.deeperP]
    rw [ab_scan_eq none none (show AlphaBeta.Agree none none from trivial) hg ORDER
      (fun _ h => mem_ORDER h)]
  | succ n ih =>
    intro b parent alpha beta hg
    rw [ab_negamax_unfold]
    cases n with
    | zero =>
      simp only [AlphaBeta.deeperP]
      rw [ab_scan_eq none none (show AlphaBeta.Agree none none from trivial) hg ORDER
        (fun _ h => mem_ORDER h)]
    | succ k =>
      simp only [AlphaBeta.deeperP]
      have ha : AlphaBeta.Agree (some fun b a c => AlphaBeta.negamax (k + 1) b false a c rnd)
          (some (AlphaBeta.best (k + 1))) := by
        intro b1 a c hg1
        show AlphaBeta.negamax (k + 1) b1 false a c rnd = _
        rw [ih b1 false a c hg1, ab_best_eq]
        rfl
      rw [ab_scan_eq _ _ ha hg ORDER (fun _ h => mem_ORDER h)]

/-! ## Range of the search values, candidates at the root -/

theorem nm_valueP_range {dp : Option (Board → Int)} (hb : Negamax.Bounded dp) (b : Board) :
    -200 ≤ Negamax.valueP dp b ∧ Negamax.valueP dp b ≤ 200 := by
  have he := eval_range b.board
  cases dp with
  | none => simp only [Negamax.valueP]; omega
  | some f =>
    have hf := hb f rfl b.invertBoard
    simp only [Negamax.valueP]
    split <;> omega

theorem ab_valueP_range {dp : Option (Board → Int → Int → Int)}
    (hb : AlphaBeta.Bounded dp) (b : Board) (alpha beta : Int) :
    -200 ≤ AlphaBeta.valueP dp b alpha beta ∧ AlphaBeta.valueP dp b alpha beta ≤ 200 := by
  have he := eval_range b.board
  cases dp with
  | none => simp only [AlphaBeta.valueP]; omega
  | some f =>
    have hf := hb f rfl b.invertBoard (negInt beta) (negInt alpha)
    simp only [AlphaBeta.valueP]
    split <;> omega

theorem nm_scanP_range {dp : Option (Board → Int)} (hb : Negamax.Bounded dp) (b : Board)
    (L : List Int) (score : Int → Int) (m : Int) (hm : -200 ≤ m ∧ m ≤ 200) :
    -200 ≤ (Negamax.scanP dp b L score m).2 ∧ (Negamax.scanP dp b L score m).2 ≤ 200 := by
  induction L generalizing score m with
  | nil => exact hm
  | cons j rest ih =>
    simp only [Negamax.scanP]
    have hv := nm_valueP_range hb (b.put j SYM_O)
    split
    · exact ih score m hm
    · apply ih
      split <;> omega

theorem ab_scanP_range {dp : Option (Board → Int → Int → Int)}
    (hb : AlphaBeta.Bounded dp) (b : Board) (L : List Int) (score : Int → Int)
    (m alpha beta : Int) (hm : -200 ≤ m ∧ m ≤ 200) :
    -200 ≤ (AlphaBeta.scanP dp b L score m alpha beta).2 ∧
      (AlphaBeta.scanP dp b L score m alpha beta).2 ≤ 200 := by
  induction L generalizing score m alpha with
  | nil => exact hm
  | cons j rest ih =>
    simp only [AlphaBeta.scanP]
    have hv := ab_valueP_range hb (b.put j SYM_O) alpha beta
    split
    · exact ih score m alpha hm
    · split
      · simp only
        split <;> omega
      · apply ih
        split <;> omega

theorem nm_deeperP_bounded (d : Nat) : Negamax.Bounded (Negamax.deeperP d) := by
  induction d with
  | zero => intro f hf; cases hf
  | succ n ih =>
    cases n with
    | zero => intro f hf; cases hf
    | succ k =>
      intro f hf b
      simp only [Negamax.deeperP, Option.some.injEq] at hf
      subst hf
      rw [nm_best_eq]
      exact nm_scanP_range ih b _ _ _ (by simp only [INF]; omega)

theorem ab_deeperP_bounded (d : Nat) : AlphaBeta.Bounded (AlphaBeta.deeperP d) := by
  induction d with
  | zero => intro f hf; cases hf
  | succ n ih =>
    cases n with
    | zero => intro f hf; cases hf
    | succ k =>
      intro f hf b alpha beta
      simp only [AlphaBeta.deeperP, Option.some.injEq] at hf
      subst hf
      rw [ab_best_eq]
      exact ab_scanP_range ih b _ _ _ _ _ (by simp only [INF]; omega)

theorem rootInv_step {b : Board} {c : Int} {rest : List Int} {score : Int → Int} {m v : Int}
    (hc : c ∈ columns) (hl : b.Legal c) (hnd : c ∉ rest) (hv : -200 ≤ v)
    (hinv : RootInv b (c :: rest) score m) :
    RootInv b rest (Function.update score c v) (if v > m then v else m) := by
  obtain ⟨h1, h2, h3⟩ := hinv
  refine ⟨by split <;> omega, fun j => ?_, fun hm => ?_⟩
  · by_cases hj : j = c
    · subst hj
      right
      simp only [Function.update_same]
      exact ⟨hc, hl, hv, by split <;> omega⟩
    · rw [Function.update_noteq hj]
      rcases h2 j with h | ⟨ha, hb, hc2, hd⟩
      · exact Or.inl h
      · exact Or.inr ⟨ha, hb, hc2, by split <;> omega⟩
  · by_cases hvm : v > m
    · rw [if_pos hvm]
      exact ⟨c, hnd, by simp⟩
    · rw [if_neg hvm] at hm ⊢
      obtain ⟨j, hj, hs⟩ := h3 hm
      have hjc : j ≠ c := fun h => hj (by simp [h])
      exact ⟨j, fun h => hj (by simp [h]), by rw [Function.update_noteq hjc]; exact hs⟩

theorem rootInv_skip {b : Board} {c : Int} {rest : List Int} {score : Int → Int} {m : Int}
    (hinv : RootInv b (c :: rest) score m) : RootInv b rest score m := by
  obtain ⟨h1, h2, h3⟩ := hinv
  refine ⟨h1, h2, fun hm => ?_⟩
  obtain ⟨j, hj, hs⟩ := h3 hm
  exact ⟨j, fun h => hj (by simp [h]), hs⟩

theorem ab_scanP_root {dp : Option (Board → Int → Int → Int)}
    (hb : AlphaBeta.Bounded dp) (b : Board) (L : List Int) (hnd : L.Nodup)
    (hL : ∀ j ∈ L, j ∈ columns) (score : Int → Int) (m alpha beta : Int)
    (hinv : RootInv b L score m) :
    RootInv b [] (AlphaBeta.scanP dp b L score m alpha beta).1
        (AlphaBeta.scanP dp b L score m alpha beta).2 ∧
      ((∃ j, score j ≠ -300) ∨ (∃ j ∈ L, b.Legal j) →
        ∃ j, (AlphaBeta.scanP dp b L score m alpha beta).1 j ≠ -300) := by
  induction L generalizing score m alpha with
  | nil =>
    refine ⟨hinv, ?_⟩
    rintro (h | ⟨j, hj, -⟩)
    · exact h
    · cases hj
  | cons c rest ih =>
    have hc := hL c (by simp)
    have hr : ∀ k ∈ rest, k ∈ columns := fun k hk => hL k (by simp [hk])
    obtain ⟨hc_nd, hrest_nd⟩ := List.nodup_cons.1 hnd
    simp only [AlphaBeta.scanP]
    have hv := ab_valueP_range hb (b.put c SYM_O) alpha beta
    by_cases h : b.height (colIdx c) ≥ ROW
    · rw [if_pos h]
      obtain ⟨i1, i2⟩ := ih hrest_nd hr score m alpha (rootInv_skip hinv)
      refine ⟨i1, fun hex => i2 ?_⟩
      rcases hex with hex | ⟨j, hj, hlj⟩
      · exact Or.inl hex
      · rcases List.mem_cons.1 hj with rfl | hj2
        · exact absurd hlj.2.2 (by omega)
        · exact Or.inr ⟨j, hj2, hlj⟩
    · rw [if_neg h]
      have hl : b.Legal c := (legal_iff_height hc).2 (by omega)
      have hstep := rootInv_step (v := AlphaBeta.valueP dp (b.put c SYM_O) alpha beta)
        hc hl hc_nd hv.1 hinv
      have hset : ∃ j, Function.update score c (AlphaBeta.valueP dp (b.put c SYM_O) alpha beta) j
          ≠ -300 := ⟨c, by simp only [Function.update_same]; omega⟩
      split
      · refine ⟨?_, fun _ => hset⟩
        obtain ⟨h1, h2, h3⟩ := hstep
        refine ⟨h1, h2, fun hm => ?_⟩
        obtain ⟨j, -, hs⟩ := h3 hm
        exact ⟨j, by simp, hs⟩
      · obtain ⟨i1, i2⟩ := ih hrest_nd hr _ _
          (if AlphaBeta.valueP dp (b.put c SYM_O) alpha beta > alpha
            then AlphaBeta.valueP dp (b.put c SYM_O) alpha beta else alpha) hstep
        exact ⟨i1, fun _ => i2 (Or.inl hset)⟩

theorem candidates_legal {b : Board} {score : Int → Int} {m : Int} (hinv : RootInv b [] score m)
    (hset : ∃ j, score j ≠ -300) (rnd : Nat) :
    ∃ c, finish true rnd score m = some c ∧ b.Legal c := by
  obtain ⟨h1, h2, h3⟩ := hinv
  have hne : (columns.filter fun j => decide (score j = m)) ≠ [] := by
    by_cases hm : -200 < m
    · obtain ⟨j, -, hs⟩ := h3 hm
      rcases h2 j with h | ⟨hc, -⟩
      · omega
      · exact List.ne_nil_of_mem (List.mem_filter.2 ⟨hc, by simpa using hs⟩)
    · obtain ⟨j, hj⟩ := hset
      rcases h2 j with h | ⟨hc, -, h4, h5⟩
      · exact absurd h hj
      · exact List.ne_nil_of_mem (List.mem_filter.2 ⟨hc, by simp; omega⟩)
  obtain ⟨c, hc, hp⟩ := pick_mem _ hne rnd
  refine ⟨c, by simpa [finish] using hp, ?_⟩
  rw [List.mem_filter] at hc
  have hcm : score c = m := by simpa using hc.2
  rcases h2 c with h | ⟨-, hl, -⟩
  · omega
  · exact hl

theorem rootInv_init (b : Board) (L : List Int) : RootInv b L (fun _ => -3 * INF) (-2 * INF) := by
  refine ⟨by simp only [INF]; omega, fun j => Or.inl (by simp only [INF]; omega), fun h => ?_⟩
  simp only [INF] at h
  omega

theorem nm_scanP_root {dp : Option (Board → Int)} (hb : Negamax.Bounded dp) (b : Board)
    (L : List Int) (hnd : L.Nodup) (hL : ∀ j ∈ L, j ∈ columns) (score : Int → Int) (m : Int)
    (hinv : RootInv b L score m) :
    RootInv b [] (Negamax.scanP dp b L score m).1 (Negamax.scanP dp b L score m).2 ∧
      ((∃ j, score j ≠ -300) ∨ (∃ j ∈ L, b.Legal j) →
        ∃ j, (Negamax.scanP dp b L score m).1 j ≠ -300) := by
  induction L generalizing score m with
  | nil =>
    refine ⟨hinv, ?_⟩
    rintro (h | ⟨j, hj, -⟩)
    · exact h
    · cases hj
  | cons c rest ih =>
    have hc := hL c (by simp)
    have hr : ∀ k ∈ rest, k ∈ columns := fun k hk => hL k (by simp [hk])
    obtain ⟨hc_nd, hrest_nd⟩ := List.nodup_cons.1 hnd
    simp only [Negamax.scanP]
    have hv := nm_valueP_range hb (b.put c SYM_O)
    by_cases h : b.height (colIdx c) ≥ ROW
    · rw [if_pos h]
      obtain ⟨i1, i2⟩ := ih hrest_nd hr score m (rootInv_skip hinv)
      refine ⟨i1, fun hex => i2 ?_⟩
      rcases hex with hex | ⟨j, hj, hlj⟩
      · exact Or.inl hex
      · rcases List.mem_cons.1 hj with rfl | hj2
        · exact absurd hlj.2.2 (by omega)
        · exact Or.inr ⟨j, hj2, hlj⟩
    · rw [if_neg h]
      have hl : b.Legal c := (legal_iff_height hc).2 (by omega)
      have hstep := rootInv_step (v := Negamax.valueP dp (b.put c SYM_O)) hc hl hc_nd hv.1 hinv
      have hset : ∃ j, Function.update score c (Negamax.valueP dp (b.put c SYM_O)) j ≠ -300 :=
        ⟨c, by simp only [Function.update_same]; omega⟩
      obtain ⟨i1, i2⟩ := ih hrest_nd hr _ _ hstep
      exact ⟨i1, fun _ => i2 (Or.inl hset)⟩

theorem columns_nodup : columns.Nodup := by decide

theorem ORDER_nodup : ORDER.Nodup := by decide

theorem mem_ORDER_iff (c : Int) : c ∈ ORDER ↔ c ∈ columns := by
  constructor
  · exact mem_ORDER
  · intro h
    rw [mem_columns] at h
    simp only [COL] at h
    obtain ⟨h0, h1⟩ := h
    interval_cases c <;> decide

theorem legal_mem_columns {b : Board} {c : Int} (h : b.Legal c) : c ∈ columns :=
  (mem_columns c).2 ⟨h.1, h.2.1⟩

theorem nm_negamax_root {b : Board} (hg : b.Gravity) (hex : ∃ c, b.Legal c)
    (d rnd : Nat) : ∃ c, Negamax.negamax d b true rnd = some (c, b) ∧ b.Legal c := by
  rw [nm_negamax_eq d rnd b true hg]
  obtain ⟨j, hj⟩ := hex
  obtain ⟨i1, i2⟩ := nm_scanP_root (nm_deeperP_bounded d) b columns columns_nodup
    (fun _ h => h) _ _ (rootInv_init b columns)
  obtain ⟨c, hc, hl⟩ := candidates_legal i1 (i2 (Or.inr ⟨j, legal_mem_columns hj, hj⟩)) rnd
  exact ⟨c, by rw [hc]; rfl, hl⟩

theorem ab_negamax_root {b : Board} (hg : b.Gravity) (hex : ∃ c, b.Legal c)
    (d rnd : Nat) (alpha beta : Int) :
    ∃ c, AlphaBeta.negamax d b true alpha beta rnd = some (c, b) ∧ b.Legal c := by
  rw [ab_negamax_eq d rnd b true alpha beta hg]
  obtain ⟨j, hj⟩ := hex
  obtain ⟨i1, i2⟩ := ab_scanP_root (ab_deeperP_bounded d) b ORDER ORDER_nodup
    (fun _ h => mem_ORDER h) _ _ alpha beta (rootInv_init b ORDER)
  obtain ⟨c, hc, hl⟩ := candidates_legal i1
    (i2 (Or.inr ⟨j, (mem_ORDER_iff j).2 (legal_mem_columns hj), hj⟩)) rnd
  exact ⟨c, by rw [hc]; rfl, hl⟩

theorem legal_invert (b : Board) (c : Int) : b.invertBoard.Legal c ↔ b.Legal c := Iff.rfl

theorem nm_move_ok {b : Board} (hg : b.Gravity) (hex : ∃ c, b.Legal c)
    (d turn rnd : Nat) : ∃ c, Negamax.move d b turn rnd = some (c, b) ∧ b.Legal c := by
  simp only [Negamax.move]
  by_cases ht : turn = PLAYER_X
  · simp only [if_pos ht]
    obtain ⟨c, hc, hl⟩ := nm_negamax_root (Board.gravity_invert hg) hex d rnd
    rw [hc]
    exact ⟨c, by simp only [Board.invertBoard_invertBoard], hl⟩
  · simp only [if_neg ht]
    obtain ⟨c, hc, hl⟩ := nm_negamax_root hg hex d rnd
    rw [hc]
    exact ⟨c, rfl, hl⟩

theorem ab_move_ok {b : Board} (hg : b.Gravity) (hex : ∃ c, b.Legal c)
    (d turn rnd : Nat) : ∃ c, AlphaBeta.move d b turn rnd = some (c, b) ∧ b.Legal c := by
  simp only [AlphaBeta.move]
  by_cases ht : turn = PLAYER_X
  · simp only [if_pos ht]
    obtain ⟨c, hc, hl⟩ := ab_negamax_root (Board.gravity_invert hg) hex d rnd
      (-4 * INF) (4 * INF)
    rw [hc]
    exact ⟨c, by simp only [Board.invertBoard_invertBoard], hl⟩
  · simp only [if_neg ht]
    obtain ⟨c, hc, hl⟩ := ab_negamax_root hg hex d rnd (-4 * INF) (4 * INF)
    rw [hc]
    exact ⟨c, rfl, hl⟩

theorem rd_move_ok (b : Board) (hex : ∃ c, b.Legal c) (turn rnd : Nat) :
    ∃ c, Random.move b turn rnd = some (c, b) ∧ b.Legal c := by
  obtain ⟨j, hj⟩ := hex
  simp only [Random.move, collectLegal_eq b columns (fun _ h => h), List.nil_append]
  obtain ⟨c, hc, hp⟩ := pick_mem (columns.filter fun j => decide (b.Legal j))
    (List.ne_nil_of_mem (List.mem_filter.2 ⟨legal_mem_columns hj, by simpa using hj⟩)) rnd
  rw [List.mem_filter] at hc
  exact ⟨c, by rw [hp]; rfl, by simpa using hc.2⟩

theorem om_move_ok {b : Board} (hg : b.Gravity) (hm : b.board.Marks)
    (hex : ∃ c, b.Legal c) {turn : Nat} (ht : turn < 2) (rnd : Nat) :
    ∃ c, OneMove.move b turn rnd = some (c, b) ∧ b.Legal c := by
  obtain ⟨j, hj⟩ := hex
  obtain ⟨c, hc, hl⟩ := om_choice_legal turn rnd ⟨j, legal_mem_columns hj, hj⟩
  exact ⟨c, by rw [om_move_eq hg hm ht, hc]; rfl, hl⟩

theorem getHeight_of_legal {b : Board} {c : Int} (h : b.Legal c) :
    ∃ h, b.getHeight c = some h ∧ h < ROW :=
  ⟨_, Board.getHeight_of_range b h.1 h.2.1, h.2.2⟩

/-- C1: on a board satisfying the gravity invariant with a column that is not full, for
either turn, any depth and any value of the random draw, `Random::move`, `OneMove::move`,
`Negamax::move` and `AlphaBeta::move` return a column in `[0, COL)` whose `getHeight` is
below `ROW`; in particular the candidate list indexed by the draw is never empty. -/
theorem agents_return_legal (b : Board) (turn depth rnd : Nat) (hg : b.Gravity)
    (hex : ∃ c, b.Legal c) (ht : turn < 2) :
    (∃ c b1, Random.move b turn rnd = some (c, b1) ∧ 0 ≤ c ∧ c < (COL : Int) ∧
      ∃ h, b.getHeight c = some h ∧ h < ROW) ∧
    (b.board.Marks → ∃ c b1, OneMove.move b turn rnd = some (c, b1) ∧ 0 ≤ c ∧ c < (COL : Int) ∧
      ∃ h, b.getHeight c = some h ∧ h < ROW) ∧
    (∃ c b1, Negamax.move depth b turn rnd = some (c, b1) ∧ 0 ≤ c ∧ c < (COL : Int) ∧
      ∃ h, b.getHeight c = some h ∧ h < ROW) ∧
    (∃ c b1, AlphaBeta.move depth b turn rnd = some (c, b1) ∧ 0 ≤ c ∧ c < (COL : Int) ∧
      ∃ h, b.getHeight c = some h ∧ h < ROW) := by
  refine ⟨?_, fun hm => ?_, ?_, ?_⟩
  · obtain ⟨c, hc, hl⟩ := rd_move_ok b hex turn rnd
    exact ⟨c, b, hc, hl.1, hl.2.1, getHeight_of_legal hl⟩
  · obtain ⟨c, hc, hl⟩ := om_move_ok hg hm hex ht rnd
    exact ⟨c, b, hc, hl.1, hl.2.1, getHeight_of_legal hl⟩
  · obtain ⟨c, hc, hl⟩ := nm_move_ok hg hex depth turn rnd
    exact ⟨c, b, hc, hl.1, hl.2.1, getHeight_of_legal hl⟩
  · obtain ⟨c, hc, hl⟩ := ab_move_ok hg hex depth turn rnd
    exact ⟨c, b, hc, hl.1, hl.2.1, getHeight_of_legal hl⟩

/-- C2: on a board satisfying the gravity invariant with a column that is not full, for
either turn, any depth and any random draw, `OneMove::move`, `Negamax::move` and
`AlphaBeta::move` return with the board, cells and heights, as it was before the call; the
same holds for every recursive call of the two searches on a board satisfying the invariant,
whatever the bounds. -/
theorem agents_leave_board (b : Board) (turn depth rnd : Nat) (hg : b.Gravity)
    (hex : ∃ c, b.Legal c) (ht : turn < 2) :
    (b.board.Marks → ∃ c, OneMove.move b turn rnd = some (c, b)) ∧
    (∃ c, Negamax.move depth b turn rnd = some (c, b)) ∧
    (∃ c, AlphaBeta.move depth b turn rnd = some (c, b)) ∧
    (∀ (d : Nat) (b1 : Board), b1.Gravity → ∃ v, Negamax.negamax d b1 false rnd = some (v, b1)) ∧
    (∀ (d : Nat) (b1 : Board) (alpha beta : Int), b1.Gravity →
      ∃ v, AlphaBeta.negamax d b1 false alpha beta rnd = some (v, b1)) := by
  refine ⟨fun hm => ?_, ?_, ?_, fun d b1 hg1 => ?_, fun d b1 alpha beta hg1 => ?_⟩
  · obtain ⟨c, hc, -⟩ := om_move_ok hg hm hex ht rnd
    exact ⟨c, hc⟩
  · obtain ⟨c, hc, -⟩ := nm_move_ok hg hex depth turn rnd
    exact ⟨c, hc⟩
  · obtain ⟨c, hc, -⟩ := ab_move_ok hg hex depth turn rnd
    exact ⟨c, hc⟩
  · exact ⟨_, by rw [nm_negamax_eq d rnd b1 false hg1]; rfl⟩
  · exact ⟨_, by rw [ab_negamax_eq d rnd b1 false alpha beta hg1]; rfl⟩

/-! ## The pruned search and the plain search compute the same maximum -/

theorem negInt_eq {x : Int} (h1 : -2147483648 < x) (h2 : x ≤ 2147483647) :
    negInt x = -x := by
  unfold negInt
  omega

theorem valueP_rel {dpA : Option (Board → Int → Int → Int)} {dpN : Option (Board → Int)}
    (hrel : SearchRel dpA dpN) (b : Board) {alpha beta : Int} (hab : alpha ≤ beta)
    (hlo : -2147483648 < alpha) (hhi : beta ≤ 2147483647) :
    ABInv (AlphaBeta.valueP dpA b alpha beta) (Negamax.valueP dpN b) alpha beta := by
  cases dpA with
  | none =>
    cases dpN with
    | none =>
      simp only [AlphaBeta.valueP, Negamax.valueP]
      exact ⟨fun _ => le_refl _, fun _ _ => rfl, fun _ => le_refl _⟩
    | some f => exact absurd hrel (by simp [SearchRel])
  | some fA =>
    cases dpN with
    | none => exact absurd hrel (by simp [SearchRel])
    | some fN =>
      have h : ∀ (b : Board) (alpha beta : Int), alpha ≤ beta → -2147483648 < alpha →
          beta ≤ 2147483647 → ABInv (fA b alpha beta) (fN b) alpha beta := hrel
      simp only [AlphaBeta.valueP, Negamax.valueP]
      rw [negInt_eq (by omega) hhi, negInt_eq hlo (by omega)]
      split
      · obtain ⟨h1, h2, h3⟩ := h b.invertBoard (-beta) (-alpha) (by omega) (by omega)
          (by omega)
        refine ⟨fun hv => ?_, fun hv1 hv2 => ?_, fun hv => ?_⟩
        · have := h3 (by omega); omega
        · have := h2 (by omega) (by omega); omega
        · have := h1 (by omega); omega
      · exact ⟨fun _ => le_refl _, fun _ _ => rfl, fun _ => le_refl _⟩

theorem nm_scanP_ge (dp : Option (Board → Int)) (b : Board) (L : List Int)
    (score : Int → Int) (m : Int) : m ≤ (Negamax.scanP dp b L score m).2 := by
  induction L generalizing score m with
  | nil => exact le_refl _
  | cons j rest ih =>
    simp only [Negamax.scanP]
    split
    · exact ih score m
    · refine le_trans ?_ (ih _ _)
      split <;> omega

theorem scanP_rel {dpA : Option (Board → Int → Int → Int)} {dpN : Option (Board → Int)}
    (hrel : SearchRel dpA dpN) (b : Board) (alpha0 beta : Int) (hlo : -2147483648 < alpha0)
    (hhi : beta ≤ 2147483647) (L : List Int)
    (scoreA scoreN : Int → Int) (m alpha n : Int) (hK : LoopRel alpha0 beta m alpha n) :
    ABInv (AlphaBeta.scanP dpA b L scoreA m alpha beta).2 (Negamax.scanP dpN b L scoreN n).2
      alpha0 beta := by
  induction L generalizing scoreA scoreN m alpha n with
  | nil =>
    obtain ⟨k1, k2, k3, k4, k5⟩ := hK
    simp only [AlphaBeta.scanP, Negamax.scanP]
    refine ⟨fun _ => k3, fun h _ => k4 h, fun h => ?_⟩
    have := k4 (by omega)
    omega
  | cons c rest ih =>
    obtain ⟨k1, k2, k3, k4, k5⟩ := hK
    simp only [AlphaBeta.scanP, Negamax.scanP]
    by_cases hfull : b.height (colIdx c) ≥ ROW
    · rw [if_pos hfull, if_pos hfull]
      exact ih scoreA scoreN m alpha n ⟨k1, k2, k3, k4, k5⟩
    · rw [if_neg hfull, if_neg hfull]
      obtain ⟨r1, r2, r3⟩ := valueP_rel hrel (b.put c SYM_O) k2 (by omega) hhi
      generalize AlphaBeta.valueP dpA (b.put c SYM_O) alpha beta = v at r1 r2 r3 ⊢
      generalize Negamax.valueP dpN (b.put c SYM_O) = t at r1 r2 r3 ⊢
      have hm1 : m ≤ (if v > m then v else m) ∧ v ≤ (if v > m then v else m) ∧
          ((if v > m then v else m) = v ∨ (if v > m then v else m) = m) := by
        split_ifs <;> omega
      have hn1 : n ≤ (if t > n then t else n) ∧ t ≤ (if t > n then t else n) ∧
          ((if t > n then t else n) = t ∨ (if t > n then t else n) = n) := by
        split_ifs <;> omega
      have ha1 : alpha ≤ (if v > alpha then v else alpha) ∧ v ≤ (if v > alpha then v else alpha) ∧
          ((if v > alpha then v else alpha) = v ∨ (if v > alpha then v else alpha) = alpha) := by
        split_ifs <;> omega
      generalize (if v > m then v else m) = m1 at hm1 ⊢
      generalize (if t > n then t else n) = n1 at hn1 ⊢
      generalize (if v > alpha then v else alpha) = a1 at ha1 ⊢
      by_cases hcut : v > beta
      · rw [if_pos hcut]
        have hge := nm_scanP_ge dpN b rest (Function.update scoreN c t) n1
        have hvt := r3 hcut
        refine ⟨fun h => ?_, fun h1 h2 => ?_, fun _ => ?_⟩
        · simp only at h
          omega
        · simp only at h2
          omega
        · simp only
          by_cases hvm : v > m
          · omega
          · have := k4 (by omega)
            omega
      · rw [if_neg hcut]
        apply ih
        have hle : t ≤ v := by
          by_cases hva : v < alpha
          · exact r1 hva
          · have := r2 (by omega) (by omega); omega
        refine ⟨by omega, by omega, by omega, ?_, by omega⟩
        intro h0
        by_cases hvm : v > m
        · have hav : alpha ≤ v := by omega
          have := r2 hav (by omega)
          omega
        · have := k4 (by omega)
          omega

theorem nm_scanP_snd_eq_foldl (dp : Option (Board → Int)) (b : Board) (L : List Int)
    (score : Int → Int) (m : Int) :
    (Negamax.scanP dp b L score m).2 = L.foldl (Negamax.maxStep dp b) m := by
  induction L generalizing score m with
  | nil => rfl
  | cons j rest ih =>
    simp only [Negamax.scanP, List.foldl_cons, Negamax.maxStep]
    split
    · exact ih score m
    · exact ih _ _

theorem columns_perm_ORDER : List.Perm ORDER columns := by decide

theorem nm_scanP_ORDER (dp : Option (Board → Int)) (b : Board) (s1 s2 : Int → Int)
    (m : Int) : (Negamax.scanP dp b ORDER s1 m).2 = (Negamax.scanP dp b columns s2 m).2 := by
  rw [nm_scanP_snd_eq_foldl, nm_scanP_snd_eq_foldl]
  apply List.Perm.foldl_eq' columns_perm_ORDER
  intro x _ y _ z
  simp only [Negamax.maxStep]
  split_ifs <;> omega

theorem searchRel_deeperP (d : Nat) : SearchRel (AlphaBeta.deeperP d) (Negamax.deeperP d) := by
  induction d with
  | zero => trivial
  | succ n ih =>
    cases n with
    | zero => trivial
    | succ k =>
      intro b alpha beta hab hlo hhi
      rw [ab_best_eq, nm_best_eq,
        ← nm_scanP_ORDER (Negamax.deeperP (k + 1)) b (fun _ => -3 * INF)]
      exact scanP_rel ih b alpha beta hlo hhi ORDER _ _ _ _ _
        ⟨le_refl _, hab, le_refl _, fun _ => rfl, Or.inl (le_refl _)⟩

theorem best_rel (d : Nat) (b : Board) {alpha beta : Int} (hab : alpha ≤ beta)
    (hlo : -2147483648 < alpha) (hhi : beta ≤ 2147483647) :
    ABInv (AlphaBeta.best d b alpha beta) (Negamax.best d b) alpha beta := by
  rw [ab_best_eq, nm_best_eq,
    ← nm_scanP_ORDER (Negamax.deeperP d) b (fun _ => -3 * INF)]
  exact scanP_rel (searchRel_deeperP d) b alpha beta hlo hhi ORDER _ _ _ _ _
    ⟨le_refl _, hab, le_refl _, fun _ => rfl, Or.inl (le_refl _)⟩

theorem best_eq_of_wide (d : Nat) (b : Board) {alpha beta : Int} (ha : alpha ≤ -200)
    (hb : 200 ≤ beta) (hlo : -2147483648 < alpha) (hhi : beta ≤ 2147483647) :
    AlphaBeta.best d b alpha beta = Negamax.best d b := by
  have h := @best_rel d b alpha beta (by omega) hlo hhi
  have hr : -200 ≤ AlphaBeta.best d b alpha beta ∧ AlphaBeta.best d b alpha beta ≤ 200 := by
    rw [ab_best_eq]
    exact ab_scanP_range (ab_deeperP_bounded d) b _ _ _ _ _
      (by simp only [INF]; omega)
  exact h.2.1 (by omega) (by omega)

/-- C7: on a board satisfying the gravity invariant and for every depth, the maximum that
`Negamax::negamax(board, depth, false)` returns and the one that
`AlphaBeta::negamax(board, depth, false, -4*INF, 4*INF)` returns are equal; so they have
the same sign and are both of magnitude at least `INF` or both below it. -/
theorem negamax_alphaBeta_same_class (b : Board) (depth rnd : Nat) (hg : b.Gravity) :
    ∃ v w, Negamax.negamax depth b false rnd = some (v, b) ∧
      AlphaBeta.negamax depth b false (-4 * INF) (4 * INF) rnd = some (w, b) ∧
      v = w ∧ ((v < 0 ↔ w < 0) ∧ (v = 0 ↔ w = 0) ∧ (0 < v ↔ 0 < w)) ∧
      (INF ≤ |v| ↔ INF ≤ |w|) := by
  refine ⟨Negamax.best depth b, AlphaBeta.best depth b (-4 * INF) (4 * INF), ?_, ?_, ?_⟩
  · rw [nm_negamax_eq depth rnd b false hg, nm_best_eq]
    rfl
  · rw [ab_negamax_eq depth rnd b false _ _ hg, ab_best_eq]
    rfl
  · have e := @best_eq_of_wide depth b (-4 * INF) (4 * INF)
      (by simp only [INF]; omega) (by simp only [INF]; omega) (by simp only [INF]; omega)
      (by simp only [INF]; omega)
    rw [e]
    exact ⟨rfl, ⟨Iff.rfl, Iff.rfl, Iff.rfl⟩, Iff.rfl⟩

/-- An instance of C7, on the new board at depth 2. -/
theorem negamax_alphaBeta_same_class_witness :
    Board.new.Gravity ∧
    ∃ v w, Negamax.negamax 2 Board.new false 0 = some (v, Board.new) ∧
      AlphaBeta.negamax 2 Board.new false (-4 * INF) (4 * INF) 0 = some (w, Board.new) ∧
      v = w ∧ ((v < 0 ↔ w < 0) ∧ (v = 0 ↔ w = 0) ∧ (0 < v ↔ 0 < w)) ∧
      (INF ≤ |v| ↔ INF ≤ |w|) :=
  ⟨Board.gravity_new, negamax_alphaBeta_same_class Board.new 2 0 Board.gravity_new⟩

set_option maxRecDepth 1000000 in
theorem opening_scores :
    (Negamax.scanP none Board.new columns (fun _ => -3 * INF) (-2 * INF)).2 = 7 ∧
    (columns.map (Negamax.scanP none Board.new columns (fun _ => -3 * INF) (-2 * INF)).1)
      = [3, 4, 5, 7, 5, 4, 3] := by
  decide

set_option maxRecDepth 1000000 in
/-- C10: on the empty board, `Negamax` with depth 1 moving as `PLAYER_O` returns column 3
for every value of the random draw: of the seven scores computed at the root, the score of
column 3 is the maximum and every other column scores less. -/
theorem negamax_opening_center (rnd : Nat) :
    Negamax.move 1 Board.new PLAYER_O rnd = some (3, Board.new) ∧
    ∃ score m, Negamax.scan none columns Board.new (fun _ => -3 * INF) (-2 * INF)
        = some (Board.new, score, m) ∧
      score 3 = m ∧ ∀ j ∈ columns, j ≠ 3 → score j < score 3 := by
  obtain ⟨h1, h2⟩ := opening_scores
  have hs := nm_scan_eq none none (show Negamax.Agree none none from trivial)
    Board.gravity_new columns (fun _ h => h) (fun _ => -3 * INF) (-2 * INF)
  have hn := nm_negamax_eq 1 rnd Board.new true Board.gravity_new
  have hd : Negamax.deeperP 1 = none := rfl
  rw [hd] at hn
  generalize Negamax.scanP none Board.new columns (fun _ => -3 * INF) (-2 * INF) = S at *
  have hcols : columns = [0, 1, 2, 3, 4, 5, 6] := by decide
  rw [hcols] at h2
  simp only [List.map_cons, List.map_nil, List.cons.injEq, and_true] at h2
  obtain ⟨e0, e1, e2, e3, e4, e5, e6⟩ := h2
  have hc : (columns.filter fun j => decide (S.1 j = S.2)) = [3] := by
    rw [hcols]
    simp [List.filter_cons, e0, e1, e2, e3, e4, e5, e6, h1]
  constructor
  · simp only [Negamax.move, PLAYER_O, PLAYER_X]
    rw [if_neg (by decide), hn]
    simp only [finish, if_true, hc, pick_singleton]
    rfl
  · refine ⟨S.1, S.2, hs, by rw [h1, e3], ?_⟩
    intro j hj hne
    rw [hcols] at hj
    simp only [List.mem_cons, List.mem_singleton, List.not_mem_nil, or_false] at hj
    rcases hj with rfl | rfl | rfl | rfl | rfl | rfl | rfl
    · rw [e0, e3]; decide
    · rw [e1, e3]; decide
    · rw [e2, e3]; decide
    · exact absurd rfl hne
    · rw [e4, e3]; decide
    · rw [e5, e3]; decide
    · rw [e6, e3]; decide

set_option maxRecDepth 1000000 in
/-- An instance of C4, on the state where `'o'` has completed the bottom row and `'x'` has no line: the
value is `INF` plus the number of empty cells. -/
theorem eval_spec_witness :
    HasFour (threeInRow.put 4 SYM_O).board SYM_O ∧
    ¬HasFour (threeInRow.put 4 SYM_O).board SYM_X ∧
    eval (threeInRow.put 4 SYM_O).board
      = INF + (emptyCount (threeInRow.put 4 SYM_O).board : Int) :=
  ⟨by decide, by decide, (eval_spec (threeInRow.put 4 SYM_O).board).1 (by decide) (by decide)⟩

/-- An instance of C1, on the new board, for `PLAYER_X` at depth 2: each of the four agents returns a legal
column. -/
theorem agents_return_legal_witness :
    Board.new.Gravity ∧ (∃ c, Board.new.Legal c) ∧ Board.new.board.Marks ∧
    (∃ c b1, Random.move Board.new 1 5 = some (c, b1) ∧ 0 ≤ c ∧ c < (COL : Int) ∧
      ∃ h, Board.new.getHeight c = some h ∧ h < ROW) ∧
    (∃ c b1, OneMove.move Board.new 1 5 = some (c, b1) ∧ 0 ≤ c ∧ c < (COL : Int) ∧
      ∃ h, Board.new.getHeight c = some h ∧ h < ROW) ∧
    (∃ c b1, Negamax.move 2 Board.new 1 5 = some (c, b1) ∧ 0 ≤ c ∧ c < (COL : Int) ∧
      ∃ h, Board.new.getHeight c = some h ∧ h < ROW) ∧
    (∃ c b1, AlphaBeta.move 2 Board.new 1 5 = some (c, b1) ∧ 0 ≤ c ∧ c < (COL : Int) ∧
      ∃ h, Board.new.getHeight c = some h ∧ h < ROW) :=
  ⟨Board.gravity_new, ⟨3, by decide⟩, marks_new,
    (agents_return_legal Board.new 1 2 5 Board.gravity_new ⟨3, by decide⟩ (by decide)).1,
    (agents_return_legal Board.new 1 2 5 Board.gravity_new ⟨3, by decide⟩ (by decide)).2.1
      marks_new,
    (agents_return_legal Board.new 1 2 5 Board.gravity_new ⟨3, by decide⟩ (by decide)).2.2.1,
    (agents_return_legal Board.new 1 2 5 Board.gravity_new ⟨3, by decide⟩ (by decide)).2.2.2⟩

/-- An instance of C2, on the new board, for `PLAYER_X` at depth 2: the three agents hand the board back
unchanged. -/
theorem agents_leave_board_witness :
    Board.new.Gravity ∧ (∃ c, Board.new.Legal c) ∧ Board.new.board.Marks ∧
    (∃ c, OneMove.move Board.new 1 5 = some (c, Board.new)) ∧
    (∃ c, Negamax.move 2 Board.new 1 5 = some (c, Board.new)) ∧
    (∃ c, AlphaBeta.move 2 Board.new 1 5 = some (c, Board.new)) :=
  ⟨Board.gravity_new, ⟨3, by decide⟩, marks_new,
    (agents_leave_board Board.new 1 2 5 Board.gravity_new ⟨3, by decide⟩ (by decide)).1
      marks_new,
    (agents_leave_board Board.new 1 2 5 Board.gravity_new ⟨3, by decide⟩ (by decide)).2.1,
    (agents_leave_board Board.new 1 2 5 Board.gravity_new ⟨3, by decide⟩ (by decide)).2.2.1⟩

theorem Board.dropRun_fail_iff (b : Board) (col : Int) {player : Nat} (hp : player < 2) :
    (b.dropRun col player).2 = false ↔
      (col < 0 ∨ (COL : Int) ≤ col ∨ ROW ≤ b.height (colIdx col)) := by
  obtain ⟨ch, hs⟩ := SYMBOL_lt hp
  unfold Board.dropRun
  split
  · rename_i h
    simp only [true_iff]
    omega
  · rename_i h
    split
    · rename_i h2
      simp only [true_iff]
      omega
    · rename_i h2
      rw [hs]
      simp only [Bool.true_eq_false, false_iff]
      omega

theorem Board.dropRun_fail_same (b : Board) (col : Int) (player : Nat)
    (h : (b.dropRun col player).2 = false) : (b.dropRun col player).1 = b := by
  unfold Board.dropRun at h ⊢
  by_cases h1 : col < 0 ∨ (COL : Int) ≤ col
  · rw [if_pos h1]
  · rw [if_neg h1] at h ⊢
    by_cases h2 : b.height (colIdx col) ≥ ROW
    · rw [if_pos h2]
    · rw [if_neg h2] at h ⊢
      cases hs : SYMBOL player with
      | none => rfl
      | some ch =>
        simp only [hs] at h
        cases h

theorem Board.removeRun_fail_iff (b : Board) (col : Int) :
    (b.removeRun col).2 = false ↔
      (col < 0 ∨ (COL : Int) ≤ col ∨ b.height (colIdx col) ≤ 0) := by
  unfold Board.removeRun
  split
  · simp only [true_iff]
    omega
  · split
    · simp only [true_iff]
      omega
    · simp only [Bool.true_eq_false, false_iff]
      omega

theorem Board.removeRun_fail_same (b : Board) (col : Int)
    (h : (b.removeRun col).2 = false) : (b.removeRun col).1 = b := by
  unfold Board.removeRun at h ⊢
  by_cases h1 : col < 0 ∨ (COL : Int) ≤ col
  · rw [if_pos h1]
  · rw [if_neg h1] at h ⊢
    by_cases h2 : b.height (colIdx col) ≤ 0
    · rw [if_pos h2]
    · rw [if_neg h2] at h
      cases h

theorem Board.drop_none_iff (b : Board) (col : Int) (player : Nat) :
    b.drop col player = none ↔ (b.dropRun col player).2 = false := by
  unfold Board.drop
  split
  · rename_i h
    simp [h]
  · rename_i h
    simpa using h

theorem Board.remove_none_iff (b : Board) (col : Int) :
    b.remove col = none ↔ (b.removeRun col).2 = false := by
  unfold Board.remove
  split
  · rename_i h
    simp [h]
  · rename_i h
    simpa using h

/-- C11: with the fatal `ERROR` branch as a failure, `drop(col, player)` with `player` 0 or 1
fails iff `col` is outside `[0, COL)` or the column is full, `remove(col)` fails iff `col`
is outside `[0, COL)` or the column is empty, and when either fails the board it leaves,
cells and heights, is the board it was given. -/
theorem drop_remove_failure (b : Board) (col : Int) (player : Nat) (hp : player < 2) :
    (b.drop col player = none ↔
      (col < 0 ∨ (COL : Int) ≤ col ∨ ROW ≤ b.height (colIdx col))) ∧
    ((b.dropRun col player).2 = false ↔ b.drop col player = none) ∧
    (b.drop col player = none → (b.dropRun col player).1 = b) ∧
    (b.remove col = none ↔
      (col < 0 ∨ (COL : Int) ≤ col ∨ b.height (colIdx col) ≤ 0)) ∧
    ((b.removeRun col).2 = false ↔ b.remove col = none) ∧
    (b.remove col = none → (b.removeRun col).1 = b) := by
  refine ⟨?_, ?_, ?_, ?_, ?_, ?_⟩
  · rw [Board.drop_none_iff, Board.dropRun_fail_iff b col hp]
  · rw [Board.drop_none_iff]
  · intro h
    exact Board.dropRun_fail_same b col player ((Board.drop_none_iff _ _ _).1 h)
  · rw [Board.remove_none_iff, Board.removeRun_fail_iff]
  · rw [Board.remove_none_iff]
  · intro h
    exact Board.removeRun_fail_same b col ((Board.remove_none_iff _ _).1 h)

/-- An instance of C11, on the new board: a drop into column 7 and a removal from the empty
column 3 both fail and leave the board as it was. -/
theorem drop_remove_failure_witness :
    Board.new.drop 7 1 = none ∧ (Board.new.dropRun 7 1).1 = Board.new ∧
    Board.new.remove 3 = none ∧ (Board.new.removeRun 3).1 = Board.new :=
  ⟨(drop_remove_failure Board.new 7 1 (by decide)).1.2 (by decide),
    (drop_remove_failure Board.new 7 1 (by decide)).2.2.1
      ((drop_remove_failure Board.new 7 1 (by decide)).1.2 (by decide)),
    (drop_remove_failure Board.new 3 1 (by decide)).2.2.2.1.2 (by decide),
    (drop_remove_failure Board.new 3 1 (by decide)).2.2.2.2.2
      ((drop_remove_failure Board.new 3 1 (by decide)).2.2.2.1.2 (by decide))⟩

theorem Board.remove_some {b b1 : Board} {c : Int} (h : b.remove c = some b1) :
    (0 ≤ c ∧ c < (COL : Int) ∧ 0 < b.height (colIdx c)) ∧ b1 = b.take c := by
  unfold Board.remove Board.removeRun at h
  by_cases h1 : c < 0 ∨ (COL : Int) ≤ c
  · simp only [if_pos h1] at h
    cases h
  · simp only [if_neg h1] at h
    by_cases h2 : b.height (colIdx c) ≤ 0
    · simp only [if_pos h2] at h
      cases h
    · simp only [if_neg h2, if_true, Option.some.injEq] at h
      exact ⟨⟨by omega, by omega, by omega⟩, h.symm⟩

theorem Board.gravity_take {b : Board} {c : Int} (hg : b.Gravity) (h0 : 0 ≤ c)
    (h1 : c < (COL : Int)) (h2 : 0 < b.height (colIdx c)) : (b.take c).Gravity := by
  intro k
  by_cases hk : k = colIdx c
  · subst hk
    have hc := colIdx_cast h0 h1
    have hle := (hg (colIdx c)).1
    refine ⟨by simp [Board.take]; omega, fun r => ?_⟩
    simp only [Board.take, State.set_apply, Function.update_same]
    constructor
    · intro hr
      rw [if_neg (by omega)]
      exact ((hg (colIdx c)).2 r).1 (by omega)
    · intro hr
      by_cases hrh : (r.val : Int) = (b.height (colIdx c) : Int) - 1
      · rw [if_pos ⟨hrh, hc⟩]
      · rw [if_neg (by tauto)]
        exact ((hg (colIdx c)).2 r).2 (by omega)
  · have hne : ((k.val : Int) = c) → False := fun h => hk (colIdx_eq_of_cast h).symm
    refine ⟨by simp [Board.take, Function.update_noteq hk]; exact (hg k).1, fun r => ?_⟩
    simp only [Board.take, State.set_apply, Function.update_noteq hk]
    rw [if_neg (by tauto)]
    exact (hg k).2 r

theorem Board.gravity_drop {b b1 : Board} {c : Int} {p : Nat} (hg : b.Gravity)
    (h : b.drop c p = some b1) : b1.Gravity := by
  obtain ⟨hl, ch, hs, rfl⟩ := Board.drop_some h
  exact Board.gravity_put hg hl (SYMBOL_ne_empty hs)

theorem Board.gravity_remove {b b1 : Board} {c : Int} (hg : b.Gravity)
    (h : b.remove c = some b1) : b1.Gravity := by
  obtain ⟨⟨h0, h1, h2⟩, rfl⟩ := Board.remove_some h
  exact Board.gravity_take hg h0 h1 h2

theorem reachable_gravity {b : Board} (h : Reachable b) : b.Gravity := by
  induction h with
  | new => exact Board.gravity_new
  | drop col player _ hd ih => exact Board.gravity_drop ih hd
  | remove col _ hr ih => exact Board.gravity_remove ih hr
  | invert _ ih => exact Board.gravity_invert ih

theorem sum_below (h : Nat) (hle : h ≤ ROW) :
    (∑ r : Fin ROW, if r.val < h then 1 else 0) = h := by
  simp only [ROW] at hle
  interval_cases h <;> decide

theorem heightSum_eq {b : Board} (hg : b.Gravity) : heightSum b = nonEmptyCount b.board := by
  simp only [heightSum, nonEmptyCount, Finset.card_filter]
  rw [Fintype.sum_prod_type_right]
  apply Finset.sum_congr rfl
  intro c _
  rw [← sum_below (b.height c) (hg c).1]
  apply Finset.sum_congr rfl
  intro r _
  by_cases hr : r.val < b.height c
  · rw [if_pos hr, if_pos (((hg c).2 r).1 hr)]
  · rw [if_neg hr, if_neg (by simpa using ((hg c).2 r).2 (by omega))]

/-- C12: the gravity invariant holds for the board built by the constructor and is
preserved by every successful `drop`, every successful `remove` and by `invertBoard`; hence
on every board reachable through these operations it holds, and the sum of the column
heights is the number of non-empty cells. -/
theorem gravity_invariant :
    Board.new.Gravity ∧
    (∀ (b b1 : Board) (col : Int) (player : Nat),
      b.Gravity → b.drop col player = some b1 → b1.Gravity) ∧
    (∀ (b b1 : Board) (col : Int), b.Gravity → b.remove col = some b1 → b1.Gravity) ∧
    (∀ b : Board, b.Gravity → b.invertBoard.Gravity) ∧
    (∀ b : Board, Reachable b → b.Gravity ∧ heightSum b = nonEmptyCount b.board) :=
  ⟨Board.gravity_new, fun _ _ _ _ hg h => Board.gravity_drop hg h,
    fun _ _ _ hg h => Board.gravity_remove hg h, fun _ hg => Board.gravity_invert hg,
    fun _ h => ⟨reachable_gravity h, heightSum_eq (reachable_gravity h)⟩⟩

/-- An instance of C12: the board after one drop from the new board is reachable, satisfies
the invariant, and its height sum and number of non-empty cells agree. -/
theorem gravity_invariant_witness :
    Reachable (Board.new.put 3 SYM_O) ∧ (Board.new.put 3 SYM_O).Gravity ∧
    heightSum (Board.new.put 3 SYM_O) = nonEmptyCount (Board.new.put 3 SYM_O).board :=
  ⟨Reachable.drop 3 0 Reachable.new rfl,
    gravity_invariant.2.2.2.2 (Board.new.put 3 SYM_O) (Reachable.drop 3 0 Reachable.new rfl)⟩

theorem get_invert_O (s : State) (r c : Int) :
    (invert s).get r c = SYM_O ↔ s.get r c = SYM_X := by
  simp only [State.get]
  split
  · decide
  · simp only [invert]
    split_ifs with h1 h2 <;> simp_all +decide

theorem get_invert_X (s : State) (r c : Int) :
    (invert s).get r c = SYM_X ↔ s.get r c = SYM_O := by
  simp only [State.get]
  split
  · decide
  · simp only [invert]
    split_ifs with h1 h2 <;> simp_all +decide

theorem get_invert_EMPTY (s : State) (r c : Int) :
    (invert s).get r c = EMPTY ↔ s.get r c = EMPTY := by
  simp only [State.get]
  split
  · rfl
  · simp only [invert]
    split_ifs with h1 h2
    · rw [h1]; decide
    · rw [h2]; decide
    · rfl

theorem countInWindow_invert_O (s : State) (i j : Int) (dir : Nat) :
    countInWindow (invert s) i j dir SYM_O = countInWindow s i j dir SYM_X := by
  simp only [countInWindow_eq, get_invert_O]

theorem countInWindow_invert_X (s : State) (i j : Int) (dir : Nat) :
    countInWindow (invert s) i j dir SYM_X = countInWindow s i j dir SYM_O := by
  simp only [countInWindow_eq, get_invert_X]

theorem countEmpty_invert (s : State) : countEmpty (invert s) = countEmpty s := by
  simp only [countEmpty, get_invert_EMPTY]

theorem countInWindow_not_both (s : State) (i j : Int) (dir : Nat)
    (h : countInWindow s i j dir SYM_O = 4) : countInWindow s i j dir SYM_X = 0 := by
  rw [countInWindow_eq_four] at h
  obtain ⟨h0, h1, h2, h3⟩ := h
  rw [countInWindow_eq, h0, h1, h2, h3]
  decide

theorem countInWindow_not_both' (s : State) (i j : Int) (dir : Nat)
    (h : countInWindow s i j dir SYM_X = 4) : countInWindow s i j dir SYM_O = 0 := by
  rw [countInWindow_eq_four] at h
  obtain ⟨h0, h1, h2, h3⟩ := h
  rw [countInWindow_eq, h0, h1, h2, h3]
  decide

theorem evalScan_invert (s : State) (e : Int) (L : List (Int × Int × Nat)) (score : Int) :
    evalScan (invert s) e L (-score) = -evalScan s e L score := by
  induction L generalizing score with
  | nil => rfl
  | cons t rest ih =>
    obtain ⟨i, j, dir⟩ := t
    simp only [evalScan, countInWindow_invert_O, countInWindow_invert_X]
    by_cases hb : outOfBounds (i + 3 * DR dir) (j + 3 * DC dir) = true
    · rw [if_pos hb, if_pos hb]
      exact ih score
    · rw [if_neg hb, if_neg hb]
      by_cases ha : countInWindow s i j dir SYM_O = 4
      · have hx := countInWindow_not_both s i j dir ha
        rw [if_pos ha, if_neg (by omega), if_pos ha]
      · rw [if_neg ha]
        by_cases hx : countInWindow s i j dir SYM_X = 4
        · rw [if_pos hx, if_pos hx]
          omega
        · rw [if_neg hx, if_neg hx, if_neg ha, ← ih]
          congr 1
          split_ifs <;> omega

/-- C19: for every state, `eval` of the inverted state is the negation of `eval` of the
state. -/
theorem eval_invert (s : State) : eval (invert s) = -eval s := by
  simp only [eval, countEmpty_invert]
  have h := evalScan_invert s (countEmpty s) scanOrder 0
  simpa using h

set_option maxRecDepth 100000 in
theorem allWindows_eq : allWindows = scanOrder.filter inGrid := by decide

theorem windowFree_iff (s : State) (ch : Char) (i j : Int) (dir : Nat) :
    windowFree s ch (i, j, dir) = true ↔ countInWindow s i j dir ch = 0 := by
  have e : List.range 4 = [0, 1, 2, 3] := rfl
  simp only [windowFree, windowCells, e, List.map_cons, List.map_nil, List.all_cons,
    List.all_nil, Bool.and_true, Bool.and_eq_true, bne_iff_ne, ne_eq, Nat.cast_zero, zero_mul,
    add_zero, Nat.cast_one, one_mul, Nat.cast_ofNat, countInWindow_eq]
  split_ifs <;> simp_all

theorem evalScan_exact (s : State) (e : Int) (L : List (Int × Int × Nat)) (score : Int)
    (ho : ∀ t ∈ L, ¬winAt s SYM_O t) (hx : ∀ t ∈ L, ¬winAt s SYM_X t) :
    evalScan s e L score = score + ((L.filter inGrid).map (contribution s)).sum := by
  induction L generalizing score with
  | nil => simp [evalScan]
  | cons t rest ih =>
    obtain ⟨i, j, dir⟩ := t
    have ho1 := ho (i, j, dir) (by simp)
    have hx1 := hx (i, j, dir) (by simp)
    have ho2 : ∀ t ∈ rest, ¬winAt s SYM_O t := fun t ht => ho t (by simp [ht])
    have hx2 : ∀ t ∈ rest, ¬winAt s SYM_X t := fun t ht => hx t (by simp [ht])
    simp only [winAt, not_and] at ho1 hx1
    simp only [evalScan, List.filter_cons, inGrid]
    by_cases hb : outOfBounds (i + 3 * DR dir) (j + 3 * DC dir) = true
    · rw [if_pos hb]
      simp only [hb, Bool.not_true, Bool.false_eq_true, if_false]
      exact ih score ho2 hx2
    · rw [if_neg hb]
      have hb2 : outOfBounds (i + 3 * DR dir) (j + 3 * DC dir) = false := by simpa using hb
      rw [if_neg (ho1 hb2), if_neg (hx1 hb2), ih _ ho2 hx2]
      simp only [hb2, Bool.not_false, if_true, List.map_cons, List.sum_cons, contribution]
      have e1 : (windowFree s SYM_X (i, j, dir) = true) ↔ countInWindow s i j dir SYM_X = 0 :=
        windowFree_iff s SYM_X i j dir
      have e2 : (windowFree s SYM_O (i, j, dir) = true) ↔ countInWindow s i j dir SYM_O = 0 :=
        windowFree_iff s SYM_O i j dir
      by_cases c1 : countInWindow s i j dir SYM_X = 0 <;>
        by_cases c2 : countInWindow s i j dir SYM_O = 0 <;>
        simp only [c1, c2, e1.2, e2.2, if_true, if_false, e1, e2] <;> omega

theorem sum_contribution (s : State) (L : List (Int × Int × Nat)) :
    (L.map (contribution s)).sum =
      ((L.filter (windowFree s SYM_X)).length : Int) - (L.filter (windowFree s SYM_O)).length := by
  induction L with
  | nil => simp
  | cons t rest ih =>
    simp only [List.map_cons, List.sum_cons, ih, List.filter_cons, contribution]
    split_ifs <;> simp <;> omega

theorem eval_exact (s : State) (ho : ¬HasFour s SYM_O) (hx : ¬HasFour s SYM_X) :
    eval s = (allWindows.map (contribution s)).sum := by
  rw [allWindows_eq]
  have h := evalScan_exact s (countEmpty s) scanOrder 0
    (fun t ht hw => ho ((hasFour_iff_winAt _ _).2 ⟨t, ht, hw⟩))
    (fun t ht hw => hx ((hasFour_iff_winAt _ _).2 ⟨t, ht, hw⟩))
  simpa [eval] using h

set_option maxRecDepth 1000000 in
theorem allWindows_counts :
    allWindows.length = 69 ∧
    (allWindows.filter fun t => t.2.2 = 0).length = 24 ∧
    (allWindows.filter fun t => t.2.2 = 2).length = 21 ∧
    (allWindows.filter fun t => t.2.2 = 3).length = 12 ∧
    (allWindows.filter fun t => t.2.2 = 1).length = 12 := by
  decide

set_option maxRecDepth 1000000 in
theorem allWindows_distinct : (allWindows.map windowCells).Nodup := by decide

/-- C18: on a state without 4-in-a-row, `eval` returns `W_o - W_x`, with `W_o` the number
of windows of the grid holding no `'x'` and `W_x` the number holding no `'o'`; it is the
sum over the windows of `+1` for no `'x'` and `-1` for no `'o'`, so a window holding both
marks adds 0; the grid has 69 windows, 24 horizontal, 21 vertical and 12 per diagonal
direction, with pairwise different cells, each visited once. -/
theorem eval_counts_windows (s : State) (ho : ¬HasFour s SYM_O) (hx : ¬HasFour s SYM_X) :
    eval s = (freeWindows s SYM_X : Int) - (freeWindows s SYM_O : Int) ∧
    eval s = (allWindows.map (contribution s)).sum ∧
    (∀ t, windowFree s SYM_X t = false → windowFree s SYM_O t = false → contribution s t = 0) ∧
    allWindows = scanOrder.filter inGrid ∧
    (allWindows.length = 69 ∧
      (allWindows.filter fun t => t.2.2 = 0).length = 24 ∧
      (allWindows.filter fun t => t.2.2 = 2).length = 21 ∧
      (allWindows.filter fun t => t.2.2 = 3).length = 12 ∧
      (allWindows.filter fun t => t.2.2 = 1).length = 12) ∧
    (allWindows.map windowCells).Nodup := by
  refine ⟨?_, eval_exact s ho hx, fun t h1 h2 => ?_, allWindows_eq, allWindows_counts,
    allWindows_distinct⟩
  · rw [eval_exact s ho hx, sum_contribution]
    rfl
  · simp [contribution, h1, h2]

set_option maxRecDepth 1000000 in
/-- An instance of C18, on the board with three `'o'` on the bottom row under three `'x'`. -/
theorem eval_counts_windows_witness :
    ¬HasFour threeInRow.board SYM_O ∧ ¬HasFour threeInRow.board SYM_X ∧
    eval threeInRow.board
      = (freeWindows threeInRow.board SYM_X : Int) - (freeWindows threeInRow.board SYM_O : Int) :=
  ⟨by decide, by decide, (eval_counts_windows threeInRow.board (by decide) (by decide)).1⟩

theorem find_first {L : List Int} (hs : L.Pairwise (· < ·)) {p : Int → Bool} {w : Int}
    (hw : w ∈ L) (hp : p w = true) (hfirst : ∀ j ∈ L, j < w → p j = false) :
    L.find? p = some w := by
  induction L with
  | nil => cases hw
  | cons a rest ih =>
    rw [List.pairwise_cons] at hs
    rw [List.find?_cons]
    by_cases ha : a = w
    · subst ha
      rw [hp]
    · have hwr : w ∈ rest := by
        rcases List.mem_cons.1 hw with h | h
        · exact absurd h.symm ha
        · exact h
      rw [hfirst a (by simp) (hs.1 w hwr)]
      exact ih hs.2 hwr (fun j hj hjw => hfirst j (by simp [hj]) hjw)

theorem columns_sorted : columns.Pairwise (· < ·) := by decide

/-- C17, as the code has it: when legal columns give the mover an immediate win,
`OneMove::move` returns the lowest of them, whatever the value of the random generator. -/
theorem oneMove_first_win (b : Board) (turn rnd : Nat) (w : Int) (hg : b.Gravity)
    (hm : b.board.Marks) (ht : turn < 2) (hw : w ∈ columns)
    (hwin : (b.drop w turn).bind Board.checkWinner = some turn)
    (hfirst : ∀ j ∈ columns, j < w → (b.drop j turn).bind Board.checkWinner ≠ some turn) :
    OneMove.move b turn rnd = some (w, b) := by
  rw [om_move_eq hg hm ht]
  simp only [OneMove.choice]
  have hf : columns.find? (winsAt b turn) = some w := by
    apply find_first columns_sorted hw ((winsAt_iff _ _ _).2 hwin)
    intro j hj hjw
    have := hfirst j hj hjw
    cases h : winsAt b turn j with
    | false => rfl
    | true => exact absurd ((winsAt_iff _ _ _).1 h) this
  rw [hf]
  rfl

set_option maxRecDepth 1000000 in
/-- An instance of the amended C17, on the board with three `'o'` in a row on the bottom:
columns 0 and 4 both win, and column 0 is returned. -/
theorem oneMove_first_win_witness :
    threeInRow.Gravity ∧ threeInRow.board.Marks ∧
    (threeInRow.drop 4 0).bind Board.checkWinner = some 0 ∧
    OneMove.move threeInRow 0 5 = some (0, threeInRow) :=
  ⟨by decide, by decide, by decide,
    oneMove_first_win threeInRow 0 5 0 (by decide) (by decide) (by decide) (by decide)
      (by decide) (by decide)⟩

set_option maxRecDepth 1000000 in
/-- C17 fails on the board with three `'o'` in a row on the bottom, `'o'` to move and the game
in progress: columns 0 and 4 are legal and both win at once, yet no value of the random
generator makes `OneMove::move` return column 4. -/
theorem oneMove_tie_counterexample :
    threeInRow.Gravity ∧ threeInRow.checkWinner = some NO_ONE ∧
    (threeInRow.Legal 0 ∧ (threeInRow.drop 0 0).bind Board.checkWinner = some 0) ∧
    (threeInRow.Legal 4 ∧ (threeInRow.drop 4 0).bind Board.checkWinner = some 0) ∧
    ¬∃ rnd b1, OneMove.move threeInRow 0 rnd = some (4, b1) := by
  refine ⟨by decide, by decide, ⟨by decide, by decide⟩, ⟨by decide, by decide⟩, ?_⟩
  rintro ⟨rnd, b1, h⟩
  have hc : OneMove.choice threeInRow 0 rnd = some 0 := by
    have hf : columns.find? (winsAt threeInRow 0) = some 0 := by decide
    simp only [OneMove.choice, hf]
  rw [om_move_eq (by decide) (by decide) (by decide), hc] at h
  simp at h

theorem fourAt_mono {s1 s2 : State} {m : Char} (h : ∀ i j, s1 i j = m → s2 i j = m)
    {r c dr dc : Int} (hf : FourAt s1 m r c dr dc) : FourAt s2 m r c dr dc := by
  intro k hk
  obtain ⟨hb, hg⟩ := hf k hk
  refine ⟨hb, ?_⟩
  rw [State.get_inBounds _ hb] at hg ⊢
  exact h _ _ hg

theorem hasFour_mono {s1 s2 : State} {m : Char} (h : ∀ i j, s1 i j = m → s2 i j = m)
    (hf : HasFour s1 m) : HasFour s2 m := by
  obtain ⟨r, c, h1 | h1 | h1 | h1⟩ := hf
  · exact ⟨r, c, Or.inl (fourAt_mono h h1)⟩
  · exact ⟨r, c, Or.inr (Or.inl (fourAt_mono h h1))⟩
  · exact ⟨r, c, Or.inr (Or.inr (Or.inl (fourAt_mono h h1)))⟩
  · exact ⟨r, c, Or.inr (Or.inr (Or.inr (fourAt_mono h h1)))⟩

theorem hasFour_of_put_other {b : Board} {c : Int} {ch m : Char} (hne : m ≠ ch)
    (h : HasFour (b.put c ch).board m) : HasFour b.board m := by
  refine hasFour_mono (fun i j hij => ?_) h
  simp only [Board.put, State.set_apply] at hij
  split at hij
  · exact absurd hij.symm hne
  · exact hij

theorem hasFour_put_of {b : Board} (c : Int) (ch : Char) {m : Char} (hg : b.Gravity)
    (hne : m ≠ EMPTY) (h : HasFour b.board m) : HasFour (b.put c ch).board m := by
  refine hasFour_mono (fun i j hij => ?_) h
  simp only [Board.put, State.set_apply]
  split
  · rename_i hc
    exfalso
    have hj : colIdx c = j := colIdx_eq_of_cast hc.2
    have he := ((hg j).2 i).2 (by rw [← hj]; omega)
    exact hne (hij ▸ he)
  · exact hij

theorem colIdx_ne {c k : Int} (hc : c ∈ columns) (hk : k ∈ columns) (h : k ≠ c) :
    colIdx k ≠ colIdx c := by
  rw [mem_columns] at hc hk
  intro he
  have h1 := colIdx_cast hc.1 hc.2
  have h2 := colIdx_cast hk.1 hk.2
  rw [he] at h2
  omega

theorem hasFour_put_put {b : Board} {c k : Int} {t o : Char} (hc : c ∈ columns)
    (hk : k ∈ columns) (hkc : k ≠ c) (hto : o ≠ t)
    (h : HasFour ((b.put c t).put k o).board o) : HasFour (b.put k o).board o := by
  refine hasFour_mono (fun i j hij => ?_) h
  have hh : (b.put c t).height (colIdx k) = b.height (colIdx k) := by
    simp only [Board.put, Function.update_noteq (colIdx_ne hc hk hkc)]
  simp only [Board.put, State.set_apply] at hij ⊢
  simp only [Board.put] at hh
  rw [hh] at hij
  split
  · rfl
  · rename_i hn
    rw [if_neg hn] at hij
    split at hij
    · exact absurd hij.symm hto
    · exact hij

theorem SYMBOL_pair {turn : Nat} (ht : turn < 2) :
    (SYMBOL turn = some SYM_O ∧ SYMBOL (turn ^^^ 1) = some SYM_X ∧ turn = 0) ∨
      (SYMBOL turn = some SYM_X ∧ SYMBOL (turn ^^^ 1) = some SYM_O ∧ turn = 1) := by
  interval_cases turn
  · exact Or.inl ⟨rfl, rfl, rfl⟩
  · exact Or.inr ⟨rfl, rfl, rfl⟩

theorem checkWinner_of_only {b : Board} (hm : b.board.Marks) {who : Nat} (hw : who < 2)
    {ch ch2 : Char} (hs : SYMBOL who = some ch) (hs2 : SYMBOL (who ^^^ 1) = some ch2)
    (h1 : HasFour b.board ch) (h2 : ¬HasFour b.board ch2) : b.checkWinner = some who := by
  rcases SYMBOL_pair hw with ⟨e1, e2, e3⟩ | ⟨e1, e2, e3⟩
  · rw [e1] at hs; rw [e2] at hs2
    cases hs; cases hs2
    rcases checkWinner_total hm with ⟨hn, -⟩ | ⟨-, ⟨hc, -⟩ | ⟨-, hx⟩⟩
    · exact absurd (Or.inl h1) hn
    · rw [hc, e3]
    · exact absurd hx h2
  · rw [e1] at hs; rw [e2] at hs2
    cases hs; cases hs2
    rcases checkWinner_total hm with ⟨hn, -⟩ | ⟨-, ⟨-, ho⟩ | ⟨hc, -⟩⟩
    · exact absurd (Or.inr h1) hn
    · exact absurd ho h2
    · rw [hc, e3]

theorem checkWinner_no_one_iff {b : Board} (hm : b.board.Marks) :
    b.checkWinner = some NO_ONE ↔
      (¬HasFour b.board SYM_O ∧ ¬HasFour b.board SYM_X) ∧ HasEmpty b.board := by
  rcases checkWinner_total hm with ⟨hn, hc⟩ | ⟨hy, ⟨hc, -⟩ | ⟨hc, -⟩⟩
  · rw [hc]
    by_cases he : HasEmpty b.board
    · simp only [if_pos he]; tauto
    · simp only [if_neg he]
      constructor
      · intro h; cases h
      · tauto
  · rw [hc]
    constructor
    · intro h; cases h
    · tauto
  · rw [hc]
    constructor
    · intro h; cases h
    · tauto

theorem no_four_marks {b : Board} {turn : Nat} (ht : turn < 2) {t o : Char}
    (hs : SYMBOL turn = some t) (hs2 : SYMBOL (turn ^^^ 1) = some o) :
    (¬HasFour b.board SYM_O ∧ ¬HasFour b.board SYM_X) ↔
      (¬HasFour b.board t ∧ ¬HasFour b.board o) := by
  rcases SYMBOL_pair ht with ⟨e1, e2, -⟩ | ⟨e1, e2, -⟩
  · rw [e1] at hs; rw [e2] at hs2
    cases hs; cases hs2
    rfl
  · rw [e1] at hs; rw [e2] at hs2
    cases hs; cases hs2
    tauto

theorem SYMBOL_ne_pair {turn : Nat} (ht : turn < 2) {t o : Char}
    (hs : SYMBOL turn = some t) (hs2 : SYMBOL (turn ^^^ 1) = some o) : o ≠ t := by
  rcases SYMBOL_pair ht with ⟨e1, e2, -⟩ | ⟨e1, e2, -⟩
  · rw [e1] at hs; rw [e2] at hs2
    cases hs; cases hs2
    decide
  · rw [e1] at hs; rw [e2] at hs2
    cases hs; cases hs2
    decide

theorem xor_one_xor_one {turn : Nat} (ht : turn < 2) : turn ^^^ 1 ^^^ 1 = turn := by
  interval_cases turn <;> rfl

theorem xor_one_lt {turn : Nat} (ht : turn < 2) : turn ^^^ 1 < 2 := by
  interval_cases turn <;> decide

theorem safe_column {b : Board} (hg : b.Gravity) (hm : b.board.Marks) {turn : Nat}
    (ht : turn < 2) (hp : b.checkWinner = some NO_ONE)
    (hno : ∀ j ∈ columns, b.Legal j → (b.drop j turn).bind Board.checkWinner ≠ some turn)
    (hopp : ∀ j ∈ columns, b.Legal j →
      (b.drop j (turn ^^^ 1)).bind Board.checkWinner ≠ some (turn ^^^ 1))
    {c : Int} (hc : c ∈ columns) (hs : safeAt b turn c = true) :
    ∃ b1, b.drop c turn = some b1 ∧ b1.checkWinner = some NO_ONE ∧
      ∀ k ∈ columns, b1.Legal k →
        ∃ b2 ch, b1.drop k (turn ^^^ 1) = some b2 ∧ SYMBOL (turn ^^^ 1) = some ch ∧
          ¬HasFour b2.board ch := by
  have ht2 := xor_one_lt ht
  obtain ⟨t, hst⟩ := SYMBOL_lt ht
  obtain ⟨o, hso⟩ := SYMBOL_lt ht2
  have hot : o ≠ t := SYMBOL_ne_pair ht hst hso
  have hto : t ≠ o := fun h => hot h.symm
  have hso' : SYMBOL (turn ^^^ 1 ^^^ 1) = some t := by rw [xor_one_xor_one ht]; exact hst
  have hlc : b.Legal c := safeAt_legal hc hs
  have hc2 := (mem_columns c).1 hc
  obtain ⟨⟨hbo, hbx⟩, -⟩ := (checkWinner_no_one_iff hm).1 hp
  obtain ⟨hbt, hbopp⟩ := (no_four_marks ht hst hso).1 ⟨hbo, hbx⟩
  have hg1 : (b.put c t).Gravity := Board.gravity_put hg hlc (SYMBOL_ne_empty hst)
  have hm1 : (b.put c t).board.Marks := marks_put hm (SYMBOL_mark hst)
  have hd1 : b.drop c turn = some (b.put c t) := Board.drop_eq_put hlc hst
  -- after the mover's piece neither side has a line
  have h1o : ¬HasFour (b.put c t).board o := fun h => hbopp (hasFour_of_put_other hot h)
  have h1t : ¬HasFour (b.put c t).board t := by
    intro h
    have hw := checkWinner_of_only hm1 ht hst hso h h1o
    exact hno c hc hlc (by rw [hd1]; exact hw)
  have hnf1 : ¬HasFour (b.put c t).board SYM_O ∧ ¬HasFour (b.put c t).board SYM_X :=
    (no_four_marks ht hst hso).2 ⟨h1t, h1o⟩
  refine ⟨b.put c t, hd1, ?_, ?_⟩
  · -- the game is still in progress
    simp only [safeAt, Board.getHeight_of_range b hc2.1 hc2.2] at hs
    by_cases h4 : b.height (colIdx c) ≤ ROW - 2
    · rw [(checkWinner_no_one_iff hm1)]
      refine ⟨hnf1, ?_⟩
      have hrow : b.height (colIdx c) + 1 < ROW := by simp only [ROW] at *; omega
      refine ⟨⟨b.height (colIdx c) + 1, hrow⟩, colIdx c, ?_⟩
      exact ((hg1 (colIdx c)).2 ⟨b.height (colIdx c) + 1, hrow⟩).2
        (by rw [put_height_self])
    · rw [if_neg h4] at hs
      by_cases h5 : b.height (colIdx c) = ROW - 1
      · rw [if_pos h5, hd1] at hs
        simpa using hs
      · rw [if_neg h5] at hs
        cases hs
  · intro k hk hlk
    have hd2 : (b.put c t).drop k (turn ^^^ 1) = some ((b.put c t).put k o) :=
      Board.drop_eq_put hlk hso
    refine ⟨(b.put c t).put k o, o, hd2, hso, fun h2 => ?_⟩
    by_cases hkc : k = c
    · subst hkc
      -- the reply on top of the mover's piece: the test of the loop
      have hh := hlk.2.2
      rw [put_height_self] at hh
      have h4 : b.height (colIdx k) ≤ ROW - 2 := by simp only [ROW] at *; omega
      simp only [safeAt, Board.getHeight_of_range b hc2.1 hc2.2, if_pos h4, hd1,
        Option.some_bind, hd2] at hs
      have h2t : ¬HasFour ((b.put k t).put k o).board t :=
        fun h => h1t (hasFour_of_put_other hto h)
      have hw := checkWinner_of_only (marks_put hm1 (SYMBOL_mark hso)) ht2 hso hso' h2 h2t
      rw [hw] at hs
      simp at hs
    · -- a reply elsewhere would already win on the board as it is
      have hlk0 : b.Legal k := by
        refine ⟨hlk.1, hlk.2.1, ?_⟩
        have := hlk.2.2
        simp only [Board.put, Function.update_noteq (colIdx_ne hc hk hkc)] at this
        exact this
      have h3 : HasFour (b.put k o).board o := hasFour_put_put hc hk hkc hot h2
      have h3t : ¬HasFour (b.put k o).board t := fun h => hbt (hasFour_of_put_other hto h)
      have hw := checkWinner_of_only (marks_put hm (SYMBOL_mark hso)) ht2 hso hso' h3 h3t
      exact hopp k hk hlk0 (by rw [Board.drop_eq_put hlk0 hso]; exact hw)

/-- C16: on a board satisfying the gravity invariant with the game in progress, when no
legal column wins at once for the mover, none would win at once for the opponent, and the
list of safe columns built by `OneMove::move` is not empty, then for every random draw the
column returned is safe against every reply: with the mover's piece in it the game is still
in progress, and the opponent's piece in any column that is then legal completes no
4-in-a-row of the opponent. -/
theorem oneMove_safe (b : Board) (turn rnd : Nat) (hg : b.Gravity) (hm : b.board.Marks)
    (ht : turn < 2) (hp : b.checkWinner = some NO_ONE)
    (hno : ∀ j ∈ columns, b.Legal j → (b.drop j turn).bind Board.checkWinner ≠ some turn)
    (hopp : ∀ j ∈ columns, b.Legal j →
      (b.drop j (turn ^^^ 1)).bind Board.checkWinner ≠ some (turn ^^^ 1))
    (hsafe : ∃ moves b1, OneMove.safeScan turn columns b [] = some (moves, b1) ∧ moves ≠ []) :
    ∃ c b1, OneMove.move b turn rnd = some (c, b) ∧ b.drop c turn = some b1 ∧
      b1.checkWinner = some NO_ONE ∧
      ∀ k ∈ columns, b1.Legal k →
        ∃ b2 ch, b1.drop k (turn ^^^ 1) = some b2 ∧ SYMBOL (turn ^^^ 1) = some ch ∧
          ¬HasFour b2.board ch := by
  obtain ⟨moves, b1, hscan, hne⟩ := hsafe
  rw [safeScan_eq hg hm ht columns (fun _ h => h)] at hscan
  simp only [List.nil_append, Option.some.injEq, Prod.mk.injEq] at hscan
  obtain ⟨rfl, -⟩ := hscan
  have h1 : columns.find? (winsAt b turn) = none := by
    rw [List.find?_eq_none]
    intro k hk hwk
    exact hno k hk (winsAt_legal hwk) ((winsAt_iff _ _ _).1 hwk)
  have h2 : columns.find? (winsAt b (turn ^^^ 1)) = none := by
    rw [List.find?_eq_none]
    intro k hk hwk
    exact hopp k hk (winsAt_legal hwk) ((winsAt_iff _ _ _).1 hwk)
  obtain ⟨c, hc, hpick⟩ := pick_mem _ hne rnd
  rw [List.mem_filter] at hc
  obtain ⟨b1, hd, hw, hall⟩ := safe_column hg hm ht hp hno hopp hc.1 hc.2
  refine ⟨c, b1, ?_, hd, hw, hall⟩
  rw [om_move_eq hg hm ht]
  simp only [OneMove.choice, h1, h2]
  rw [if_pos (by simpa using hne), hpick]
  rfl

set_option maxRecDepth 1000000 in
/-- An instance of C16, on the new board with `'o'` to move. -/
theorem oneMove_safe_witness :
    Board.new.Gravity ∧ Board.new.board.Marks ∧ Board.new.checkWinner = some NO_ONE ∧
    ∃ c b1, OneMove.move Board.new 0 5 = some (c, Board.new) ∧ Board.new.drop c 0 = some b1 ∧
      b1.checkWinner = some NO_ONE ∧
      ∀ k ∈ columns, b1.Legal k →
        ∃ b2 ch, b1.drop k (0 ^^^ 1) = some b2 ∧ SYMBOL (0 ^^^ 1) = some ch ∧
          ¬HasFour b2.board ch :=
  ⟨by decide, by decide, by decide,
    oneMove_safe Board.new 0 5 (by decide) (by decide) (by decide) (by decide) (by decide)
      (by decide)
      ⟨columns, Board.new,
        by rw [safeScan_eq Board.gravity_new marks_new (by decide) columns (fun _ h => h)]
           exact congrArg some (Prod.ext (by decide) rfl),
        by decide⟩⟩

theorem nm_negamax_unfoldS (d : Nat) (b : Board) (parent : Bool) (rnd : Nat) :
    Negamax.negamax d b parent rnd =
      match Negamax.scan (Negamax.deeperS d rnd) columns b (fun _ => -3 * INF) (-2 * INF) with
      | none => none
      | some (b, score, maxscore) => (finish parent rnd score maxscore).map fun r => (r, b) :=
  nm_negamax_unfold d b parent rnd

theorem ab_negamax_unfoldS (d : Nat) (b : Board) (parent : Bool) (alpha beta : Int)
    (rnd : Nat) :
    AlphaBeta.negamax d b parent alpha beta rnd =
      match AlphaBeta.scan (AlphaBeta.deeperS d rnd) ORDER b (fun _ => -3 * INF) (-2 * INF)
          alpha beta with
      | none => none
      | some (b, score, maxscore) => (finish parent rnd score maxscore).map fun r => (r, b) :=
  ab_negamax_unfold d b parent alpha beta rnd

theorem nm_agree_deeperS (d rnd : Nat) :
    Negamax.Agree (Negamax.deeperS d rnd) (Negamax.deeperP d) := by
  match d with
  | 0 => trivial
  | 1 => trivial
  | k + 2 =>
    intro b1 hg1
    show Negamax.negamax (k + 1) b1 false rnd = _
    rw [nm_negamax_eq (k + 1) rnd b1 false hg1, nm_best_eq]
    rfl

theorem ab_agree_deeperS (d rnd : Nat) :
    AlphaBeta.Agree (AlphaBeta.deeperS d rnd) (AlphaBeta.deeperP d) := by
  match d with
  | 0 => trivial
  | 1 => trivial
  | k + 2 =>
    intro b1 a c hg1
    show AlphaBeta.negamax (k + 1) b1 false a c rnd = _
    rw [ab_negamax_eq (k + 1) rnd b1 false a c hg1, ab_best_eq]
    rfl

theorem nm_scanS_eq {b : Board} (hg : b.Gravity) (d rnd : Nat) :
    Negamax.scan (Negamax.deeperS d rnd) columns b (fun _ => -3 * INF) (-2 * INF) =
      some (b, Negamax.scanP (Negamax.deeperP d) b columns (fun _ => -3 * INF) (-2 * INF)) :=
  nm_scan_eq _ _ (nm_agree_deeperS d rnd) hg columns (fun _ h => h) _ _

theorem ab_scanS_eq {b : Board} (hg : b.Gravity) (d rnd : Nat) (alpha beta : Int) :
    AlphaBeta.scan (AlphaBeta.deeperS d rnd) ORDER b (fun _ => -3 * INF) (-2 * INF) alpha beta =
      some (b, AlphaBeta.scanP (AlphaBeta.deeperP d) b ORDER (fun _ => -3 * INF) (-2 * INF)
        alpha beta) :=
  ab_scan_eq _ _ (ab_agree_deeperS d rnd) hg ORDER (fun _ h => mem_ORDER h) _ _ _ _

theorem ab_cutAt_eq (deeper : Option (Board → Int → Int → Option (Int × Board)))
    (dp : Option (Board → Int → Int → Int)) (ha : AlphaBeta.Agree deeper dp) {b : Board}
    (hg : b.Gravity) (L : List Int) (hL : ∀ j ∈ L, j ∈ columns) (alpha beta : Int) :
    AlphaBeta.cutAt deeper L b alpha beta = some (AlphaBeta.cutP dp b L alpha beta) := by
  induction L generalizing alpha with
  | nil => rfl
  | cons j rest ih =>
    have hj := hL j (by simp)
    have hr : ∀ k ∈ rest, k ∈ columns := fun k hk => hL k (by simp [hk])
    have hj2 := (mem_columns j).1 hj
    simp only [AlphaBeta.cutAt, AlphaBeta.cutP, Board.getHeight_of_range b hj2.1 hj2.2]
    by_cases h : b.height (colIdx j) ≥ ROW
    · rw [if_pos h, if_pos h]
      exact ih hr alpha
    · rw [if_neg h, if_neg h]
      have hl : b.Legal j := (legal_iff_height hj).2 (by omega)
      have hg1 : (b.put j SYM_O).Gravity := Board.gravity_put hg hl (by decide)
      simp only [Board.drop_eq_put hl SYMBOL_O, ab_value_eq ha hg1,
        Board.remove_put SYM_O hg hl]
      split
      · rfl
      · exact ih hr _

theorem nm_scanP_fst (dp : Option (Board → Int)) (b : Board) (L : List Int)
    (score : Int → Int) (m : Int) (j : Int) :
    (Negamax.scanP dp b L score m).1 j =
      if j ∈ L ∧ b.height (colIdx j) < ROW then Negamax.valueP dp (b.put j SYM_O)
      else score j := by
  induction L generalizing score m with
  | nil => simp [Negamax.scanP]
  | cons c rest ih =>
    simp only [Negamax.scanP]
    by_cases h : b.height (colIdx c) ≥ ROW
    · rw [if_pos h, ih]
      by_cases hjc : j = c
      · subst hjc
        rw [if_neg (by omega), if_neg (by omega)]
      · simp only [List.mem_cons, hjc, false_or]
    · rw [if_neg h, ih]
      by_cases hjc : j = c
      · subst hjc
        have hlt : b.height (colIdx j) < ROW := by omega
        simp only [List.mem_cons, true_or, true_and, Function.update_same, hlt, and_true,
          if_true]
        split <;> rfl
      · simp only [List.mem_cons, hjc, false_or, Function.update_noteq hjc]

theorem root_rel {dpA : Option (Board → Int → Int → Int)} {dpN : Option (Board → Int)}
    (hrel : SearchRel dpA dpN) (hbd : AlphaBeta.Bounded dpA) (b : Board) (beta : Int)
    (hbeta : 200 ≤ beta) (hhi : beta ≤ 2147483647) (L : List Int)
    (scoreA scoreN : Int → Int) (m alpha : Int) (hlo : -2147483648 < alpha)
    (ham : alpha ≤ m) (hab : alpha ≤ beta)
    (hsc : ∀ j, scoreA j = scoreN j ∨ (scoreA j < m ∧ scoreN j < m)) :
    (AlphaBeta.scanP dpA b L scoreA m alpha beta).2 = (Negamax.scanP dpN b L scoreN m).2 ∧
    ∀ j, (AlphaBeta.scanP dpA b L scoreA m alpha beta).1 j = (Negamax.scanP dpN b L scoreN m).1 j ∨
      ((AlphaBeta.scanP dpA b L scoreA m alpha beta).1 j
          < (AlphaBeta.scanP dpA b L scoreA m alpha beta).2 ∧
        (Negamax.scanP dpN b L scoreN m).1 j
          < (AlphaBeta.scanP dpA b L scoreA m alpha beta).2) := by
  induction L generalizing scoreA scoreN m alpha with
  | nil => exact ⟨rfl, hsc⟩
  | cons c rest ih =>
    simp only [AlphaBeta.scanP, Negamax.scanP]
    by_cases hfull : b.height (colIdx c) ≥ ROW
    · rw [if_pos hfull, if_pos hfull]
      exact ih scoreA scoreN m alpha hlo ham hab hsc
    · rw [if_neg hfull, if_neg hfull]
      obtain ⟨r1, r2, r3⟩ := valueP_rel hrel (b.put c SYM_O) hab hlo hhi
      have hv := ab_valueP_range hbd (b.put c SYM_O) alpha beta
      generalize AlphaBeta.valueP dpA (b.put c SYM_O) alpha beta = v at r1 r2 r3 hv ⊢
      generalize Negamax.valueP dpN (b.put c SYM_O) = t at r1 r2 r3 ⊢
      rw [if_neg (by omega)]
      by_cases hva : v < alpha
      · have htv := r1 hva
        have e1 : (if v > m then v else m) = m := if_neg (by omega)
        have e2 : (if t > m then t else m) = m := if_neg (by omega)
        have e3 : (if v > alpha then v else alpha) = alpha := if_neg (by omega)
        rw [e1, e2, e3]
        apply ih _ _ m alpha hlo ham hab
        intro j
        by_cases hj : j = c
        · subst hj
          right
          simp only [Function.update_same]
          omega
        · simp only [Function.update_noteq hj]
          exact hsc j
      · have htv := r2 (by omega) (by omega)
        subst htv
        have ha1 : alpha ≤ (if v > alpha then v else alpha) ∧
            (if v > alpha then v else alpha) ≤ (if v > m then v else m) ∧
            (if v > alpha then v else alpha) ≤ beta ∧ m ≤ (if v > m then v else m) := by
          split_ifs <;> omega
        generalize (if v > m then v else m) = m1 at ha1 ⊢
        generalize (if v > alpha then v else alpha) = a1 at ha1 ⊢
        apply ih _ _ m1 a1 (by omega) ha1.2.1 ha1.2.2.1
        intro j
        by_cases hj : j = c
        · subst hj
          left
          simp only [Function.update_same]
        · simp only [Function.update_noteq hj]
          rcases hsc j with h | ⟨h1, h2⟩
          · exact Or.inl h
          · exact Or.inr ⟨by omega, by omega⟩

theorem nm_scanP_fst_ORDER (dp : Option (Board → Int)) (b : Board) (score : Int → Int)
    (m1 m2 : Int) (j : Int) :
    (Negamax.scanP dp b ORDER score m1).1 j = (Negamax.scanP dp b columns score m2).1 j := by
  rw [nm_scanP_fst, nm_scanP_fst]
  simp only [mem_ORDER_iff]

theorem root_candidates (d : Nat) (b : Board) :
    (AlphaBeta.scanP (AlphaBeta.deeperP d) b ORDER (fun _ => -3 * INF) (-2 * INF)
        (-4 * INF) (4 * INF)).2 =
      (Negamax.scanP (Negamax.deeperP d) b columns (fun _ => -3 * INF) (-2 * INF)).2 ∧
    ∀ j,
      (AlphaBeta.scanP (AlphaBeta.deeperP d) b ORDER (fun _ => -3 * INF) (-2 * INF)
          (-4 * INF) (4 * INF)).1 j =
        (AlphaBeta.scanP (AlphaBeta.deeperP d) b ORDER (fun _ => -3 * INF) (-2 * INF)
          (-4 * INF) (4 * INF)).2 ↔
      (Negamax.scanP (Negamax.deeperP d) b columns (fun _ => -3 * INF) (-2 * INF)).1 j =
        (Negamax.scanP (Negamax.deeperP d) b columns (fun _ => -3 * INF) (-2 * INF)).2 := by
  obtain ⟨h1, h2⟩ := root_rel (searchRel_deeperP d) (ab_deeperP_bounded d) b
    (4 * INF) (by simp only [INF]; omega) (by simp only [INF]; omega) ORDER
    (fun _ => -3 * INF) (fun _ => -3 * INF) (-2 * INF) (-4 * INF) (by simp only [INF]; omega)
    (by simp only [INF]; omega) (by simp only [INF]; omega) (fun _ => Or.inl rfl)
  rw [nm_scanP_ORDER (Negamax.deeperP d) b (fun _ => -3 * INF) (fun _ => -3 * INF)] at h1
  refine ⟨h1, fun j => ?_⟩
  have h3 := h2 j
  rw [nm_scanP_fst_ORDER (Negamax.deeperP d) b (fun _ => -3 * INF) (-2 * INF) (-2 * INF) j,
    h1] at h3
  rw [h1]
  rcases h3 with h | ⟨ha, hb⟩
  · rw [h]
  · constructor
    · intro h; omega
    · intro h; omega

theorem root_same_choice {b : Board} (hg : b.Gravity) (d rnd : Nat) :
    AlphaBeta.negamax d b true (-4 * INF) (4 * INF) rnd = Negamax.negamax d b true rnd := by
  rw [ab_negamax_eq d rnd b true _ _ hg, nm_negamax_eq d rnd b true hg]
  obtain ⟨h1, h2⟩ := root_candidates d b
  have hl : (columns.filter fun j => decide
      ((AlphaBeta.scanP (AlphaBeta.deeperP d) b ORDER (fun _ => -3 * INF) (-2 * INF)
          (-4 * INF) (4 * INF)).1 j =
        (AlphaBeta.scanP (AlphaBeta.deeperP d) b ORDER (fun _ => -3 * INF) (-2 * INF)
          (-4 * INF) (4 * INF)).2)) =
      columns.filter fun j => decide
        ((Negamax.scanP (Negamax.deeperP d) b columns (fun _ => -3 * INF) (-2 * INF)).1 j =
          (Negamax.scanP (Negamax.deeperP d) b columns (fun _ => -3 * INF) (-2 * INF)).2) := by
    apply List.filter_congr
    intro j _
    simp only [h2 j]
  simp only [finish, if_true, hl]

/-- C14: on a board satisfying the gravity invariant with a legal column and for every
depth, the root of `AlphaBeta::negamax(board, depth, true, -4*INF, 4*INF)` and the root of
`Negamax::negamax(board, depth, true)` compute the same maximum and the same set of columns
whose recorded score is the maximum; for the same turn and the same random draw
`AlphaBeta::move` and `Negamax::move` return the same column. -/
theorem alphaBeta_same_candidates (b : Board) (depth turn rnd : Nat) (hg : b.Gravity)
    (hex : ∃ c, b.Legal c) :
    (∃ sA mA sN mN,
      AlphaBeta.scan (AlphaBeta.deeperS depth rnd) ORDER b (fun _ => -3 * INF) (-2 * INF)
          (-4 * INF) (4 * INF) = some (b, sA, mA) ∧
      Negamax.scan (Negamax.deeperS depth rnd) columns b (fun _ => -3 * INF) (-2 * INF)
          = some (b, sN, mN) ∧
      mA = mN ∧ ∀ j, sA j = mA ↔ sN j = mN) ∧
    (∃ c, AlphaBeta.negamax depth b true (-4 * INF) (4 * INF) rnd = some (c, b) ∧
      Negamax.negamax depth b true rnd = some (c, b)) ∧
    (∃ c, AlphaBeta.move depth b turn rnd = some (c, b) ∧
      Negamax.move depth b turn rnd = some (c, b)) := by
  refine ⟨⟨_, _, _, _, ab_scanS_eq hg depth rnd _ _, nm_scanS_eq hg depth rnd,
    (root_candidates depth b).1, (root_candidates depth b).2⟩, ?_, ?_⟩
  · obtain ⟨c, hc, -⟩ := nm_negamax_root hg hex depth rnd
    exact ⟨c, by rw [root_same_choice hg, hc], hc⟩
  · obtain ⟨c, hc, -⟩ := nm_move_ok hg hex depth turn rnd
    refine ⟨c, ?_, hc⟩
    rw [← hc]
    simp only [AlphaBeta.move, Negamax.move]
    by_cases ht : turn = PLAYER_X
    · simp only [if_pos ht, root_same_choice (Board.gravity_invert hg)]
    · simp only [if_neg ht, root_same_choice hg]

/-- An instance of C14, on the new board at depth 2 with `'x'` to move. -/
theorem alphaBeta_same_candidates_witness :
    Board.new.Gravity ∧ (∃ c, Board.new.Legal c) ∧
    ∃ c, AlphaBeta.move 2 Board.new 1 5 = some (c, Board.new) ∧
      Negamax.move 2 Board.new 1 5 = some (c, Board.new) :=
  ⟨Board.gravity_new, ⟨3, by decide⟩,
    (alphaBeta_same_candidates Board.new 2 1 5 Board.gravity_new ⟨3, by decide⟩).2.2⟩

theorem ab_cut_result {dp : Option (Board → Int → Int → Int)} (hbd : AlphaBeta.Bounded dp)
    (b : Board) (L : List Int) (score : Int → Int) (m alpha beta : Int)
    (hpre : NoCutYet beta score m) {c v : Int}
    (hcut : AlphaBeta.cutP dp b L alpha beta = some (c, v)) :
    beta < v ∧ c ∈ L ∧ b.height (colIdx c) < ROW ∧
      (AlphaBeta.scanP dp b L score m alpha beta).2 = v ∧
      (AlphaBeta.scanP dp b L score m alpha beta).1 c = v ∧
      ∀ j, (AlphaBeta.scanP dp b L score m alpha beta).1 j = v → j = c := by
  induction L generalizing score m alpha with
  | nil => cases hcut
  | cons c0 rest ih =>
    obtain ⟨p1, p2, p3⟩ := hpre
    simp only [AlphaBeta.cutP, AlphaBeta.scanP] at hcut ⊢
    by_cases hfull : b.height (colIdx c0) ≥ ROW
    · rw [if_pos hfull] at hcut ⊢
      obtain ⟨i1, i2, i3, i4⟩ := ih score m alpha ⟨p1, p2, p3⟩ hcut
      exact ⟨i1, List.mem_cons_of_mem _ i2, i3, i4⟩
    · rw [if_neg hfull] at hcut ⊢
      have hv := ab_valueP_range hbd (b.put c0 SYM_O) alpha beta
      generalize AlphaBeta.valueP dp (b.put c0 SYM_O) alpha beta = v0 at hv hcut ⊢
      by_cases hc : v0 > beta
      · rw [if_pos hc] at hcut ⊢
        simp only [Option.some.injEq, Prod.mk.injEq] at hcut
        obtain ⟨rfl, rfl⟩ := hcut
        refine ⟨hc, by simp, by omega, ?_, by simp, fun j hj => ?_⟩
        · simp only
          split_ifs <;> omega
        · by_contra hne
          simp only [Function.update_noteq hne] at hj
          rcases p3 j with h | h <;> omega
      · rw [if_neg hc] at hcut ⊢
        have hm1 : -200 ≤ (if v0 > m then v0 else m) ∧
            ((if v0 > m then v0 else m) = -200 ∨ (if v0 > m then v0 else m) ≤ beta) := by
          split_ifs <;> omega
        obtain ⟨i1, i2, i3, i4⟩ := ih (Function.update score c0 v0) (if v0 > m then v0 else m)
          (if v0 > alpha then v0 else alpha)
          ⟨hm1.1, hm1.2, fun j => by
            by_cases hj : j = c0
            · subst hj
              simp only [Function.update_same]
              right; omega
            · simp only [Function.update_noteq hj]
              exact p3 j⟩ hcut
        exact ⟨i1, List.mem_cons_of_mem _ i2, i3, i4⟩

theorem noCutYet_init (beta : Int) : NoCutYet beta (fun _ => -3 * INF) (-2 * INF) := by
  refine ⟨by simp only [INF]; omega, Or.inl (by simp only [INF]; omega), fun _ => Or.inl ?_⟩
  simp only [INF]; omega

theorem finish_of_unique {score : Int → Int} {m : Int} {c : Int} (hc : c ∈ columns)
    (hsc : score c = m) (huniq : ∀ j, score j = m → j = c) (rnd : Nat) :
    finish true rnd score m = some c := by
  simp only [finish, if_true]
  have hne : (columns.filter fun j => decide (score j = m)) ≠ [] :=
    List.ne_nil_of_mem (List.mem_filter.2 ⟨hc, by simpa using hsc⟩)
  obtain ⟨c1, hc1, hp⟩ := pick_mem _ hne rnd
  rw [List.mem_filter] at hc1
  rw [hp, huniq c1 (by simpa using hc1.2)]

theorem finish_some_ne_nil {score : Int → Int} {m : Int} {rnd : Nat} {c : Int}
    (h : finish true rnd score m = some c) :
    (columns.filter fun j => decide (score j = m)) ≠ [] ∧
      c ∈ columns.filter fun j => decide (score j = m) := by
  simp only [finish, if_true, pick] at h
  split at h
  · cases h
  · rename_i hlen
    refine ⟨fun he => hlen (by rw [he]; rfl), ?_⟩
    exact List.getElem?_mem h

/-- C13: on a board satisfying the gravity invariant with a legal column, for every depth and
every pair of bounds, `INT_MIN` and `INT_MAX` included (the bounds handed to the deeper
calls are negated as 32-bit `int`s), the root call
`AlphaBeta::negamax(board, depth, true, alpha, beta)` builds a non-empty candidate list and
returns one of its columns, which is in `[0, COL)` with height below `ROW`; and when the
column loop ends on its `break` at a column `c` whose value `v` exceeds `beta`, the score
recorded for `c` is `v` and `c` is the column returned. -/
theorem alphaBeta_root_cut (b : Board) (depth rnd : Nat) (alpha beta : Int) (hg : b.Gravity)
    (hex : ∃ c, b.Legal c) :
    ∃ score m c,
      AlphaBeta.scan (AlphaBeta.deeperS depth rnd) ORDER b (fun _ => -3 * INF) (-2 * INF)
        alpha beta = some (b, score, m) ∧
      (columns.filter fun j => decide (score j = m)) ≠ [] ∧
      AlphaBeta.negamax depth b true alpha beta rnd = some (c, b) ∧
      (c ∈ columns.filter fun j => decide (score j = m)) ∧
      (0 ≤ c ∧ c < (COL : Int) ∧ ∃ h, b.getHeight c = some h ∧ h < ROW) ∧
      ∃ cut, AlphaBeta.cutAt (AlphaBeta.deeperS depth rnd) ORDER b alpha beta = some cut ∧
        ∀ c1 v, cut = some (c1, v) → beta < v ∧ score c1 = v ∧ c1 = c := by
  obtain ⟨c, hc, hl⟩ := ab_negamax_root hg hex depth rnd alpha beta
  have hs := ab_scanS_eq hg depth rnd alpha beta
  have hn := ab_negamax_eq depth rnd b true alpha beta hg
  have hcutEq := ab_cutAt_eq _ _ (ab_agree_deeperS depth rnd) hg ORDER
    (fun _ h => mem_ORDER h) alpha beta
  generalize hS : AlphaBeta.scanP (AlphaBeta.deeperP depth) b ORDER (fun _ => -3 * INF)
    (-2 * INF) alpha beta = S at hs hn
  rw [hc] at hn
  have hfin : finish true rnd S.1 S.2 = some c := by
    cases hf : finish true rnd S.1 S.2 with
    | none => rw [hf] at hn; cases hn
    | some c2 =>
      rw [hf] at hn
      simp only [Option.map_some', Option.some.injEq, Prod.mk.injEq] at hn
      rw [hn.1]
  obtain ⟨hne, hmem⟩ := finish_some_ne_nil hfin
  refine ⟨S.1, S.2, c, hs, hne, hc, hmem, ⟨hl.1, hl.2.1, getHeight_of_legal hl⟩, _, hcutEq, ?_⟩
  intro c1 v hcut
  obtain ⟨k1, k2, -, k4, k5, k6⟩ := ab_cut_result (ab_deeperP_bounded depth) b ORDER
    (fun _ => -3 * INF) (-2 * INF) alpha beta (noCutYet_init beta) hcut
  rw [hS] at k4 k5 k6
  refine ⟨k1, k5, ?_⟩
  have hfin2 := finish_of_unique (mem_ORDER k2) (k5.trans k4.symm)
    (fun j hj => k6 j (hj.trans k4)) rnd
  rw [hfin] at hfin2
  exact (Option.some.inj hfin2).symm

set_option maxRecDepth 1000000 in
/-- Two instances of C13. On the new board at depth 1 with the degenerate bounds `(0, 0)` the
loop breaks at column 3, the first of `ORDER`, whose value 7 exceeds `beta`, and column 3
is returned. On `threatBoard` at depth 2 with both bounds `INT_MIN`, the deeper calls get
the bounds `-INT_MIN = INT_MIN` and break at their first column, so the root records -4
for column 3, breaks there and returns column 3. -/
theorem alphaBeta_root_cut_witness :
    (Board.new.Gravity ∧ (∃ c, Board.new.Legal c) ∧
      AlphaBeta.cutAt (AlphaBeta.deeperS 1 5) ORDER Board.new 0 0 = some (some (3, 7)) ∧
      AlphaBeta.negamax 1 Board.new true 0 0 5 = some (3, Board.new)) ∧
    (threatBoard.Gravity ∧ (∃ c, threatBoard.Legal c) ∧
      AlphaBeta.cutAt (AlphaBeta.deeperS 2 5) ORDER threatBoard INT_MIN INT_MIN
        = some (some (3, -4)) ∧
      AlphaBeta.negamax 2 threatBoard true INT_MIN INT_MIN 5 = some (3, threatBoard)) := by
  have hcut : AlphaBeta.cutAt (AlphaBeta.deeperS 1 5) ORDER Board.new 0 0
      = some (some (3, 7)) := by
    rw [ab_cutAt_eq _ _ (ab_agree_deeperS 1 5) Board.gravity_new ORDER (fun _ h => mem_ORDER h)]
    decide
  have hgt : threatBoard.Gravity := by decide
  have hcut2 : AlphaBeta.cutAt (AlphaBeta.deeperS 2 5) ORDER threatBoard INT_MIN INT_MIN
      = some (some (3, -4)) := by
    rw [ab_cutAt_eq _ _ (ab_agree_deeperS 2 5) hgt ORDER (fun _ h => mem_ORDER h)]
    decide
  constructor
  · obtain ⟨score, m, c, -, -, hn, -, -, cut, hc, hall⟩ :=
      alphaBeta_root_cut Board.new 1 5 0 0 Board.gravity_new ⟨3, by decide⟩
    rw [hcut] at hc
    have h3 := (hall 3 7 (Option.some.inj hc).symm).2.2
    rw [← h3] at hn
    exact ⟨Board.gravity_new, ⟨3, by decide⟩, hcut, hn⟩
  · obtain ⟨score, m, c, -, -, hn, -, -, cut, hc, hall⟩ :=
      alphaBeta_root_cut threatBoard 2 5 INT_MIN INT_MIN hgt ⟨3, by decide⟩
    rw [hcut2] at hc
    have h3 := (hall 3 (-4) (Option.some.inj hc).symm).2.2
    rw [← h3] at hn
    exact ⟨hgt, ⟨3, by decide⟩, hcut2, hn⟩

theorem eval_of_winner {b : Board} (hm : b.board.Marks)
    (h : b.checkWinner = some PLAYER_O ∨ b.checkWinner = some PLAYER_X) :
    ¬(-INF < eval b.board ∧ eval b.board < INF) := by
  have hf : HasFour b.board SYM_O ∨ HasFour b.board SYM_X := by
    rcases checkWinner_total hm with ⟨-, hc⟩ | ⟨hy, -⟩
    · rw [hc] at h
      rcases h with h | h <;> split at h <;> cases h
    · exact hy
  have hle : (0 : Int) ≤ (emptyCount b.board : Int) := Int.ofNat_nonneg _
  rcases eval_win b.board hf with ⟨he, -⟩ | ⟨he, -⟩ <;> rw [he] <;> simp only [INF] <;> omega

theorem nm_valueP_terminal (dp : Option (Board → Int)) {b : Board}
    (h : ¬(-INF < eval b.board ∧ eval b.board < INF)) : Negamax.valueP dp b = eval b.board := by
  cases dp with
  | none => rfl
  | some f => simp only [Negamax.valueP, if_neg h]

theorem nm_value_quiet {b : Board} (h : -INF < eval b.board ∧ eval b.board < INF) :
    Negamax.value (some fun _ => none) b = none := by
  simp only [Negamax.value, Board.getBoard, if_pos h]

theorem ab_value_quiet {b : Board} (h : -INF < eval b.board ∧ eval b.board < INF)
    (alpha beta : Int) : AlphaBeta.value (some fun _ _ _ => none) b alpha beta = none := by
  simp only [AlphaBeta.value, Board.getBoard, if_pos h]

/-- A position that holds a 4-in-a-row is not searched past: on a board satisfying the
gravity invariant, when the drop in a legal column gives a position on which `checkWinner`
returns `PLAYER_O` or `PLAYER_X`, the value of the column does not depend on the search one
ply deeper and the score `Negamax::negamax` records for the column is `eval` of the
position. -/
theorem win_not_searched (b b1 : Board) (c : Int) (depth rnd : Nat) (hg : b.Gravity)
    (hm : b.board.Marks) (hdrop : b.drop c PLAYER_O = some b1)
    (hwin : b1.checkWinner = some PLAYER_O ∨ b1.checkWinner = some PLAYER_X) :
    (∀ search, Negamax.value (some search) b1 = some (eval b1.board, b1)) ∧
    (∀ search alpha beta,
      AlphaBeta.value (some search) b1 alpha beta = some (eval b1.board, b1)) ∧
    (∃ score m,
      Negamax.scan (Negamax.deeperS depth rnd) columns b (fun _ => -3 * INF) (-2 * INF)
        = some (b, score, m) ∧ score c = eval b1.board) := by
  obtain ⟨hl, ch, hs, rfl⟩ := Board.drop_some hdrop
  cases hs
  have hterm := eval_of_winner (marks_put (c := c) hm (Or.inl rfl)) hwin
  refine ⟨fun search => ?_, fun search alpha beta => ?_, ?_⟩
  · simp only [Negamax.value, Board.getBoard, if_neg hterm, Board.invertBoard_invertBoard]
  · simp only [AlphaBeta.value, Board.getBoard, if_neg hterm, Board.invertBoard_invertBoard]
  · have h1 : (Negamax.scanP (Negamax.deeperP depth) b columns (fun _ => -3 * INF)
        (-2 * INF)).1 c = eval (b.put c SYM_O).board := by
      rw [nm_scanP_fst, if_pos ⟨legal_mem_columns hl, hl.2.2⟩]
      exact nm_valueP_terminal _ hterm
    exact ⟨_, _, nm_scanS_eq hg depth rnd, h1⟩

set_option maxRecDepth 10000000 in
theorem draw_position_facts :
    lastMoveBoard.invertBoard.Gravity ∧ lastMoveBoard.invertBoard.Legal 5 ∧
    (lastMoveBoard.invertBoard.put 5 SYM_O).checkWinner = some DRAW ∧
    eval (lastMoveBoard.invertBoard.put 5 SYM_O).board = 0 ∧
    (Negamax.scanP (Negamax.deeperP 2) lastMoveBoard.invertBoard columns
      (fun _ => -3 * INF) (-2 * INF)).1 5 = 200 ∧
    (AlphaBeta.scanP (AlphaBeta.deeperP 2) lastMoveBoard.invertBoard ORDER
      (fun _ => -3 * INF) (-2 * INF) (-4 * INF) (4 * INF)).1 5 = 200 := by
  decide

set_option maxRecDepth 1000000 in
/-- C15 at the failing input, the board of a drawn game one move before its end, as
`Negamax::move` and `AlphaBeta::move` hand it to `negamax` for `PLAYER_X` at depth 2: the
drop in column 5 fills the board without a 4-in-a-row, so `checkWinner` returns `DRAW` on
the position, yet its value depends on the search one ply deeper, and the score recorded
for column 5 is `2*INF = 200`, the negated initial `maxscore` of the deeper call, while
`eval` of the position is 0. -/
theorem search_past_draw :
    lastMoveBoard.invertBoard.Gravity ∧ lastMoveBoard.invertBoard.Legal 5 ∧
    ∃ b1, lastMoveBoard.invertBoard.drop 5 PLAYER_O = some b1 ∧
      b1.checkWinner = some DRAW ∧ eval b1.board = 0 ∧
      Negamax.value (some fun _ => none) b1 = none ∧
      AlphaBeta.value (some fun _ _ _ => none) b1 (-4 * INF) (4 * INF) = none ∧
      (∃ score m,
        Negamax.scan (Negamax.deeperS 2 0) columns lastMoveBoard.invertBoard
          (fun _ => -3 * INF) (-2 * INF) = some (lastMoveBoard.invertBoard, score, m) ∧
        score 5 = 200) ∧
      ∃ score m,
        AlphaBeta.scan (AlphaBeta.deeperS 2 0) ORDER lastMoveBoard.invertBoard
          (fun _ => -3 * INF) (-2 * INF) (-4 * INF) (4 * INF)
          = some (lastMoveBoard.invertBoard, score, m) ∧
        score 5 = 200 := by
  obtain ⟨hg, hl, hcw, hev, hn, ha⟩ := draw_position_facts
  have hq : -INF < eval (lastMoveBoard.invertBoard.put 5 SYM_O).board ∧
      eval (lastMoveBoard.invertBoard.put 5 SYM_O).board < INF := by
    rw [hev]
    decide
  have hd : lastMoveBoard.invertBoard.drop 5 PLAYER_O
      = some (lastMoveBoard.invertBoard.put 5 SYM_O) := Board.drop_eq_put hl (by decide)
  have h1 := nm_scanS_eq hg 2 0
  have h2 := ab_scanS_eq hg 2 0 (-4 * INF) (4 * INF)
  exact ⟨hg, hl, lastMoveBoard.invertBoard.put 5 SYM_O, hd, hcw, hev, nm_value_quiet hq,
    ab_value_quiet hq _ _, ⟨_, _, h1, hn⟩, ⟨_, _, h2, ha⟩⟩

theorem searcher_nodes_unchanged (a : Searcher) (board : Board) (turn rnd : Nat) :
    (∀ r, a.moveNegamax board turn rnd = some r → r.2.2.getNodes = a.getNodes) ∧
    (∀ r, a.moveAlphaBeta board turn rnd = some r → r.2.2.getNodes = a.getNodes) := by
  constructor
  · intro r h
    unfold Searcher.moveNegamax at h
    split at h
    · cases h
    · cases h
      rfl
  · intro r h
    unfold Searcher.moveAlphaBeta at h
    split at h
    · cases h
    · cases h
      rfl

set_option maxRecDepth 1000000 in
/-- C20 at the failing input: on the empty board, for a fresh agent of depth 1, turn 0 and
draw 0, `move` of `Negamax` and of `AlphaBeta` returns column 3 after scoring the seven
positions one drop away, and `getNodes()` is 0 before the call and 0 after it. -/
theorem getNodes_stays_zero :
    (Searcher.new 1).getNodes = 0 ∧
    (Searcher.new 1).moveNegamax Board.new 0 0 = some (3, Board.new, Searcher.new 1) ∧
    (Searcher.new 1).moveAlphaBeta Board.new 0 0 = some (3, Board.new, Searcher.new 1) ∧
    (∀ j ∈ columns, (Negamax.scanP (Negamax.deeperP 1) Board.new columns
      (fun _ => -3 * INF) (-2 * INF)).1 j ≠ -3 * INF) ∧
    ((Searcher.new 1).moveNegamax Board.new 0 0).map (fun r => r.2.2.getNodes) = some 0 ∧
    ((Searcher.new 1).moveAlphaBeta Board.new 0 0).map (fun r => r.2.2.getNodes) = some 0 := by
  have f1 : finish true 0
      (Negamax.scanP (Negamax.deeperP 1) Board.new columns (fun _ => -3 * INF) (-2 * INF)).1
      (Negamax.scanP (Negamax.deeperP 1) Board.new columns (fun _ => -3 * INF) (-2 * INF)).2
      = some 3 := by decide
  have f2 : finish true 0
      (AlphaBeta.scanP (AlphaBeta.deeperP 1) Board.new ORDER (fun _ => -3 * INF) (-2 * INF)
        (-4 * INF) (4 * INF)).1
      (AlphaBeta.scanP (AlphaBeta.deeperP 1) Board.new ORDER (fun _ => -3 * INF) (-2 * INF)
        (-4 * INF) (4 * INF)).2 = some 3 := by decide
  have h1 : Negamax.move 1 Board.new 0 0 = some (3, Board.new) := by
    simp only [Negamax.move, PLAYER_X]
    rw [if_neg (by decide), nm_negamax_eq 1 0 Board.new true Board.gravity_new, f1]
    rfl
  have h2 : AlphaBeta.move 1 Board.new 0 0 = some (3, Board.new) := by
    simp only [AlphaBeta.move, PLAYER_X]
    rw [if_neg (by decide), ab_negamax_eq 1 0 Board.new true _ _ Board.gravity_new, f2]
    rfl
  have e1 : (Searcher.new 1).moveNegamax Board.new 0 0
      = some (3, Board.new, Searcher.new 1) := by
    simp only [Searcher.moveNegamax, Searcher.new, h1]
  have e2 : (Searcher.new 1).moveAlphaBeta Board.new 0 0
      = some (3, Board.new, Searcher.new 1) := by
    simp only [Searcher.moveAlphaBeta, Searcher.new, h2]
  refine ⟨rfl, e1, e2, by decide, ?_, ?_⟩
  · rw [e1]
    rfl
  · rw [e2]
    rfl

set_option maxRecDepth 10000000 in
theorem winOrDraw_facts :
    winOrDrawBoard.invertBoard.Gravity ∧
    (winOrDrawBoard.invertBoard.put 2 SYM_O).checkWinner = some PLAYER_O ∧
    (playFrom winOrDrawBoard 1 [3, 2, 2]).checkWinner = some DRAW ∧
    columns.map (Negamax.scanP (Negamax.deeperP 4) winOrDrawBoard.invertBoard columns
      (fun _ => -3 * INF) (-2 * INF)).1 = [-300, -300, 102, 200, -300, -300, -300] ∧
    columns.map (AlphaBeta.scanP (AlphaBeta.deeperP 4) winOrDrawBoard.invertBoard ORDER
      (fun _ => -3 * INF) (-2 * INF) (-4 * INF) (4 * INF)).1
      = [-300, -300, 102, 200, -300, -300, -300] ∧
    finish true 0
      (Negamax.scanP (Negamax.deeperP 4) winOrDrawBoard.invertBoard columns
        (fun _ => -3 * INF) (-2 * INF)).1
      (Negamax.scanP (Negamax.deeperP 4) winOrDrawBoard.invertBoard columns
        (fun _ => -3 * INF) (-2 * INF)).2 = some 3 ∧
    finish true 0
      (AlphaBeta.scanP (AlphaBeta.deeperP 4) winOrDrawBoard.invertBoard ORDER
        (fun _ => -3 * INF) (-2 * INF) (-4 * INF) (4 * INF)).1
      (AlphaBeta.scanP (AlphaBeta.deeperP 4) winOrDrawBoard.invertBoard ORDER
        (fun _ => -3 * INF) (-2 * INF) (-4 * INF) (4 * INF)).2 = some 3 := by
  decide

/-- The score `2*INF` of a searched full board outranks a win: on `winOrDrawBoard`, with
`'x'` to move, the drop in column 2 wins at once (score 102), and at depth 4 `Negamax::move`
and `AlphaBeta::move` record 200 for column 3, whose line ends on the full board without a
4-in-a-row three plies later, and return column 3. -/
theorem draw_preferred_to_win :
    (winOrDrawBoard.invertBoard.put 2 SYM_O).checkWinner = some PLAYER_O ∧
    (playFrom winOrDrawBoard 1 [3, 2, 2]).checkWinner = some DRAW ∧
    columns.map (Negamax.scanP (Negamax.deeperP 4) winOrDrawBoard.invertBoard columns
      (fun _ => -3 * INF) (-2 * INF)).1 = [-300, -300, 102, 200, -300, -300, -300] ∧
    Negamax.move 4 winOrDrawBoard PLAYER_X 0 = some (3, winOrDrawBoard) ∧
    AlphaBeta.move 4 winOrDrawBoard PLAYER_X 0 = some (3, winOrDrawBoard) := by
  obtain ⟨hg, h1, h2, h3, -, f1, f2⟩ := winOrDraw_facts
  refine ⟨h1, h2, h3, ?_, ?_⟩
  · simp only [Negamax.move, PLAYER_X, if_true]
    rw [nm_negamax_eq 4 0 winOrDrawBoard.invertBoard true hg, f1]
    simp only [Option.map_some', Board.invertBoard_invertBoard]
  · simp only [AlphaBeta.move, PLAYER_X, if_true]
    rw [ab_negamax_eq 4 0 winOrDrawBoard.invertBoard true _ _ hg, f2]
    simp only [Option.map_some', Board.invertBoard_invertBoard]

end ConnectFour
